import Mathlib

/-!
Verification of the `recreateTransform` document-diff reconstruction
algorithm (ProseMirror recreate-transform).  The document model, the
content-diff primitives, the step-application engine, the text-diff
primitive and the simplifier are external collaborators of the core; they
are embedded here following their documented contracts (spec sections 3,
4.1 and 6), while the core (driver loops, classifier, boundary resolver,
text run editor, markup/structural editors, mark reconciler) is translated
directly from the source.
-/

set_option maxHeartbeats 1000000

namespace Recreate

/-- An inline annotation ("mark"): a type name plus an attribute map. -/
structure Mark where
  typ : String
  attrs : List (String × String)
deriving DecidableEq, Repr

/-- Modelled from the spec (section 3, external document model): a document
tree node is either a text leaf (a literal string plus a mark list) or an
element with a type name, attributes, marks and an ordered child list. -/
inductive Node where
  | text : List Char → List Mark → Node
  | elem : String → List (String × String) → List Mark → List Node → Node
deriving Repr

/-- Canonical linearization token: each node boundary is one unit, each
character of text is one unit (spec section 3, "Position"). -/
inductive Token where
  | openT : String → List (String × String) → List Mark → Token
  | closeT : Token
  | charT : Char → List Mark → Token
deriving DecidableEq, Repr

mutual
def Node.beq : Node → Node → Bool
  | .text s m, .text s2 m2 => s == s2 && m == m2
  | .elem t a m c, .elem t2 a2 m2 c2 =>
      t == t2 && a == a2 && m == m2 && Node.beqList c c2
  | _, _ => false
def Node.beqList : List Node → List Node → Bool
  | [], [] => true
  | x :: xs, y :: ys => Node.beq x y && Node.beqList xs ys
  | _, _ => false
end

mutual
theorem Node.beq_iff : ∀ a b : Node, Node.beq a b = true ↔ a = b
  | .text s m, .text s2 m2 => by
      simp [Node.beq, Node.text.injEq]
  | .text _ _, .elem _ _ _ _ => by simp [Node.beq]
  | .elem _ _ _ _, .text _ _ => by simp [Node.beq]
  | .elem t a m c, .elem t2 a2 m2 c2 => by
      simp [Node.beq, Node.beqList_iff c c2, Node.elem.injEq, and_assoc]
theorem Node.beqList_iff : ∀ xs ys : List Node, Node.beqList xs ys = true ↔ xs = ys
  | [], [] => by simp [Node.beqList]
  | [], _ :: _ => by simp [Node.beqList]
  | _ :: _, [] => by simp [Node.beqList]
  | x :: xs, y :: ys => by
      simp [Node.beqList, Node.beq_iff x y, Node.beqList_iff xs ys]
end

instance : DecidableEq Node := fun a b =>
  decidable_of_iff (Node.beq a b = true) (Node.beq_iff a b)

mutual
/-- Token stream of a node (external model, linearization of spec sec. 3). -/
def Node.tokens : Node → List Token
  | .text s m => s.map (fun c => Token.charT c m)
  | .elem t a m c => Token.openT t a m :: (tokensList c ++ [Token.closeT])
/-- Token stream of a fragment (ordered node list). -/
def tokensList : List Node → List Token
  | [] => []
  | n :: ns => n.tokens ++ tokensList ns
end

/-- `nodeSize` of the external model: text length, or 2 + content size. -/
def Node.nodeSize (n : Node) : Nat := n.tokens.length

/-- Content size of a fragment. -/
def fragSize (ns : List Node) : Nat := (tokensList ns).length

def Node.isText : Node → Bool
  | .text _ _ => true
  | .elem _ _ _ _ => false

def Node.typ : Node → String
  | .text _ _ => "text"
  | .elem t _ _ _ => t

def Node.attrs : Node → List (String × String)
  | .text _ _ => []
  | .elem _ a _ _ => a

def Node.marks : Node → List Mark
  | .text _ m => m
  | .elem _ _ m _ => m

def Node.content : Node → List Node
  | .text _ _ => []
  | .elem _ _ _ c => c

/-- The literal string of a text leaf (empty for elements). -/
def Node.textStr : Node → List Char
  | .text s _ => s
  | .elem _ _ _ _ => []

/-- "Same markup": same node kind, type name, attributes and mark list,
ignoring content (external model contract, spec section 6). -/
def Node.sameMarkup (a b : Node) : Bool :=
  a.isText == b.isText && a.typ == b.typ && a.attrs == b.attrs && a.marks == b.marks

theorem Node.tokens_text (s : List Char) (m : List Mark) :
    (Node.text s m).tokens = s.map (fun c => Token.charT c m) := by
  simp [Node.tokens]

theorem Node.tokens_elem (t : String) (a : List (String × String)) (m : List Mark)
    (c : List Node) :
    (Node.elem t a m c).tokens = Token.openT t a m :: (tokensList c ++ [Token.closeT]) := by
  simp [Node.tokens]

theorem tokensList_cons (n : Node) (ns : List Node) :
    tokensList (n :: ns) = n.tokens ++ tokensList ns := by
  simp [tokensList]

theorem tokensList_nil : tokensList [] = [] := by simp [tokensList]

theorem fragSize_cons (n : Node) (ns : List Node) :
    fragSize (n :: ns) = n.nodeSize + fragSize ns := by
  simp [fragSize, tokensList_cons, Node.nodeSize]

theorem Node.nodeSize_text (s : List Char) (m : List Mark) :
    (Node.text s m).nodeSize = s.length := by
  simp [Node.nodeSize, Node.tokens]

theorem Node.nodeSize_elem (t : String) (a : List (String × String)) (m : List Mark)
    (c : List Node) :
    (Node.elem t a m c).nodeSize = 2 + fragSize c := by
  simp [Node.nodeSize, Node.tokens, fragSize]
  omega

/-- Length of the longest common prefix of two sequences. -/
def commonStartLen {α : Type} [DecidableEq α] : List α → List α → Nat
  | a :: as, b :: bs => if a = b then commonStartLen as bs + 1 else 0
  | _, _ => 0

theorem sizeOf_list_pos {α : Type} [SizeOf α] (xs : List α) : 0 < sizeOf xs := by
  cases xs <;> simp_arith

theorem Node.sizeOf_content_lt (n : Node) : sizeOf n.content < sizeOf n := by
  cases n with
  | text s m =>
      have h1 := sizeOf_list_pos s
      have h2 := sizeOf_list_pos m
      simp [Node.content]
      try omega
  | elem t a m c => simp [Node.content]; try omega

mutual
/-- Modelled from the spec (sec. 4.1, external content-diff primitive):
first position at which the linear content of two fragments disagrees,
`none` when they are equal.  Child nodes are compared pairwise; text leaves
with equal markup are compared character by character; equal-markup
elements are recursed into. -/
def findDiffStart : List Node → List Node → Nat → Option Nat
  | [], [], _ => none
  | [], _ :: _, pos => some pos
  | _ :: _, [], pos => some pos
  | ca :: cas, cb :: cbs, pos =>
    if ca = cb then findDiffStart cas cbs (pos + ca.nodeSize)
    else
      match findDiffStartPair ca cb pos with
      | some r => some r
      | none => findDiffStart cas cbs (pos + ca.nodeSize)
/-- Handling of one unequal child pair: different markup ends the scan
here; same-markup unequal text leaves diverge after their common prefix;
same-markup elements are recursed into (`none` bubbles up to continue the
sibling scan). -/
def findDiffStartPair : Node → Node → Nat → Option Nat
  | .text s m, .text s2 m2, pos =>
      if (Node.text s m).sameMarkup (.text s2 m2) = false then some pos
      else if s != s2 then some (pos + commonStartLen s s2)
      else none
  | .elem t a m c, .elem t2 a2 m2 c2, pos =>
      if (Node.elem t a m c).sameMarkup (.elem t2 a2 m2 c2) = false then some pos
      else if 0 < fragSize c || 0 < fragSize c2 then findDiffStart c c2 (pos + 1)
      else none
  | _, _, pos => some pos
end

mutual
/-- Mirror image of a node: children reversed recursively, text reversed. -/
def Node.mirror : Node → Node
  | .text s m => .text s.reverse m
  | .elem t a m c => .elem t a m (mirrorList c)
/-- Mirror image of a fragment. -/
def mirrorList : List Node → List Node
  | [] => []
  | n :: ns => mirrorList ns ++ [n.mirror]
end

/-- Modelled from the spec (sec. 4.1, external content-diff primitive):
the two end positions (one per fragment) at which the trailing content of
the two fragments starts matching again, obtained by scanning backward
from each end; `none` when the fragments are equal.  The backward scan is
the forward scan of the mirrored fragments, with positions translated back
from the end. -/
def findDiffEnd (a b : List Node) : Option (Nat × Nat) :=
  (findDiffStart (mirrorList a) (mirrorList b) 0).map
    (fun p => (fragSize a - p, fragSize b - p))

/-- Data of a resolved position: depth, parent node, text offset, and the
nodes immediately before and after the position (external model). -/
structure RInfo where
  depth : Nat
  parent : Node
  textOffset : Nat
  nodeBefore : Option Node
  nodeAfter : Option Node
deriving Repr

mutual
/-- Resolve a position inside a child sequence (external model: walks the
children, descending into the element that contains the position). -/
def resolveSeq (children : List Node) (pos : Nat) (depth : Nat) (parent : Node)
    (prev : Option Node) : Option RInfo :=
  match children with
  | [] => if pos = 0 then some ⟨depth, parent, 0, prev, none⟩ else none
  | c :: rest =>
    if pos = 0 then some ⟨depth, parent, 0, prev, some c⟩
    else if pos < c.nodeSize then
      match c with
      | .text s m =>
          some ⟨depth, parent, pos, some (.text (s.take pos) m), some (.text (s.drop pos) m)⟩
      | .elem t a m cc => resolveSeq cc (pos - 1) (depth + 1) (.elem t a m cc) none
    else resolveSeq rest (pos - c.nodeSize) depth parent (some c)
end

/-- Resolve a position in a document (position 0 is before the first child
of the root).  Out-of-range positions resolve to a degenerate root info,
mirroring the fact that the source never resolves out of range. -/
def Node.resolveIn (doc : Node) (pos : Nat) : RInfo :=
  (resolveSeq doc.content pos 0 doc none).getD ⟨0, doc, 0, none, none⟩

/-- `ResolvedPos.marks()` of the external model: the marks "in force" at a
position — the marks of the containing text node, else of the node before
(falling back to the node after). -/
def Node.marksAt (doc : Node) (pos : Nat) : List Mark :=
  let r := doc.resolveIn pos
  if fragSize r.parent.content = 0 then []
  else if r.textOffset ≠ 0 then (r.nodeAfter.getD r.parent).marks
  else
    match r.nodeBefore, r.nodeAfter with
    | some m, _ => m.marks
    | none, some o => o.marks
    | none, none => []

mutual
/-- `Node.nodeAt` of the external model: the node starting at (or, for text,
containing) the given position, `none` past the end. -/
def nodeAtSeq : List Node → Nat → Option Node
  | [], _ => none
  | c :: rest, pos =>
    if pos = 0 then some c
    else if pos < c.nodeSize then nodeAtIn c pos
    else nodeAtSeq rest (pos - c.nodeSize)
/-- Descend into a node that covers the position. -/
def nodeAtIn : Node → Nat → Option Node
  | .text s m, _ => some (.text s m)
  | .elem _ _ _ cc, pos => nodeAtSeq cc (pos - 1)
end

def Node.nodeAt (doc : Node) (pos : Nat) : Option Node :=
  nodeAtSeq doc.content pos

/-- PM type identity of a node: node kind together with the type name. -/
def Node.sameTyp (a b : Node) : Bool :=
  a.isText == b.isText && a.typ == b.typ

/-- Leading run of character tokens whose marks equal `m` (text joining of
the external model: adjacent text with identical markup is one node). -/
def takeCharRun (m : List Mark) : List Token → List Char × List Token
  | Token.charT c m2 :: rest =>
      if m2 = m then
        let p := takeCharRun m rest
        (c :: p.1, p.2)
      else ([], Token.charT c m2 :: rest)
  | ts => ([], ts)

/-- Parse a balanced token stream back into a fragment, joining adjacent
equal-marked characters into single text leaves (external model:
`Fragment.fromArray` joins adjacent same-markup text nodes).  Returns the
parsed nodes and the unconsumed remainder (which starts with a close token
or is empty); fails on unbalanced streams. -/
def parseSeq : Nat → List Token → Option (List Node × List Token)
  | 0, _ => none
  | _, [] => some ([], [])
  | _ + 1, Token.closeT :: rest => some ([], Token.closeT :: rest)
  | fuel + 1, Token.charT c m :: rest =>
      let p := takeCharRun m rest
      match parseSeq fuel p.2 with
      | some (ns, r2) => some (Node.text (c :: p.1) m :: ns, r2)
      | none => none
  | fuel + 1, Token.openT t a m :: rest =>
      match parseSeq fuel rest with
      | some (ns, Token.closeT :: r2) =>
        match parseSeq fuel r2 with
        | some (ns2, r3) => some (Node.elem t a m ns :: ns2, r3)
        | none => none
      | _ => none

/-- Parse a complete balanced token stream into a fragment. -/
def parseTokens (ts : List Token) : Option (List Node) :=
  match parseSeq (ts.length + 1) ts with
  | some (ns, []) => some ns
  | _ => none

/-- Injective sort key of a mark. -/
def markKey (m : Mark) : List String :=
  m.typ :: (m.attrs.map (fun p => [p.1, p.2])).flatten

def charLtB (a b : Char) : Bool := decide (a < b)

/-- Boolean lexicographic order from element order and equality tests. -/
def listLtB {α : Type} (ltB eqB : α → α → Bool) : List α → List α → Bool
  | [], [] => false
  | [], _ :: _ => true
  | _ :: _, [] => false
  | a :: as, b :: bs => ltB a b || (eqB a b && listLtB ltB eqB as bs)

def strLtB (a b : String) : Bool := listLtB charLtB (fun x y => x == y) a.data b.data

/-- Strict canonical order on marks (external model: marks are kept in a
canonical rank order inside a mark list). -/
def markLt (a b : Mark) : Bool :=
  listLtB strLtB (fun x y => x == y) (markKey a) (markKey b)

def insertMarkSorted (m : Mark) : List Mark → List Mark
  | [] => [m]
  | x :: xs => if markLt m x then m :: x :: xs else x :: insertMarkSorted m xs

/-- `Mark.addToSet` of the external model: no duplicate, canonical order. -/
def Mark.addToSet (m : Mark) (ms : List Mark) : List Mark :=
  if m ∈ ms then ms else insertMarkSorted m ms

/-- `Mark.removeFromSet` of the external model. -/
def Mark.removeFromSet (m : Mark) (ms : List Mark) : List Mark :=
  ms.filter (fun x => x != m)

/-- `Mark.isInSet` of the external model. -/
def Mark.isInSet (m : Mark) (ms : List Mark) : Bool := ms.contains m

/-- An edit step (spec sec. 3): replace-range, set-node-markup, or a
mark-range add/remove. -/
inductive Step where
  | replace : Nat → Nat → List Token → Step
  | setNodeMarkup : Nat → Option String → List (String × String) → List Mark → Step
  | addMark : Nat → Nat → Mark → Step
  | removeMark : Nat → Nat → Mark → Step
deriving DecidableEq, Repr

/-- Replace the root's content, keeping the root markup. -/
def docWithContent (doc : Node) (ns : List Node) : Node :=
  match doc with
  | .text s m => .text s m
  | .elem t a m _ => .elem t a m ns

/-- Apply `f` to the tokens with index in `[lo, hi)`. -/
def mapRange (f : Token → Token) (lo hi : Nat) (ts : List Token) : List Token :=
  ts.mapIdx (fun i t => if lo ≤ i ∧ i < hi then f t else t)

def tokenAddMark (m : Mark) : Token → Token
  | .charT c ms => .charT c (Mark.addToSet m ms)
  | t => t

def tokenRemoveMark (m : Mark) : Token → Token
  | .charT c ms => .charT c (Mark.removeFromSet m ms)
  | t => t

def markMapDoc (doc : Node) (f : Token → Token) (lo hi : Nat) : Except String Node :=
  match parseTokens (mapRange f lo hi (tokensList doc.content)) with
  | some ns => .ok (docWithContent doc ns)
  | none => .error "Invalid content"

/-- Modelled from the spec (sec. 3 and 6, external step-application
engine): applying a step either produces the new document or reports an
explicit failure, never a silent partial application.  A replace step
splices the slice's tokens over the deleted range and re-parses; a
set-node-markup step rewrites the node's open token in place; mark steps
rewrite the mark lists of the characters in range. -/
def applyStep (doc : Node) : Step → Except String Node
  | .replace lo hi slice =>
      let ts := tokensList doc.content
      if lo ≤ hi ∧ hi ≤ ts.length then
        match parseTokens (ts.take lo ++ slice ++ ts.drop hi) with
        | some ns => .ok (docWithContent doc ns)
        | none => .error "Invalid content"
      else .error "Position out of range"
  | .setNodeMarkup pos typ attrs marks =>
      let ts := tokensList doc.content
      match ts.get? pos with
      | some (Token.openT t0 _ _) =>
          match parseTokens (ts.take pos ++ [Token.openT (typ.getD t0) attrs marks] ++
              ts.drop (pos + 1)) with
          | some ns => .ok (docWithContent doc ns)
          | none => .error "Invalid content"
      | _ => .error "No node at given position"
  | .addMark lo hi m => markMapDoc doc (tokenAddMark m) lo hi
  | .removeMark lo hi m => markMapDoc doc (tokenRemoveMark m) lo hi

/-- A transform: the current document plus the ordered applied step list
(spec sec. 3): appending a step applies it to the current document; a
failing step leaves the transform unchanged and reports the failure. -/
structure Transform where
  doc : Node
  steps : List Step
deriving DecidableEq, Repr

instance {ε α : Type} [DecidableEq ε] [DecidableEq α] : DecidableEq (Except ε α)
  | .ok x, .ok y => decidable_of_iff (x = y) (by simp)
  | .error x, .error y => decidable_of_iff (x = y) (by simp)
  | .ok _, .error _ => isFalse (fun h => Except.noConfusion h)
  | .error _, .ok _ => isFalse (fun h => Except.noConfusion h)

def Transform.step (tr : Transform) (s : Step) : Except String Transform :=
  match applyStep tr.doc s with
  | .ok d => .ok ⟨d, tr.steps ++ [s]⟩
  | .error e => .error e

def Transform.replaceWith (tr : Transform) (lo hi : Nat) (n : Node) :
    Except String Transform :=
  tr.step (.replace lo hi n.tokens)

def Transform.insert (tr : Transform) (pos : Nat) (n : Node) : Except String Transform :=
  tr.replaceWith pos pos n

def Transform.delete (tr : Transform) (lo hi : Nat) : Except String Transform :=
  tr.step (.replace lo hi [])

def Transform.addMark (tr : Transform) (lo hi : Nat) (m : Mark) : Except String Transform :=
  tr.step (.addMark lo hi m)

def Transform.removeMark (tr : Transform) (lo hi : Nat) (m : Mark) : Except String Transform :=
  tr.step (.removeMark lo hi m)

/-- The sub-tree slice of the document between two positions, as tokens. -/
def sliceTokens (d : Node) (lo hi : Nat) : List Token :=
  ((tokensList d.content).take hi).drop lo

/-- Score for a potential replacement boundary; higher is better
(`calculateBoundaryScore` of the source, with exact rational arithmetic
for the size penalty).  Factors: tree depth at the boundary (penalty),
identical node at the boundary (+20) else same markup (+5), same node type
immediately before the boundary (+3), total replaced size (-0.1 per unit). -/
def calculateBoundaryScore (fromDoc toDoc : Node) (start endA endB : Nat) : Rat :=
  let fromDepth := (fromDoc.resolveIn start).depth
  let toDepth := (toDoc.resolveIn endA).depth
  let score1 : Rat := 0 - (((fromDepth + toDepth) * 2 : Nat) : Rat)
  let score2 : Rat := score1 +
    (match fromDoc.nodeAt start, toDoc.nodeAt start with
     | some fn, some tn =>
        if fn = tn then (20 : Rat) else if fn.sameMarkup tn then (5 : Rat) else 0
     | _, _ => 0)
  let score3 : Rat := score2 +
    (if 0 < start then
       match (fromDoc.resolveIn start).nodeBefore, (toDoc.resolveIn start).nodeBefore with
       | some fb, some tb => if fb.sameTyp tb then (3 : Rat) else 0
       | _, _ => 0
     else 0)
  let replacementSize : Nat :=
    ((endB : Int) - (start : Int)).natAbs + ((endA : Int) - (start : Int)).natAbs
  score3 - (replacementSize : Rat) / 10

/-- `getReplaceStep` of the source: locate the divergence window, resolve
an ambiguous overlap by scoring the two candidate windows (shift the start
back, or extend both ends forward; the strictly higher score wins, ties
extend forward), and build the replace step deleting `[start, endB)` and
inserting the target's slice `[start, endA)`. -/
def getReplaceStep (fromDoc toDoc : Node) : Option Step :=
  match findDiffStart toDoc.content fromDoc.content 0 with
  | none => none
  | some start0 =>
    match findDiffEnd toDoc.content fromDoc.content with
    | none => none
    | some (endA0, endB0) =>
      let overlap : Int := (start0 : Int) - min (endA0 : Int) (endB0 : Int)
      if 0 < overlap then
        let scoreStart :=
          calculateBoundaryScore fromDoc toDoc (start0 - overlap.toNat) endA0 endB0
        let scoreEnd :=
          calculateBoundaryScore fromDoc toDoc start0 (endA0 + overlap.toNat)
            (endB0 + overlap.toNat)
        if scoreEnd < scoreStart then
          some (.replace (start0 - overlap.toNat) endB0
            (sliceTokens toDoc (start0 - overlap.toNat) endA0))
        else
          some (.replace start0 (endB0 + overlap.toNat)
            (sliceTokens toDoc start0 (endA0 + overlap.toNat)))
      else some (.replace start0 endB0 (sliceTokens toDoc start0 endA0))

/-- One segment of a string diff: unchanged, added or removed. -/
structure DSeg where
  added : Bool
  removed : Bool
  value : List Char
deriving DecidableEq, Repr

/-- Length of the longest common suffix of two strings. -/
def commonEndLen (a b : List Char) : Nat := commonStartLen a.reverse b.reverse

/-- Modelled from the spec (sec. 4.4 and 6, external text-diff primitive):
a finite ordered sequence of unchanged/removed/added segments for two
token lists, via longest common prefix and suffix; a removed segment
precedes the corresponding added one. -/
def diffRuns {α : Type} [DecidableEq α] (join : List α → List Char) (a b : List α) :
    List DSeg :=
  let p := commonStartLen a b
  let a1 := a.drop p
  let b1 := b.drop p
  let s := commonStartLen a1.reverse b1.reverse
  let midA := a1.take (a1.length - s)
  let midB := b1.take (b1.length - s)
  (if 0 < p then [⟨false, false, join (a.take p)⟩] else []) ++
  (if midA ≠ [] then [⟨false, true, join midA⟩] else []) ++
  (if midB ≠ [] then [⟨true, false, join midB⟩] else []) ++
  (if 0 < s then [⟨false, false, join (a1.drop (a1.length - s))⟩] else [])

/-- Character-granularity diff (external text-diff primitive). -/
def diffChars (a b : List Char) : List DSeg := diffRuns (fun l => l) a b

/-- Split a string into maximal runs of whitespace / non-whitespace. -/
def splitWords (s : List Char) : List (List Char) :=
  s.splitBy (fun a b => a.isWhitespace == b.isWhitespace)

/-- Whitespace-preserving word-granularity diff (external primitive). -/
def diffWordsWithSpace (a b : List Char) : List DSeg :=
  diffRuns (fun ws => ws.flatten) (splitWords a) (splitWords b)

mutual
/-- Join adjacent same-markup text leaves (fragment normalization of the
external model). -/
def mergeTexts : List Node → List Node
  | [] => []
  | .text s m :: rest => mergeRun s m rest
  | .elem t a m c :: rest => .elem t a m c :: mergeTexts rest
/-- Accumulate a run of same-markup text leaves into one leaf. -/
def mergeRun (s : List Char) (m : List Mark) : List Node → List Node
  | [] => [Node.text s m]
  | .text s2 m2 :: rest =>
      if (Node.text s m).sameMarkup (.text s2 m2) then mergeRun (s ++ s2) m rest
      else Node.text s m :: mergeRun s2 m2 rest
  | .elem t a mm c :: rest =>
      Node.text s m :: .elem t a mm c :: mergeTexts rest
end

mutual
/-- Modelled from the spec (sec. 4.7, `removeMarks` helper): the
annotation-stripped copy of a node: every mark list emptied, structure and
text preserved, adjacent text leaves re-joined. -/
def Node.stripMarks : Node → Node
  | .text s _ => .text s []
  | .elem t a _ c => .elem t a [] (mergeTexts (stripMarksList c))
def stripMarksList : List Node → List Node
  | [] => []
  | n :: ns => n.stripMarks :: stripMarksList ns
end

/-- `removeMarks` of the source (external helper, modelled from the spec). -/
def removeMarks (d : Node) : Node := d.stripMarks

/-- Classification tag of a divergence. -/
inductive DiffType where
  | text
  | markup
  | structural
deriving DecidableEq, Repr

/-- A divergence record (spec sec. 3): classification, start, the two end
positions, the nodes found at the start, and the enclosing text-run start. -/
structure DiffResult where
  type : DiffType
  start : Nat
  endFrom : Nat
  endTo : Nat
  fromNode : Option Node
  toNode : Option Node
  textNodeStart : Nat
deriving DecidableEq, Repr

/-- `classifyDiff` of the source: labels a divergence as a text change
(both start nodes are text leaves with same markup, equal parent depth,
type and markup, and the strings share a prefix or one is empty), a markup
change (both non-text, deeply equal content, different markup), else
structural. -/
def textCaseB (fromDoc toDoc : Node) (start : Nat) : Bool :=
  match fromDoc.nodeAt start, toDoc.nodeAt start with
  | some fn, some tn =>
      fn.isText && tn.isText && fn.sameMarkup tn &&
      ((fromDoc.resolveIn start).depth == (toDoc.resolveIn start).depth) &&
      (fromDoc.resolveIn start).parent.sameTyp (toDoc.resolveIn start).parent &&
      (fromDoc.resolveIn start).parent.sameMarkup (toDoc.resolveIn start).parent &&
      (decide (0 < commonStartLen fn.textStr tn.textStr) ||
        fn.textStr.isEmpty || tn.textStr.isEmpty)
  | _, _ => false

def markupCaseB (fromDoc toDoc : Node) (start : Nat) : Bool :=
  match fromDoc.nodeAt start, toDoc.nodeAt start with
  | some fn, some tn =>
      !fn.isText && !tn.isText && decide (fn.content = tn.content) &&
        !(fn.sameMarkup tn)
  | _, _ => false

def classifyDiff (fromDoc toDoc : Node) (start endFrom endTo : Nat) : DiffResult :=
  let fromNode := fromDoc.nodeAt start
  let toNode := toDoc.nodeAt start
  let textNodeStart :=
    match fromNode with
    | some fn =>
        if fn.isText then start - (fromDoc.resolveIn start).textOffset else start
    | none => start
  if textCaseB fromDoc toDoc start then
    ⟨.text, start, endFrom, endTo, fromNode, toNode, textNodeStart⟩
  else if markupCaseB fromDoc toDoc start then
    ⟨.markup, start, endFrom, endTo, fromNode, toNode, textNodeStart⟩
  else ⟨.structural, start, endFrom, endTo, fromNode, toNode, textNodeStart⟩

/-- Segment walk of `applyTextDiff`: an added segment immediately followed
by a removed one (or vice versa) becomes a single replace, a solitary
added segment an insert, a solitary removed segment a delete, and
unchanged segments advance the offset.  `applyTextSegsGo` carries the
current segment and the remaining ones. -/
def applyTextSegsGo (marks : List Mark) :
    DSeg → List DSeg → Nat → Transform → Except String Transform
  | seg, [], offset, tr =>
    if seg.added then tr.insert offset (Node.text seg.value marks)
    else if seg.removed then tr.delete offset (offset + seg.value.length)
    else .ok tr
  | seg, next :: rest, offset, tr =>
    if seg.added then
      if next.removed then do
        let tr2 ← tr.replaceWith offset (offset + next.value.length)
          (Node.text seg.value marks)
        match rest with
        | [] => pure tr2
        | r :: rs => applyTextSegsGo marks r rs (offset + seg.value.length) tr2
      else do
        let tr2 ← tr.insert offset (Node.text seg.value marks)
        applyTextSegsGo marks next rest (offset + seg.value.length) tr2
    else if seg.removed then
      if next.added then do
        let tr2 ← tr.replaceWith offset (offset + seg.value.length)
          (Node.text next.value marks)
        match rest with
        | [] => pure tr2
        | r :: rs => applyTextSegsGo marks r rs (offset + next.value.length) tr2
      else do
        let tr2 ← tr.delete offset (offset + seg.value.length)
        applyTextSegsGo marks next rest offset tr2
    else applyTextSegsGo marks next rest (offset + seg.value.length) tr

/-- Walk all diff segments from the run's start offset. -/
def applyTextSegs (marks : List Mark) (segs : List DSeg) (offset : Nat)
    (tr : Transform) : Except String Transform :=
  match segs with
  | [] => .ok tr
  | seg :: rest => applyTextSegsGo marks seg rest offset tr

/-- `applyTextDiff` of the source: run the string diff over the full text
of the two runs and emit the edits; inserted text carries the marks
resolved once from the current (annotated) document at the position just
after the run's start. -/
def applyTextDiff (wordDiffs : Bool) (tr : Transform) (diff : DiffResult) :
    Except String Transform :=
  applyTextSegs (tr.doc.marksAt (diff.textNodeStart + 1))
    (if wordDiffs then
      diffWordsWithSpace ((diff.fromNode.map Node.textStr).getD [])
        ((diff.toNode.map Node.textStr).getD [])
     else
      diffChars ((diff.fromNode.map Node.textStr).getD [])
        ((diff.toNode.map Node.textStr).getD []))
    diff.textNodeStart tr

/-- `applyMarkupDiff` of the source: one set-node-markup step at the start
position, with the target node's type (when different), attributes, marks. -/
def applyMarkupDiff (tr : Transform) (diff : DiffResult) : Except String Transform :=
  match diff.fromNode, diff.toNode with
  | some fn, some tn =>
      let nodeType := if fn.sameTyp tn then none else some tn.typ
      tr.step (.setNodeMarkup diff.start nodeType tn.attrs tn.marks)
  | _, _ => .error "TypeError"

/-- `applyStructuralDiff` of the source: one replace step computed by
`getReplaceStep` on the two documents being compared; a failing step is a
loud error; an absent step is silently skipped. -/
def applyStructuralDiff (tr : Transform) (fromDoc toDoc : Node) :
    Except String Transform :=
  match getReplaceStep fromDoc toDoc with
  | none => .ok tr
  | some s =>
    match tr.step s with
    | .ok tr2 => .ok tr2
    | .error e => .error ("ReplaceStep failed: " ++ e)

/-- `applyDiff` of the source: dispatch on the classification tag. -/
def applyDiff (wordDiffs : Bool) (tr : Transform) (diff : DiffResult)
    (fromDoc toDoc : Node) : Except String Transform :=
  match diff.type with
  | .text => applyTextDiff wordDiffs tr diff
  | .markup => applyMarkupDiff tr diff
  | .structural => applyStructuralDiff tr fromDoc toDoc

/-- `MAX_ITERATIONS` of the source. -/
def MAX_ITERATIONS : Nat := 1000

/-- The loop of `recreateStructuralSteps`: find the next divergence
between the stripped current document and the stripped target, classify,
apply, re-strip; the remaining fuel is the number of iterations still
allowed, and exhausting it is the max-iterations error (the source checks
`iterations < MAX_ITERATIONS` before re-testing convergence). -/
def structuralLoop (wordDiffs : Bool) (toDocNoMarks : Node) :
    Nat → Node → Transform → Except String Transform
  | 0, _, _ => .error "Max iterations reached in recreateStructuralSteps"
  | fuel + 1, currentDoc, tr =>
    match findDiffStart toDocNoMarks.content currentDoc.content 0 with
    | none => .ok tr
    | some start =>
      match findDiffEnd toDocNoMarks.content currentDoc.content with
      | none => .ok tr
      | some (endTo, endFrom) =>
        match applyDiff wordDiffs tr (classifyDiff currentDoc toDocNoMarks start endFrom endTo)
            currentDoc toDocNoMarks with
        | .error e => .error e
        | .ok tr2 => structuralLoop wordDiffs toDocNoMarks fuel (removeMarks tr2.doc) tr2

/-- `recreateStructuralSteps` of the source. -/
def recreateStructuralSteps (wordDiffs : Bool) (toDoc : Node) (tr : Transform) :
    Except String Transform :=
  structuralLoop wordDiffs (removeMarks toDoc) MAX_ITERATIONS (removeMarks tr.doc) tr

/-- The loop of `recreateAllSteps` (simple mode): repeatedly compute one
replace step between the current document and the target and apply it. -/
def allStepsLoop (toDoc : Node) : Nat → Transform → Except String Transform
  | 0, _ => .error "Max iterations reached in recreateAllSteps"
  | fuel + 1, tr =>
    match getReplaceStep tr.doc toDoc with
    | none => .ok tr
    | some s =>
      match tr.step s with
      | .error e => .error ("ReplaceStep failed: " ++ e)
      | .ok tr2 => allStepsLoop toDoc fuel tr2

/-- `recreateAllSteps` of the source. -/
def recreateAllSteps (toDoc : Node) (tr : Transform) : Except String Transform :=
  allStepsLoop toDoc MAX_ITERATIONS tr

mutual
/-- All nodes of a fragment with their positions, in document order
(`descendants` of the external model; inline nodes are not descended
into). -/
def descendantsAux : List Node → Nat → List (Node × Nat)
  | [], _ => []
  | n :: ns, pos =>
      ((n, pos) :: descendantsIn n pos) ++ descendantsAux ns (pos + n.nodeSize)
def descendantsIn : Node → Nat → List (Node × Nat)
  | .text _ _, _ => []
  | .elem _ _ _ c, pos => descendantsAux c (pos + 1)
end

mutual
/-- Nodes of a fragment overlapping the range `(lo, hi)` with their
positions (`nodesBetween` of the external model): a node at `[pos, pos +
size)` is visited when `lo < pos + size` and `pos < hi`. -/
def nodesBetweenAux : List Node → Nat → Nat → Nat → List (Node × Nat)
  | [], _, _, _ => []
  | n :: ns, pos, lo, hi =>
      (if lo < pos + n.nodeSize ∧ pos < hi then
        (n, pos) :: nodesBetweenIn n pos lo hi
       else []) ++
      nodesBetweenAux ns (pos + n.nodeSize) lo hi
def nodesBetweenIn : Node → Nat → Nat → Nat → List (Node × Nat)
  | .text _ _, _, _, _ => []
  | .elem _ _ _ c, pos, lo, hi => nodesBetweenAux c (pos + 1) lo hi
end

/-- The inline (text) nodes of a document with positions. -/
def inlineNodesIn (d : Node) : List (Node × Nat) :=
  (descendantsAux d.content 0).filter (fun p => p.1.isText)

/-- The inline (text) nodes of a document overlapping a range. -/
def inlineNodesBetween (d : Node) (lo hi : Nat) : List (Node × Nat) :=
  (nodesBetweenAux d.content 0 lo hi).filter (fun p => p.1.isText)

/-- Inner body of the mark reconciler for one target inline node: walk the
overlapping inline content of the current document; over each overlap
range remove the marks missing on the target side and add the ones
missing on the current side. -/
def reconcileMarksOne (tr : Transform) (tNode : Node) (tPos : Nat) :
    Except String Transform :=
  (inlineNodesBetween tr.doc tPos (tPos + tNode.nodeSize)).foldlM
    (fun tr2 fp => do
      let fNode := fp.1
      let fPos := fp.2
      let lo := max tPos fPos
      let hi := min (tPos + tNode.nodeSize) (fPos + fNode.nodeSize)
      let tr3 ← fNode.marks.foldlM
        (fun trx mk =>
          if mk.isInSet tNode.marks then pure trx else trx.removeMark lo hi mk) tr2
      tNode.marks.foldlM
        (fun trx mk =>
          if mk.isInSet fNode.marks then pure trx else trx.addMark lo hi mk) tr3)
    tr

/-- `recreateChangeMarkSteps` of the source: reconcile marks after the
structural phase, walking the target's inline content. -/
def recreateChangeMarkSteps (tr : Transform) (toDoc : Node) :
    Except String Transform :=
  (inlineNodesIn toDoc).foldlM (fun tr2 tp => reconcileMarksOne tr2 tp.1 tp.2) tr

/-- Modelled from the spec (sec. 6, external simplifier): merges or
cancels redundant steps without changing the resulting document; modelled
as the identity on transforms, which satisfies that contract. -/
def simplifyTransform (tr : Transform) : Transform := tr

/-- The options of `recreateTransform`, with their defaults (spec sec. 6). -/
structure Options where
  complexSteps : Bool := true
  wordDiffs : Bool := false
  simplifyDiff : Bool := true
deriving DecidableEq, Repr

/-- `RecreateTransform.init` of the source: detailed mode runs the
structural phase then the mark reconciler; simple mode runs the replace
loop; optionally the result goes through the simplifier. -/
def init (fromDoc toDoc : Node) (o : Options) : Except String Transform := do
  let tr0 : Transform := ⟨fromDoc, []⟩
  let tr ←
    if o.complexSteps then do
      let tr1 ← recreateStructuralSteps o.wordDiffs toDoc tr0
      recreateChangeMarkSteps tr1 toDoc
    else recreateAllSteps toDoc tr0
  pure (if o.simplifyDiff then simplifyTransform tr else tr)

/-- `recreateTransform` of the source: the public entry point. -/
def recreateTransform (fromDoc toDoc : Node) (o : Options) :
    Except String Transform :=
  init fromDoc toDoc o

/-- Example marks and documents used in concrete instances. -/
def exBold : Mark := ⟨"bold", []⟩

def exItalic : Mark := ⟨"italic", []⟩

def exPara (ns : List Node) : Node := Node.elem "paragraph" [] [] ns

def exDoc (ns : List Node) : Node := Node.elem "doc" [] [] ns

/-- One paragraph with two differently marked text runs. -/
def exTwoRunsA : Node :=
  exDoc [exPara [Node.text "ab".data [exBold], Node.text "cd".data [exItalic]]]

/-- The same document with an extra character inside the second run. -/
def exTwoRunsB : Node :=
  exDoc [exPara [Node.text "ab".data [exBold], Node.text "cXd".data [exItalic]]]

/-- One paragraph of plain text. -/
def exSplitA : Node := exDoc [exPara [Node.text "ab".data []]]

/-- The same text split into two paragraphs, the second one italic. -/
def exSplitB : Node :=
  exDoc [exPara [Node.text "a".data []], exPara [Node.text "b".data [exItalic]]]

/-- Two documents equal except for the root node's attributes. -/
def exRootA : Node :=
  Node.elem "doc" [("version", "1")] [] [exPara [Node.text "a".data []]]

def exRootB : Node :=
  Node.elem "doc" [("version", "2")] [] [exPara [Node.text "a".data []]]

end Recreate

namespace Recreate

/-- The text condition of the classifier, stated as in the specification:
the nodes at the start position in both documents are text leaves with
identical type, attributes and annotation list; the enclosing parents are
at equal tree depth with equal type and equal markup; and the two leaves'
strings share a non-empty common prefix or at least one of them is empty. -/
def TextCond (fromDoc toDoc : Node) (start : Nat) : Prop :=
  ∃ fn tn, fromDoc.nodeAt start = some fn ∧ toDoc.nodeAt start = some tn ∧
    fn.isText = true ∧ tn.isText = true ∧ fn.sameMarkup tn = true ∧
    (fromDoc.resolveIn start).depth = (toDoc.resolveIn start).depth ∧
    (fromDoc.resolveIn start).parent.sameTyp (toDoc.resolveIn start).parent = true ∧
    (fromDoc.resolveIn start).parent.sameMarkup (toDoc.resolveIn start).parent = true ∧
    (0 < commonStartLen fn.textStr tn.textStr ∨ fn.textStr = [] ∨ tn.textStr = [])

/-- The markup condition of the classifier, stated as in the specification:
both nodes exist, neither is a text leaf, their content is deeply equal,
and their markup differs. -/
def MarkupCond (fromDoc toDoc : Node) (start : Nat) : Prop :=
  ∃ fn tn, fromDoc.nodeAt start = some fn ∧ toDoc.nodeAt start = some tn ∧
    fn.isText = false ∧ tn.isText = false ∧ fn.content = tn.content ∧
    fn.sameMarkup tn = false

theorem textCaseB_iff (fromDoc toDoc : Node) (start : Nat) :
    textCaseB fromDoc toDoc start = true ↔ TextCond fromDoc toDoc start := by
  unfold textCaseB TextCond
  cases hf : fromDoc.nodeAt start <;> cases ht : toDoc.nodeAt start <;>
    simp [List.isEmpty_iff, and_assoc, or_assoc]

theorem markupCaseB_iff (fromDoc toDoc : Node) (start : Nat) :
    markupCaseB fromDoc toDoc start = true ↔ MarkupCond fromDoc toDoc start := by
  unfold markupCaseB MarkupCond
  cases hf : fromDoc.nodeAt start <;> cases ht : toDoc.nodeAt start <;>
    simp [and_assoc]

end Recreate

namespace Recreate

/-- C5: the diff classifier labels a divergence as text if and only if the
nodes at the start position in both documents are text leaves with
identical type, attributes and annotation list, their enclosing parents
are at equal tree depth with equal type and equal markup, and the two
leaves' strings share a non-empty common prefix or at least one is empty;
and it labels a divergence as structural if and only if it meets neither
the text nor the markup conditions. -/
theorem classifyDiff_text_iff_and_structural_iff
    (fromDoc toDoc : Node) (start endFrom endTo : Nat) :
    ((classifyDiff fromDoc toDoc start endFrom endTo).type = DiffType.text ↔
      TextCond fromDoc toDoc start) ∧
    ((classifyDiff fromDoc toDoc start endFrom endTo).type = DiffType.structural ↔
      ¬ TextCond fromDoc toDoc start ∧ ¬ MarkupCond fromDoc toDoc start) := by
  have ht := textCaseB_iff fromDoc toDoc start
  have hm := markupCaseB_iff fromDoc toDoc start
  unfold classifyDiff
  by_cases h1 : textCaseB fromDoc toDoc start = true
  · simp only [h1, if_true]
    constructor
    · simpa using ht.mp h1
    · constructor
      · intro hc
        simp at hc
      · intro hc
        exact absurd (ht.mp h1) hc.1
  · by_cases h2 : markupCaseB fromDoc toDoc start = true
    · simp only [h1, h2, Bool.false_eq_true, if_false, if_true]
      constructor
      · constructor
        · intro hc; simp at hc
        · intro hc; rw [← ht] at hc; exact absurd hc h1
      · constructor
        · intro hc; simp at hc
        · intro hc; exact absurd (hm.mp h2) hc.2
    · simp only [h1, h2, Bool.false_eq_true, if_false]
      constructor
      · constructor
        · intro hc; simp at hc
        · intro hc; rw [← ht] at hc; exact absurd hc h1
      · constructor
        · intro _
          constructor
          · intro hc; rw [← ht] at hc; exact absurd hc h1
          · intro hc; rw [← hm] at hc; exact absurd hc h2
        · intro _; trivial

end Recreate

namespace Recreate

/-- C6: when the divergence window `(start, endA, endB)` is found, the
boundary resolver emits, for an unambiguous window (`overlap ≤ 0`), the
replace step deleting `[start, endB)` of the source and inserting the
target's slice `[start, endA)`; for an ambiguous window (`overlap > 0`) it
scores the shifted-start window against the extended-ends window, picks
the shifted start only on a strictly higher score, and otherwise (tie or
lower) extends both ends forward. -/
theorem getReplaceStep_boundary (fromDoc toDoc : Node) (start endA endB : Nat)
    (hs : findDiffStart toDoc.content fromDoc.content 0 = some start)
    (he : findDiffEnd toDoc.content fromDoc.content = some (endA, endB)) :
    ((start : Int) - min (endA : Int) (endB : Int) ≤ 0 →
      getReplaceStep fromDoc toDoc =
        some (Step.replace start endB (sliceTokens toDoc start endA))) ∧
    (∀ ov : Nat, (start : Int) - min (endA : Int) (endB : Int) = (ov : Int) → 0 < ov →
      (calculateBoundaryScore fromDoc toDoc start (endA + ov) (endB + ov) <
          calculateBoundaryScore fromDoc toDoc (start - ov) endA endB →
        getReplaceStep fromDoc toDoc =
          some (Step.replace (start - ov) endB (sliceTokens toDoc (start - ov) endA))) ∧
      (calculateBoundaryScore fromDoc toDoc (start - ov) endA endB ≤
          calculateBoundaryScore fromDoc toDoc start (endA + ov) (endB + ov) →
        getReplaceStep fromDoc toDoc =
          some (Step.replace start (endB + ov) (sliceTokens toDoc start (endA + ov))))) := by
  unfold getReplaceStep
  simp only [hs, he]
  constructor
  · intro hov
    have hneg : ¬ (0 < (start : Int) - min (endA : Int) (endB : Int)) := by omega
    simp only [if_neg hneg]
  · intro ov hov hpos
    have hlt : (0 : Int) < (start : Int) - min (endA : Int) (endB : Int) := by omega
    have htn : ((start : Int) - min (endA : Int) (endB : Int)).toNat = ov := by
      omega
    simp only [if_pos hlt, htn]
    constructor
    · intro hsc
      rw [if_pos hsc]
    · intro hsc
      rw [if_neg (not_lt.mpr hsc)]

/-- Example documents: one paragraph of plain text. -/
def exHelloWorld : Node :=
  Node.elem "doc" [] [] [Node.elem "paragraph" [] []
    [Node.text "Hello world".data []]]

def exHelloThere : Node :=
  Node.elem "doc" [] [] [Node.elem "paragraph" [] []
    [Node.text "Hello there".data []]]

theorem getReplaceStep_boundary_witness :
    findDiffStart exHelloThere.content exHelloWorld.content 0 = some 7 ∧
    findDiffEnd exHelloThere.content exHelloWorld.content = some (12, 12) ∧
    getReplaceStep exHelloWorld exHelloThere =
      some (Step.replace 7 12 (sliceTokens exHelloThere 7 12)) := by
  refine ⟨by decide, by decide, ?_⟩
  exact (getReplaceStep_boundary exHelloWorld exHelloThere 7 12 12
    (by decide) (by decide)).1 (by decide)

end Recreate

namespace Recreate

/-- C2 counterexample: in detailed mode on `exSplitA → exSplitB` the first
divergence is classified structural, yet the emitted replace step is the
one computed from the two annotation-stripped copies, and it differs from
the step the divergence locator and boundary resolver produce on the two
full annotated documents being compared (the real transformed document
`exSplitA` and the real target `exSplitB`): the stripped-copy step carries
no marks and a different window. -/
theorem structuralStepNotFromFullDocs_cex :
    findDiffStart (removeMarks exSplitB).content (removeMarks exSplitA).content 0 =
      some 2 ∧
    findDiffEnd (removeMarks exSplitB).content (removeMarks exSplitA).content =
      some (4, 2) ∧
    (classifyDiff (removeMarks exSplitA) (removeMarks exSplitB) 2 2 4).type =
      DiffType.structural ∧
    (recreateTransform exSplitA exSplitB {}).toOption.map (fun tr => tr.steps.head?) =
      some (some (Step.replace 2 2 [Token.closeT, Token.openT "paragraph" [] []])) ∧
    getReplaceStep exSplitA exSplitB =
      some (Step.replace 2 3 [Token.closeT, Token.openT "paragraph" [] [],
        Token.charT 'b' [exItalic]]) ∧
    Step.replace 2 2 [Token.closeT, Token.openT "paragraph" [] []] ≠
      Step.replace 2 3 [Token.closeT, Token.openT "paragraph" [] [],
        Token.charT 'b' [exItalic]] := by
  refine ⟨by decide, by decide, by decide, by decide, by decide, by decide⟩

/-- C2 amended: in detailed mode, whenever a divergence is classified as
structural, the replace step is computed by invoking the divergence
locator and boundary resolver on the two annotation-stripped copies
currently being compared (the stripped current document and the stripped
target), and the resulting edit is applied to the real annotated
transform; the structural phase runs the loop on the stripped copies. -/
theorem structuralStepFromStrippedDocs (wordDiffs : Bool) (toDoc : Node)
    (tr : Transform) :
    recreateStructuralSteps wordDiffs toDoc tr =
      structuralLoop wordDiffs (removeMarks toDoc) MAX_ITERATIONS
        (removeMarks tr.doc) tr ∧
    (∀ fuel cur (tr2 : Transform) start endTo endFrom,
      findDiffStart (removeMarks toDoc).content cur.content 0 = some start →
      findDiffEnd (removeMarks toDoc).content cur.content = some (endTo, endFrom) →
      (classifyDiff cur (removeMarks toDoc) start endFrom endTo).type =
        DiffType.structural →
      structuralLoop wordDiffs (removeMarks toDoc) (fuel + 1) cur tr2 =
        match getReplaceStep cur (removeMarks toDoc) with
        | none => structuralLoop wordDiffs (removeMarks toDoc) fuel
            (removeMarks tr2.doc) tr2
        | some s =>
          match tr2.step s with
          | .ok tr3 => structuralLoop wordDiffs (removeMarks toDoc) fuel
              (removeMarks tr3.doc) tr3
          | .error e => .error ("ReplaceStep failed: " ++ e)) := by
  refine ⟨rfl, ?_⟩
  intro fuel cur tr2 start endTo endFrom hs he hc
  simp only [structuralLoop, hs, he]
  have hd : applyDiff wordDiffs tr2
      (classifyDiff cur (removeMarks toDoc) start endFrom endTo) cur
      (removeMarks toDoc) =
      applyStructuralDiff tr2 cur (removeMarks toDoc) := by
    unfold applyDiff
    rw [hc]
  rw [hd]
  unfold applyStructuralDiff
  cases hg : getReplaceStep cur (removeMarks toDoc) with
  | none => simp
  | some s =>
    cases ht : tr2.step s with
    | ok tr3 => simp [ht]
    | error e => simp [ht]

theorem structuralStepFromStrippedDocs_witness :
    structuralLoop false (removeMarks exSplitB) 1 (removeMarks exSplitA)
      ⟨exSplitA, []⟩ =
      (match getReplaceStep (removeMarks exSplitA) (removeMarks exSplitB) with
       | none => structuralLoop false (removeMarks exSplitB) 0
           (removeMarks (⟨exSplitA, []⟩ : Transform).doc) ⟨exSplitA, []⟩
       | some s =>
         match Transform.step ⟨exSplitA, []⟩ s with
         | .ok tr3 => structuralLoop false (removeMarks exSplitB) 0
             (removeMarks tr3.doc) tr3
         | .error e => .error ("ReplaceStep failed: " ++ e)) :=
  (structuralStepFromStrippedDocs false exSplitB ⟨exSplitA, []⟩).2
    0 (removeMarks exSplitA) ⟨exSplitA, []⟩ 2 4 2
    (by decide) (by decide) (by decide)

end Recreate

namespace Recreate

/-- The inserted slice of a replace step (empty for other steps). -/
def stepSlice : Step → List Token
  | .replace _ _ sl => sl
  | _ => []

/-- C4 counterexample: on `exTwoRunsA → exTwoRunsB` in detailed mode the
divergence at position 4 is text-classified and the text run editor
inserts the segment "X" at offset 4 carrying the bold annotation (the list
resolved once at the run's start), whereas the annotation list in force in
the currently transformed document immediately after that insertion point
(position 5, inside the italic run) is the italic list: the inserted node
does not carry the marks at its own insertion point. -/
theorem insertedTextMarks_cex :
    findDiffStart (removeMarks exTwoRunsB).content (removeMarks exTwoRunsA).content 0 =
      some 4 ∧
    findDiffEnd (removeMarks exTwoRunsB).content (removeMarks exTwoRunsA).content =
      some (5, 4) ∧
    (classifyDiff (removeMarks exTwoRunsA) (removeMarks exTwoRunsB) 4 4 5).type =
      DiffType.text ∧
    (applyTextDiff false ⟨exTwoRunsA, []⟩
        (classifyDiff (removeMarks exTwoRunsA) (removeMarks exTwoRunsB) 4 4 5)).toOption.map
        (fun tr => tr.steps) =
      some [Step.replace 4 4 [Token.charT 'X' [exBold]]] ∧
    exTwoRunsA.marksAt (4 + 1) = [exItalic] ∧
    [exBold] ≠ [exItalic] := by
  refine ⟨by decide, by decide, by decide, by decide, by decide, by decide⟩

theorem Transform.step_steps {tr : Transform} {s : Step} {tr' : Transform}
    (h : tr.step s = .ok tr') : tr'.steps = tr.steps ++ [s] ∧ applyStep tr.doc s = .ok tr'.doc := by
  unfold Transform.step at h
  cases ha : applyStep tr.doc s with
  | ok d => rw [ha] at h; cases h; exact ⟨rfl, rfl⟩
  | error e => rw [ha] at h; cases h

theorem applyTextSegsGoSteps (marks : List Mark) :
    ∀ (seg : DSeg) (rest : List DSeg) (offset : Nat) (tr tr' : Transform),
      applyTextSegsGo marks seg rest offset tr = .ok tr' →
      ∃ ext, tr'.steps = tr.steps ++ ext ∧
        ∀ s ∈ ext, ∀ c ms, Token.charT c ms ∈ stepSlice s → ms = marks
  | seg, [], offset, tr, tr' => by
    intro h
    have hmem : ∀ (lo hi : Nat) (v : List Char) (c : Char) (ms : List Mark),
        Token.charT c ms ∈ stepSlice (Step.replace lo hi (Node.text v marks).tokens) →
        ms = marks := by
      intro lo hi v c ms hm
      simp only [stepSlice, Node.tokens, List.mem_map, Token.charT.injEq] at hm
      obtain ⟨x, hx, h1, h2⟩ := hm
      exact h2.symm
    unfold applyTextSegsGo at h
    by_cases ha : seg.added = true
    · simp only [ha, if_true] at h
      refine ⟨[Step.replace offset offset (Node.text seg.value marks).tokens],
        (Transform.step_steps h).1, ?_⟩
      intro s hs c ms hm
      simp at hs
      subst hs
      exact hmem _ _ _ _ _ hm
    · rw [Bool.not_eq_true] at ha
      simp only [ha, Bool.false_eq_true, if_false] at h
      by_cases hr : seg.removed = true
      · simp only [hr, if_true] at h
        refine ⟨[Step.replace offset (offset + seg.value.length) []],
          (Transform.step_steps h).1, ?_⟩
        intro s hs c ms hm
        simp at hs
        subst hs
        simp [stepSlice] at hm
      · rw [Bool.not_eq_true] at hr
        simp only [hr, Bool.false_eq_true, if_false] at h
        cases h
        exact ⟨[], by simp, by simp⟩
  | seg, next :: rest2, offset, tr, tr' => by
    intro h
    have hmem : ∀ (lo hi : Nat) (v : List Char) (c : Char) (ms : List Mark),
        Token.charT c ms ∈ stepSlice (Step.replace lo hi (Node.text v marks).tokens) →
        ms = marks := by
      intro lo hi v c ms hm
      simp only [stepSlice, Node.tokens, List.mem_map, Token.charT.injEq] at hm
      obtain ⟨x, hx, h1, h2⟩ := hm
      exact h2.symm
    have hcont : ∀ (tr2 : Transform) (s0 : Step) (off2 : Nat),
        tr2.steps = tr.steps ++ [s0] →
        (∀ c ms, Token.charT c ms ∈ stepSlice s0 → ms = marks) →
        (match rest2 with
          | [] => Except.ok tr2
          | r :: rs => applyTextSegsGo marks r rs off2 tr2) = .ok tr' →
        ∃ ext, tr'.steps = tr.steps ++ ext ∧
          ∀ s ∈ ext, ∀ c ms, Token.charT c ms ∈ stepSlice s → ms = marks := by
      intro tr2 s0 off2 hsteps hs0 hrest
      cases rest2 with
      | nil =>
        cases hrest
        refine ⟨[s0], hsteps, ?_⟩
        intro s hs c ms hm
        simp at hs
        subst hs
        exact hs0 c ms hm
      | cons r rs =>
        obtain ⟨ext, hext, hall⟩ := applyTextSegsGoSteps marks r rs off2 tr2 tr' hrest
        refine ⟨s0 :: ext, ?_, ?_⟩
        · rw [hext, hsteps]
          simp
        · intro s hs c ms hm
          cases hs with
          | head => exact hs0 c ms hm
          | tail _ hs2 => exact hall s hs2 c ms hm
    unfold applyTextSegsGo at h
    by_cases ha : seg.added = true
    · simp only [ha, if_true] at h
      by_cases hn : next.removed = true
      · simp only [hn, if_true] at h
        cases hrw : Transform.replaceWith tr offset (offset + next.value.length)
            (Node.text seg.value marks) with
        | error e => rw [hrw] at h; cases h
        | ok tr2 =>
          rw [hrw] at h
          simp only [Bind.bind, Except.bind] at h
          exact hcont tr2 _ _ (Transform.step_steps hrw).1 (hmem _ _ _) h
      · rw [Bool.not_eq_true] at hn
        simp only [hn, Bool.false_eq_true, if_false] at h
        cases hrw : Transform.insert tr offset (Node.text seg.value marks) with
        | error e => rw [hrw] at h; cases h
        | ok tr2 =>
          rw [hrw] at h
          simp only [Bind.bind, Except.bind] at h
          obtain ⟨ext, hext, hall⟩ :=
            applyTextSegsGoSteps marks next rest2 (offset + seg.value.length) tr2 tr' h
          refine ⟨Step.replace offset offset (Node.text seg.value marks).tokens :: ext,
            ?_, ?_⟩
          · rw [hext, (Transform.step_steps hrw).1]
            simp
          · intro s hs c ms hm
            cases hs with
            | head => exact hmem _ _ _ c ms hm
            | tail _ hs2 => exact hall s hs2 c ms hm
    · rw [Bool.not_eq_true] at ha
      simp only [ha, Bool.false_eq_true, if_false] at h
      by_cases hr : seg.removed = true
      · simp only [hr, if_true] at h
        by_cases hn : next.added = true
        · simp only [hn, if_true] at h
          cases hrw : Transform.replaceWith tr offset (offset + seg.value.length)
              (Node.text next.value marks) with
          | error e => rw [hrw] at h; cases h
          | ok tr2 =>
            rw [hrw] at h
            simp only [Bind.bind, Except.bind] at h
            exact hcont tr2 _ _ (Transform.step_steps hrw).1 (hmem _ _ _) h
        · rw [Bool.not_eq_true] at hn
          simp only [hn, Bool.false_eq_true, if_false] at h
          cases hrw : Transform.delete tr offset (offset + seg.value.length) with
          | error e => rw [hrw] at h; cases h
          | ok tr2 =>
            rw [hrw] at h
            simp only [Bind.bind, Except.bind] at h
            obtain ⟨ext, hext, hall⟩ :=
              applyTextSegsGoSteps marks next rest2 offset tr2 tr' h
            refine ⟨Step.replace offset (offset + seg.value.length) [] :: ext, ?_, ?_⟩
            · rw [hext, (Transform.step_steps hrw).1]
              simp
            · intro s hs c ms hm
              cases hs with
              | head => simp [stepSlice] at hm
              | tail _ hs2 => exact hall s hs2 c ms hm
      · rw [Bool.not_eq_true] at hr
        simp only [hr, Bool.false_eq_true, if_false] at h
        obtain ⟨ext, hext, hall⟩ :=
          applyTextSegsGoSteps marks next rest2 (offset + seg.value.length) tr tr' h
        exact ⟨ext, hext, hall⟩

/-- C4 amended: for every text-classified divergence, every text node
inserted by the text run editor carries the single annotation list
resolved once from the currently transformed (annotated) document at the
position immediately after the enclosing run's start
(`diff.textNodeStart + 1`) — the same list for every inserted segment,
which may differ from the marks in force at the individual segment's own
insertion point. -/
theorem insertedTextMarksFromRunStart (wordDiffs : Bool) (tr : Transform)
    (diff : DiffResult) (tr' : Transform)
    (h : applyTextDiff wordDiffs tr diff = .ok tr') :
    ∃ ext, tr'.steps = tr.steps ++ ext ∧
      ∀ s ∈ ext, ∀ c ms, Token.charT c ms ∈ stepSlice s →
        ms = tr.doc.marksAt (diff.textNodeStart + 1) := by
  unfold applyTextDiff applyTextSegs at h
  cases hsegs : (if wordDiffs then
      diffWordsWithSpace ((diff.fromNode.map Node.textStr).getD [])
        ((diff.toNode.map Node.textStr).getD [])
    else diffChars ((diff.fromNode.map Node.textStr).getD [])
        ((diff.toNode.map Node.textStr).getD [])) with
  | nil =>
    rw [hsegs] at h
    cases h
    exact ⟨[], by simp, by simp⟩
  | cons seg rest =>
    rw [hsegs] at h
    exact applyTextSegsGoSteps _ seg rest diff.textNodeStart tr tr' h

/-- The document produced by the text edit of the C4 example: the
inserted "X" carries the bold run-start marks. -/
def exTwoRunsMid : Node :=
  exDoc [exPara [Node.text "ab".data [exBold], Node.text "c".data [exItalic],
    Node.text "X".data [exBold], Node.text "d".data [exItalic]]]

theorem insertedTextMarksFromRunStart_witness :
    ∃ ext,
      ((⟨exTwoRunsMid, [Step.replace 4 4 [Token.charT 'X' [exBold]]]⟩ : Transform)).steps =
        (⟨exTwoRunsA, []⟩ : Transform).steps ++ ext ∧
      ∀ s ∈ ext, ∀ c ms, Token.charT c ms ∈ stepSlice s →
        ms = exTwoRunsA.marksAt
          ((classifyDiff (removeMarks exTwoRunsA) (removeMarks exTwoRunsB) 4 4 5).textNodeStart + 1) := by
  exact insertedTextMarksFromRunStart false ⟨exTwoRunsA, []⟩
    (classifyDiff (removeMarks exTwoRunsA) (removeMarks exTwoRunsB) 4 4 5)
    ⟨exTwoRunsMid, [Step.replace 4 4 [Token.charT 'X' [exBold]]]⟩ (by decide)

end Recreate

namespace Recreate

/-- C8: in the text run editor, an added segment immediately followed by a
removed segment, or a removed segment immediately followed by an added
one, is emitted as one replace-range edit (deleting the removed segment's
length at the current offset and inserting the added text there) rather
than an adjacent delete-plus-insert pair; in particular, for A =
paragraph[text("Hello world")] and B = paragraph[text("Hello there")] in
character mode the result is exactly one replace-range edit deleting
"world" and inserting "there" at the offset just after "Hello ". -/
theorem textRunMergesAdjacentAddRemove :
    ((recreateTransform exHelloWorld exHelloThere {}).toOption.map
        (fun tr => (tr.doc, tr.steps)) =
      some (exHelloThere,
        [Step.replace 7 12 ("there".data.map (fun c => Token.charT c []))])) ∧
    (∀ (marks : List Mark) (seg next : DSeg) (rest : List DSeg) (offset : Nat)
        (tr : Transform),
      seg.added = true → next.removed = true →
      applyTextSegsGo marks seg (next :: rest) offset tr =
        (match tr.replaceWith offset (offset + next.value.length)
            (Node.text seg.value marks) with
         | .error e => .error e
         | .ok tr2 => applyTextSegs marks rest (offset + seg.value.length) tr2)) ∧
    (∀ (marks : List Mark) (seg next : DSeg) (rest : List DSeg) (offset : Nat)
        (tr : Transform),
      seg.added = false → seg.removed = true → next.added = true →
      applyTextSegsGo marks seg (next :: rest) offset tr =
        (match tr.replaceWith offset (offset + seg.value.length)
            (Node.text next.value marks) with
         | .error e => .error e
         | .ok tr2 => applyTextSegs marks rest (offset + next.value.length) tr2)) := by
  refine ⟨by decide, ?_, ?_⟩
  · intro marks seg next rest offset tr ha hn
    unfold applyTextSegsGo
    simp only [ha, hn, if_true]
    cases hrw : Transform.replaceWith tr offset (offset + next.value.length)
        (Node.text seg.value marks) with
    | error e => simp [Bind.bind, Except.bind, hrw]
    | ok tr2 =>
      simp only [Bind.bind, Except.bind, hrw]
      cases rest with
      | nil => simp [applyTextSegs, pure, Except.pure]
      | cons r rs => simp [applyTextSegs]
  · intro marks seg next rest offset tr ha hr hn
    unfold applyTextSegsGo
    simp only [ha, hr, hn, Bool.false_eq_true, if_false, if_true]
    cases hrw : Transform.replaceWith tr offset (offset + seg.value.length)
        (Node.text next.value marks) with
    | error e => simp [Bind.bind, Except.bind, hrw]
    | ok tr2 =>
      simp only [Bind.bind, Except.bind, hrw]
      cases rest with
      | nil => simp [applyTextSegs, pure, Except.pure]
      | cons r rs => simp [applyTextSegs]

theorem textRunMergesAdjacentAddRemove_witness :
    applyTextSegsGo [] ⟨true, false, "x".data⟩ [⟨false, true, "yz".data⟩] 1
        ⟨exHelloWorld, []⟩ =
      (match Transform.replaceWith ⟨exHelloWorld, []⟩ 1 (1 + ("yz".data).length)
          (Node.text "x".data []) with
       | .error e => .error e
       | .ok tr2 => applyTextSegs [] [] (1 + ("x".data).length) tr2) :=
  textRunMergesAdjacentAddRemove.2.1 [] ⟨true, false, "x".data⟩
    ⟨false, true, "yz".data⟩ [] 1 ⟨exHelloWorld, []⟩ rfl rfl

end Recreate

namespace Recreate

theorem applyStep_error_msgs (doc : Node) (s : Step) (e : String)
    (h : applyStep doc s = .error e) :
    e = "Invalid content" ∨ e = "Position out of range" ∨
      e = "No node at given position" := by
  cases s with
  | replace lo hi sl =>
    simp only [applyStep] at h
    split at h
    · split at h
      · cases h
      · cases h
        exact Or.inl rfl
    · cases h
      exact Or.inr (Or.inl rfl)
  | setNodeMarkup pos typ attrs marks =>
    simp only [applyStep] at h
    split at h
    · split at h
      · cases h
      · cases h
        exact Or.inl rfl
    · cases h
      exact Or.inr (Or.inr rfl)
  | addMark lo hi m =>
    simp only [applyStep, markMapDoc] at h
    split at h
    · cases h
    · cases h
      exact Or.inl rfl
  | removeMark lo hi m =>
    simp only [applyStep, markMapDoc] at h
    split at h
    · cases h
    · cases h
      exact Or.inl rfl

/-- C7: both reconstruction modes run their loop with the same fixed
iteration cap `MAX_ITERATIONS`; exhausting the cap is a fatal
non-convergence error, and that error is distinguishable from every
step-application failure (the errors the application engine can raise,
whether or not wrapped by the loop's "ReplaceStep failed: " prefix, never
coincide with either max-iterations message, and the two max-iterations
messages identify which loop stalled). -/
theorem loopsBoundedAndNonConvergenceDistinguishable :
    (∀ (w : Bool) (toDoc : Node) (tr : Transform),
      recreateStructuralSteps w toDoc tr =
        structuralLoop w (removeMarks toDoc) MAX_ITERATIONS (removeMarks tr.doc) tr) ∧
    (∀ (toDoc : Node) (tr : Transform),
      recreateAllSteps toDoc tr = allStepsLoop toDoc MAX_ITERATIONS tr) ∧
    (∀ (w : Bool) (tnm cur : Node) (tr : Transform),
      structuralLoop w tnm 0 cur tr =
        .error "Max iterations reached in recreateStructuralSteps") ∧
    (∀ (toDoc : Node) (tr : Transform),
      allStepsLoop toDoc 0 tr = .error "Max iterations reached in recreateAllSteps") ∧
    (∀ (doc : Node) (s : Step) (e : String), applyStep doc s = .error e →
      e ≠ "Max iterations reached in recreateStructuralSteps" ∧
      e ≠ "Max iterations reached in recreateAllSteps" ∧
      ("ReplaceStep failed: " ++ e) ≠ "Max iterations reached in recreateStructuralSteps" ∧
      ("ReplaceStep failed: " ++ e) ≠ "Max iterations reached in recreateAllSteps") ∧
    ("Max iterations reached in recreateStructuralSteps" : String) ≠
      "Max iterations reached in recreateAllSteps" := by
  refine ⟨fun _ _ _ => rfl, fun _ _ => rfl, fun _ _ _ _ => rfl, fun _ _ => rfl,
    ?_, by decide⟩
  intro doc s e h
  have he := applyStep_error_msgs doc s e h
  rcases he with he | he | he <;> subst he <;>
    exact ⟨by decide, by decide,
      fun hc => by
        have h2 := congrArg String.data hc
        rw [String.data_append] at h2
        simp at h2,
      fun hc => by
        have h2 := congrArg String.data hc
        rw [String.data_append] at h2
        simp at h2⟩

theorem loopsBoundedAndNonConvergenceDistinguishable_witness :
    applyStep exHelloWorld (Step.replace 5 3 []) = .error "Position out of range" ∧
    "Position out of range" ≠ "Max iterations reached in recreateStructuralSteps" ∧
    "Position out of range" ≠ "Max iterations reached in recreateAllSteps" :=
  ⟨by decide,
    (loopsBoundedAndNonConvergenceDistinguishable.2.2.2.2.1 exHelloWorld
      (Step.replace 5 3 []) "Position out of range" (by decide)).1,
    (loopsBoundedAndNonConvergenceDistinguishable.2.2.2.2.1 exHelloWorld
      (Step.replace 5 3 []) "Position out of range" (by decide)).2.1⟩

end Recreate

namespace Recreate

theorem allStepsLoop_steps_le :
    ∀ (fuel : Nat) (toDoc : Node) (tr tr' : Transform),
      allStepsLoop toDoc fuel tr = .ok tr' →
      tr'.steps.length ≤ tr.steps.length + fuel := by
  intro fuel
  induction fuel with
  | zero =>
    intro toDoc tr tr' h
    cases h
  | succ n ih =>
    intro toDoc tr tr' h
    unfold allStepsLoop at h
    cases hg : getReplaceStep tr.doc toDoc with
    | none =>
      simp only [hg] at h
      cases h
      omega
    | some s =>
      simp only [hg] at h
      cases hs : tr.step s with
      | error e => simp only [hs] at h; cases h
      | ok tr2 =>
        simp only [hs] at h
        have h2 := ih toDoc tr2 tr' h
        have h3 := (Transform.step_steps hs).1
        rw [h3] at h2
        simp at h2
        omega

/-- C10: the fixed iteration cap shared by both modes is exactly 1000;
each mode's loop runs on that fuel and in simple mode appends at most one
step per iteration, so at most 1000 steps are appended; and the loop
condition is checked before convergence is re-tested: once the fuel is
exhausted the loop raises the max-iterations error even when the current
document already equals the target (no divergence remains). -/
theorem maxIterationsCapExactAndCheckedBeforeConvergence :
    MAX_ITERATIONS = 1000 ∧
    (∀ (toDoc : Node) (tr : Transform),
      recreateAllSteps toDoc tr = allStepsLoop toDoc MAX_ITERATIONS tr) ∧
    (∀ (w : Bool) (toDoc : Node) (tr : Transform),
      recreateStructuralSteps w toDoc tr =
        structuralLoop w (removeMarks toDoc) MAX_ITERATIONS (removeMarks tr.doc) tr) ∧
    (∀ (toDoc : Node) (fuel : Nat) (tr tr' : Transform),
      allStepsLoop toDoc fuel tr = .ok tr' →
      tr'.steps.length ≤ tr.steps.length + fuel) ∧
    (∀ (toDoc : Node) (tr : Transform), tr.doc = toDoc →
      allStepsLoop toDoc 0 tr =
        .error "Max iterations reached in recreateAllSteps") ∧
    (∀ (w : Bool) (tnm cur : Node) (tr : Transform),
      findDiffStart tnm.content cur.content 0 = none →
      structuralLoop w tnm 0 cur tr =
        .error "Max iterations reached in recreateStructuralSteps") := by
  exact ⟨rfl, fun _ _ => rfl, fun _ _ _ => rfl,
    fun toDoc fuel tr tr' h => allStepsLoop_steps_le fuel toDoc tr tr' h,
    fun _ _ _ => rfl, fun _ _ _ _ _ => rfl⟩

theorem maxIterationsCapExactAndCheckedBeforeConvergence_witness :
    allStepsLoop exHelloWorld 0 ⟨exHelloWorld, []⟩ =
      .error "Max iterations reached in recreateAllSteps" ∧
    structuralLoop false exHelloWorld 0 exHelloWorld ⟨exHelloWorld, []⟩ =
      .error "Max iterations reached in recreateStructuralSteps" :=
  ⟨maxIterationsCapExactAndCheckedBeforeConvergence.2.2.2.2.1 exHelloWorld
      ⟨exHelloWorld, []⟩ rfl,
    maxIterationsCapExactAndCheckedBeforeConvergence.2.2.2.2.2 false exHelloWorld
      exHelloWorld ⟨exHelloWorld, []⟩ (by decide)⟩

end Recreate

namespace Recreate

theorem Option.map_map_nat (f g : Nat → Nat) (o : Option Nat) :
    (o.map f).map g = o.map (fun x => g (f x)) := by
  cases o <;> simp

mutual
theorem findDiffStart_shift :
    ∀ (a b : List Node) (p : Nat),
      findDiffStart a b p = (findDiffStart a b 0).map (fun r => r + p)
  | [], [], p => by simp [findDiffStart]
  | [], _ :: _, p => by simp [findDiffStart]
  | _ :: _, [], p => by simp [findDiffStart]
  | ca :: cas, cb :: cbs, p => by
    rw [findDiffStart, findDiffStart]
    by_cases hceq : ca = cb
    · rw [if_pos hceq, if_pos hceq]
      rw [findDiffStart_shift cas cbs (p + ca.nodeSize),
        findDiffStart_shift cas cbs (0 + ca.nodeSize), Option.map_map_nat]
      congr 1
      funext x
      omega
    · rw [if_neg hceq, if_neg hceq]
      rw [findDiffStartPair_shift ca cb p]
      cases h0 : findDiffStartPair ca cb 0 with
      | some r => simp [h0]
      | none =>
          simp only [h0, Option.map]
          rw [findDiffStart_shift cas cbs (p + ca.nodeSize),
            findDiffStart_shift cas cbs (0 + ca.nodeSize)]
          cases findDiffStart cas cbs 0 <;> simp [Option.map] <;> omega
theorem findDiffStartPair_shift :
    ∀ (u v : Node) (p : Nat),
      findDiffStartPair u v p = (findDiffStartPair u v 0).map (fun r => r + p)
  | .text s m, .text s2 m2, p => by
    rw [findDiffStartPair, findDiffStartPair]
    by_cases h1 : (Node.text s m).sameMarkup (.text s2 m2) = false
    · rw [if_pos h1, if_pos h1]
      simp [Option.map]
    · rw [if_neg h1, if_neg h1]
      by_cases h2 : (s != s2) = true
      · rw [if_pos h2, if_pos h2]
        simp [Option.map, Nat.add_comm]
      · rw [if_neg h2, if_neg h2]
        simp
  | .elem t a m c, .elem t2 a2 m2 c2, p => by
    rw [findDiffStartPair, findDiffStartPair]
    by_cases h1 : (Node.elem t a m c).sameMarkup (.elem t2 a2 m2 c2) = false
    · rw [if_pos h1, if_pos h1]
      simp [Option.map]
    · rw [if_neg h1, if_neg h1]
      by_cases h2 : (decide (0 < fragSize c) || decide (0 < fragSize c2)) = true
      · rw [if_pos h2, if_pos h2]
        rw [findDiffStart_shift c c2 (p + 1), findDiffStart_shift c c2 (0 + 1),
          Option.map_map_nat]
        congr 1
        funext x
        omega
      · rw [if_neg h2, if_neg h2]
        simp
  | .text s m, .elem t a mm c, p => by
    simp [findDiffStartPair]
  | .elem t a mm c, .text s m, p => by
    simp [findDiffStartPair]
end

end Recreate

namespace Recreate

theorem tokensList_append : ∀ (xs ys : List Node),
    tokensList (xs ++ ys) = tokensList xs ++ tokensList ys
  | [], ys => by simp [tokensList]
  | x :: xs, ys => by
    rw [List.cons_append, tokensList_cons, tokensList_cons,
      tokensList_append xs ys, List.append_assoc]

theorem mirrorList_append : ∀ (xs ys : List Node),
    mirrorList (xs ++ ys) = mirrorList ys ++ mirrorList xs
  | [], ys => by simp [mirrorList]
  | x :: xs, ys => by
    rw [List.cons_append, mirrorList, mirrorList, mirrorList_append xs ys,
      List.append_assoc]

mutual
theorem Node.mirror_tokens_length : ∀ n : Node,
    (Node.mirror n).tokens.length = n.tokens.length
  | .text s m => by simp [Node.mirror, Node.tokens]
  | .elem t a m c => by
    simp [Node.mirror, Node.tokens]
    exact mirrorList_tokens_length c
theorem mirrorList_tokens_length : ∀ ns : List Node,
    (tokensList (mirrorList ns)).length = (tokensList ns).length
  | [] => rfl
  | n :: ns => by
    rw [mirrorList, tokensList_append, tokensList_cons]
    simp [tokensList]
    rw [Node.mirror_tokens_length n, mirrorList_tokens_length ns]
    omega
end

theorem fragSize_mirror (ns : List Node) : fragSize (mirrorList ns) = fragSize ns :=
  mirrorList_tokens_length ns

theorem Node.nodeSize_mirror (n : Node) : (Node.mirror n).nodeSize = n.nodeSize :=
  Node.mirror_tokens_length n

mutual
theorem Node.mirror_mirror : ∀ n : Node, Node.mirror (Node.mirror n) = n
  | .text s m => by simp [Node.mirror]
  | .elem t a m c => by
    simp [Node.mirror]
    exact mirrorList_mirror c
theorem mirrorList_mirror : ∀ ns : List Node, mirrorList (mirrorList ns) = ns
  | [] => rfl
  | n :: ns => by
    rw [mirrorList, mirrorList_append, mirrorList_mirror ns]
    simp [mirrorList, Node.mirror_mirror n]
end

theorem findDiffStart_refl : ∀ (a : List Node) (p : Nat), findDiffStart a a p = none
  | [], p => by rw [findDiffStart]
  | ca :: cas, p => by
    rw [findDiffStart, if_pos rfl]
    exact findDiffStart_refl cas _

theorem Node.sameMarkup_refl (n : Node) : n.sameMarkup n = true := by
  simp [Node.sameMarkup]

theorem Node.sameMarkup_elem_iff (t : String) (a : List (String × String))
    (m : List Mark) (c : List Node) (t2 : String) (a2 : List (String × String))
    (m2 : List Mark) (c2 : List Node) :
    (Node.elem t a m c).sameMarkup (Node.elem t2 a2 m2 c2) = true ↔
      t = t2 ∧ a = a2 ∧ m = m2 := by
  simp [Node.sameMarkup, Node.isText, Node.typ, Node.attrs, Node.marks, and_assoc]

theorem Node.sameMarkup_text_iff (s : List Char) (m : List Mark)
    (s2 : List Char) (m2 : List Mark) :
    (Node.text s m).sameMarkup (Node.text s2 m2) = true ↔ m = m2 := by
  simp [Node.sameMarkup, Node.isText, Node.typ, Node.attrs, Node.marks, and_assoc]

end Recreate

namespace Recreate

theorem bool_eq_true_of_not_eq_false {b : Bool} (h : ¬ b = false) : b = true := by
  cases b
  · exact absurd rfl h
  · rfl

theorem bne_false_iff {α : Type} [BEq α] [LawfulBEq α] {x y : α} :
    ¬ ((x != y) = true) ↔ x = y := by
  simp [bne]

/-- Analysis of a `none` result of the per-pair scan: the two nodes carry
the same markup and, for text leaves, the same string; for elements the
inner scan found nothing (or both contents are empty). -/
theorem findDiffStartPair_none_text {s : List Char} {m : List Mark}
    {s2 : List Char} {m2 : List Mark} {p : Nat}
    (h : findDiffStartPair (Node.text s m) (Node.text s2 m2) p = none) :
    s = s2 ∧ m = m2 := by
  rw [findDiffStartPair] at h
  by_cases h1 : (Node.text s m).sameMarkup (Node.text s2 m2) = false
  · rw [if_pos h1] at h
    cases h
  · rw [if_neg h1] at h
    by_cases h2 : (s != s2) = true
    · rw [if_pos h2] at h
      cases h
    · have hs : s = s2 := bne_false_iff.mp h2
      have hm : m = m2 :=
        (Node.sameMarkup_text_iff s m s2 m2).mp (bool_eq_true_of_not_eq_false h1)
      exact ⟨hs, hm⟩

theorem findDiffStartPair_none_elem {t : String} {a : List (String × String)}
    {m : List Mark} {c : List Node} {t2 : String} {a2 : List (String × String)}
    {m2 : List Mark} {c2 : List Node} {p : Nat}
    (h : findDiffStartPair (Node.elem t a m c) (Node.elem t2 a2 m2 c2) p = none) :
    (t = t2 ∧ a = a2 ∧ m = m2) ∧
      (findDiffStart c c2 (p + 1) = none ∨ (fragSize c = 0 ∧ fragSize c2 = 0)) := by
  rw [findDiffStartPair] at h
  by_cases h1 : (Node.elem t a m c).sameMarkup (Node.elem t2 a2 m2 c2) = false
  · rw [if_pos h1] at h
    cases h
  · rw [if_neg h1] at h
    refine ⟨(Node.sameMarkup_elem_iff t a m c t2 a2 m2 c2).mp
      (bool_eq_true_of_not_eq_false h1), ?_⟩
    by_cases h2 : (decide (0 < fragSize c) || decide (0 < fragSize c2)) = true
    · rw [if_pos h2] at h
      exact Or.inl h
    · right
      simp at h2
      omega

theorem findDiffStartPair_none_kind :
    ∀ {u v : Node} {p : Nat}, findDiffStartPair u v p = none →
      u.isText = v.isText := by
  intro u v p h
  cases u <;> cases v
  · rfl
  · have h2 : (some p : Option Nat) = none := h
    cases h2
  · have h2 : (some p : Option Nat) = none := h
    cases h2
  · rfl

mutual
theorem findDiffStart_none_tokens :
    ∀ (a b : List Node) (p : Nat), findDiffStart a b p = none →
      tokensList a = tokensList b
  | [], [], _, _ => rfl
  | [], _ :: _, p, h => by rw [findDiffStart] at h; cases h
  | _ :: _, [], p, h => by rw [findDiffStart] at h; cases h
  | ca :: cas, cb :: cbs, p, h => by
    rw [findDiffStart] at h
    by_cases hceq : ca = cb
    · rw [if_pos hceq] at h
      rw [tokensList_cons, tokensList_cons, hceq,
        findDiffStart_none_tokens cas cbs _ h]
    · rw [if_neg hceq] at h
      cases h0 : findDiffStartPair ca cb p with
      | some r => rw [h0] at h; cases h
      | none =>
        rw [h0] at h
        rw [tokensList_cons, tokensList_cons,
          findDiffStartPair_none_tokens ca cb p h0,
          findDiffStart_none_tokens cas cbs _ h]
theorem findDiffStartPair_none_tokens :
    ∀ (u v : Node) (p : Nat), findDiffStartPair u v p = none →
      u.tokens = v.tokens
  | .text s m, .text s2 m2, p, h => by
    obtain ⟨hs, hm⟩ := findDiffStartPair_none_text h
    rw [hs, hm]
  | .elem t a m c, .elem t2 a2 m2 c2, p, h => by
    obtain ⟨⟨ht, ha, hm⟩, hin⟩ := findDiffStartPair_none_elem h
    have hc : tokensList c = tokensList c2 := by
      cases hin with
      | inl h2 => exact findDiffStart_none_tokens c c2 _ h2
      | inr h2 =>
        have hc1 : tokensList c = [] := List.length_eq_zero.mp h2.1
        have hc2 : tokensList c2 = [] := List.length_eq_zero.mp h2.2
        rw [hc1, hc2]
    rw [Node.tokens_elem, Node.tokens_elem, ht, ha, hm, hc]
  | .text s m, .elem t a mm c, p, h => by
    have h2 : (some p : Option Nat) = none := h
    cases h2
  | .elem t a mm c, .text s m, p, h => by
    have h2 : (some p : Option Nat) = none := h
    cases h2
end

end Recreate

namespace Recreate

theorem findDiffStart_none_at (a b : List Node) {p : Nat} (h : findDiffStart a b p = none)
    (q : Nat) : findDiffStart a b q = none := by
  have h0 := findDiffStart_shift a b p
  rw [h] at h0
  cases hbase : findDiffStart a b 0 with
  | none =>
    rw [findDiffStart_shift a b q, hbase]
    rfl
  | some r => rw [hbase] at h0; cases h0

theorem findDiffStartPair_none_at (u v : Node) {p : Nat}
    (h : findDiffStartPair u v p = none) (q : Nat) : findDiffStartPair u v q = none := by
  have h0 := findDiffStartPair_shift u v p
  rw [h] at h0
  cases hbase : findDiffStartPair u v 0 with
  | none =>
    rw [findDiffStartPair_shift u v q, hbase]
    rfl
  | some r => rw [hbase] at h0; cases h0

theorem findDiffStart_append_none :
    ∀ (X Y : List Node) (u v : Node) (p : Nat),
      findDiffStart X Y p = none →
      (u = v ∨ ∀ q, findDiffStartPair u v q = none) →
      findDiffStart (X ++ [u]) (Y ++ [v]) p = none
  | [], [], u, v, p, _, hp => by
    simp only [List.nil_append]
    rw [findDiffStart]
    cases hp with
    | inl he =>
      rw [if_pos he]
      rw [findDiffStart]
    | inr hP =>
      by_cases he : u = v
      · rw [if_pos he]
        rw [findDiffStart]
      · rw [if_neg he, hP p]
        rw [findDiffStart]
  | [], y :: ys, u, v, p, h, _ => by rw [findDiffStart] at h; cases h
  | x :: xs, [], u, v, p, h, _ => by rw [findDiffStart] at h; cases h
  | ca :: cas, cb :: cbs, u, v, p, h, hp => by
    rw [findDiffStart] at h
    rw [List.cons_append, List.cons_append, findDiffStart]
    by_cases hceq : ca = cb
    · rw [if_pos hceq] at h ⊢
      exact findDiffStart_append_none cas cbs u v _ h hp
    · rw [if_neg hceq] at h ⊢
      cases h0 : findDiffStartPair ca cb p with
      | some r => rw [h0] at h; cases h
      | none =>
        rw [h0] at h
        exact findDiffStart_append_none cas cbs u v _ h hp

mutual
theorem findDiffStart_mirror_none :
    ∀ (a b : List Node) (p : Nat), findDiffStart a b p = none →
      findDiffStart (mirrorList a) (mirrorList b) p = none
  | [], [], p, _ => by
    show findDiffStart [] [] p = none
    rw [findDiffStart]
  | [], _ :: _, p, h => by rw [findDiffStart] at h; cases h
  | _ :: _, [], p, h => by rw [findDiffStart] at h; cases h
  | ca :: cas, cb :: cbs, p, h => by
    rw [findDiffStart] at h
    rw [mirrorList, mirrorList]
    by_cases hceq : ca = cb
    · rw [if_pos hceq] at h
      have hrest := findDiffStart_mirror_none cas cbs _ h
      exact findDiffStart_append_none (mirrorList cas) (mirrorList cbs)
        (Node.mirror ca) (Node.mirror cb) p
        (findDiffStart_none_at _ _ hrest p) (Or.inl (by rw [hceq]))
    · rw [if_neg hceq] at h
      cases h0 : findDiffStartPair ca cb p with
      | some r => rw [h0] at h; cases h
      | none =>
        rw [h0] at h
        have hrest := findDiffStart_mirror_none cas cbs _ h
        have hpair := findDiffStartPair_mirror_none ca cb _ h0
        exact findDiffStart_append_none (mirrorList cas) (mirrorList cbs)
          (Node.mirror ca) (Node.mirror cb) p
          (findDiffStart_none_at _ _ hrest p)
          (Or.inr (fun q => findDiffStartPair_none_at _ _ hpair q))
theorem findDiffStartPair_mirror_none :
    ∀ (u v : Node) (p : Nat), findDiffStartPair u v p = none →
      findDiffStartPair (Node.mirror u) (Node.mirror v) p = none
  | .text s m, .text s2 m2, p, h => by
    obtain ⟨hs, hm⟩ := findDiffStartPair_none_text h
    subst hs
    subst hm
    rw [Node.mirror, findDiffStartPair]
    rw [if_neg (by rw [Node.sameMarkup_refl (Node.text s.reverse m)]; simp)]
    rw [if_neg (by simp)]
  | .elem t a m c, .elem t2 a2 m2 c2, p, h => by
    obtain ⟨⟨ht, ha, hm⟩, hin⟩ := findDiffStartPair_none_elem h
    subst ht
    subst ha
    subst hm
    rw [Node.mirror, Node.mirror, findDiffStartPair]
    rw [if_neg (by
      rw [(Node.sameMarkup_elem_iff t a m (mirrorList c) t a m (mirrorList c2)).2
        ⟨rfl, rfl, rfl⟩]
      simp)]
    by_cases h2 : (decide (0 < fragSize (mirrorList c)) ||
        decide (0 < fragSize (mirrorList c2))) = true
    · rw [if_pos h2]
      cases hin with
      | inl hi =>
        exact findDiffStart_mirror_none c c2 _ hi
      | inr hi =>
        rw [fragSize_mirror, fragSize_mirror] at h2
        simp [hi.1, hi.2] at h2
    · rw [if_neg h2]
  | .text s m, .elem t a mm c, p, h => by
    have h2 : (some p : Option Nat) = none := h
    cases h2
  | .elem t a mm c, .text s m, p, h => by
    have h2 : (some p : Option Nat) = none := h
    cases h2
end

/-- A `none` result of the backward scan also means the two fragments have
equal token streams. -/
theorem findDiffEnd_none_tokens (a b : List Node)
    (h : findDiffEnd a b = none) : tokensList a = tokensList b := by
  unfold findDiffEnd at h
  cases hm : findDiffStart (mirrorList a) (mirrorList b) 0 with
  | some r => rw [hm] at h; cases h
  | none =>
    have h2 := findDiffStart_mirror_none (mirrorList a) (mirrorList b) 0 hm
    rw [mirrorList_mirror, mirrorList_mirror] at h2
    exact findDiffStart_none_tokens a b 0 h2

/-- The backward scan finds a divergence whenever the forward scan does. -/
theorem findDiffEnd_some_of_start_some (a b : List Node) {r : Nat}
    (h : findDiffStart a b 0 = some r) : findDiffEnd a b ≠ none := by
  intro hcon
  unfold findDiffEnd at hcon
  cases hm : findDiffStart (mirrorList a) (mirrorList b) 0 with
  | some q => rw [hm] at hcon; cases hcon
  | none =>
    have h2 := findDiffStart_mirror_none (mirrorList a) (mirrorList b) 0 hm
    rw [mirrorList_mirror, mirrorList_mirror] at h2
    rw [h] at h2
    cases h2

end Recreate

namespace Recreate

theorem getReplaceStep_none_tokens (fromDoc toDoc : Node)
    (h : getReplaceStep fromDoc toDoc = none) :
    tokensList fromDoc.content = tokensList toDoc.content := by
  unfold getReplaceStep at h
  cases hs : findDiffStart toDoc.content fromDoc.content 0 with
  | none =>
    exact (findDiffStart_none_tokens toDoc.content fromDoc.content 0 hs).symm
  | some start =>
    rw [hs] at h
    cases he : findDiffEnd toDoc.content fromDoc.content with
    | none =>
      exact (findDiffEnd_none_tokens toDoc.content fromDoc.content he).symm
    | some q =>
      rw [he] at h
      obtain ⟨eA, eB⟩ := q
      dsimp only at h
      split at h
      · split at h <;> cases h
      · cases h

theorem structuralLoop_ok_no_divergence :
    ∀ (w : Bool) (tnm : Node) (fuel : Nat) (cur : Node) (tr tr' : Transform),
      cur = removeMarks tr.doc →
      structuralLoop w tnm fuel cur tr = .ok tr' →
      tokensList (removeMarks tr'.doc).content = tokensList tnm.content := by
  intro w tnm fuel
  induction fuel with
  | zero => intro cur tr tr' _ h; cases h
  | succ n ih =>
    intro cur tr tr' hcur h
    unfold structuralLoop at h
    cases hs : findDiffStart tnm.content cur.content 0 with
    | none =>
      rw [hs] at h
      cases h
      rw [← hcur]
      exact (findDiffStart_none_tokens tnm.content cur.content 0 hs).symm
    | some start =>
      rw [hs] at h
      cases he : findDiffEnd tnm.content cur.content with
      | none =>
        rw [he] at h
        cases h
        rw [← hcur]
        exact (findDiffEnd_none_tokens tnm.content cur.content he).symm
      | some q =>
        rw [he] at h
        obtain ⟨eT, eF⟩ := q
        dsimp only at h
        cases ha : applyDiff w tr (classifyDiff cur tnm start eF eT) cur tnm with
        | error e => rw [ha] at h; cases h
        | ok tr2 =>
          rw [ha] at h
          exact ih (removeMarks tr2.doc) tr2 tr' rfl h

theorem allStepsLoop_ok_tokens (toDoc : Node) :
    ∀ (fuel : Nat) (tr tr' : Transform),
      allStepsLoop toDoc fuel tr = .ok tr' →
      tokensList tr'.doc.content = tokensList toDoc.content := by
  intro fuel
  induction fuel with
  | zero => intro tr tr' h; cases h
  | succ n ih =>
    intro tr tr' h
    unfold allStepsLoop at h
    cases hg : getReplaceStep tr.doc toDoc with
    | none =>
      simp only [hg] at h
      cases h
      exact getReplaceStep_none_tokens tr.doc toDoc hg
    | some s =>
      simp only [hg] at h
      cases ht : tr.step s with
      | error e => simp only [ht] at h; cases h
      | ok tr2 =>
        simp only [ht] at h
        exact ih tr2 tr' h

/-- C3: no detected divergence or no-applicable-edit situation is silently
swallowed.  Whenever the divergence locator reports a divergence, the
structural editor's `getReplaceStep` produces a step (the silent-skip
branch is unreachable); and each reconstruction loop returns normally only
when no divergence remains between the (stripped) current document and the
(stripped) target — otherwise it can only abort with an error. -/
theorem noDivergenceSilentlySwallowed :
    (∀ (fromDoc toDoc : Node) (start : Nat),
      findDiffStart toDoc.content fromDoc.content 0 = some start →
      ∃ s, getReplaceStep fromDoc toDoc = some s) ∧
    (∀ (w : Bool) (toDoc : Node) (tr tr' : Transform),
      recreateStructuralSteps w toDoc tr = .ok tr' →
      tokensList (removeMarks tr'.doc).content =
        tokensList (removeMarks toDoc).content) ∧
    (∀ (toDoc : Node) (tr tr' : Transform),
      recreateAllSteps toDoc tr = .ok tr' →
      tokensList tr'.doc.content = tokensList toDoc.content) := by
  refine ⟨?_, ?_, ?_⟩
  · intro fromDoc toDoc start h
    cases hg : getReplaceStep fromDoc toDoc with
    | some s => exact ⟨s, rfl⟩
    | none =>
      have ht := getReplaceStep_none_tokens fromDoc toDoc hg
      have h2 : findDiffStart toDoc.content fromDoc.content 0 = none := by
        unfold getReplaceStep at hg
        cases hs : findDiffStart toDoc.content fromDoc.content 0 with
        | none => rfl
        | some r =>
          rw [hs] at hg
          cases he : findDiffEnd toDoc.content fromDoc.content with
          | none => exact absurd he (findDiffEnd_some_of_start_some _ _ hs)
          | some q =>
            rw [he] at hg
            obtain ⟨eA, eB⟩ := q
            dsimp only at hg
            split at hg
            · split at hg <;> cases hg
            · cases hg
      rw [h] at h2
      cases h2
  · intro w toDoc tr tr' h
    exact structuralLoop_ok_no_divergence w (removeMarks toDoc) MAX_ITERATIONS
      (removeMarks tr.doc) tr tr' rfl h
  · intro toDoc tr tr' h
    exact allStepsLoop_ok_tokens toDoc MAX_ITERATIONS tr tr' h

end Recreate

namespace Recreate

theorem noDivergenceSilentlySwallowed_witness :
    (∃ s, getReplaceStep exSplitA exSplitB = some s) ∧
    tokensList (removeMarks (⟨exHelloWorld, []⟩ : Transform).doc).content =
      tokensList (removeMarks exHelloWorld).content ∧
    tokensList (⟨exHelloWorld, []⟩ : Transform).doc.content =
      tokensList exHelloWorld.content :=
  ⟨noDivergenceSilentlySwallowed.1 exSplitA exSplitB 2 (by decide),
   noDivergenceSilentlySwallowed.2.1 false exHelloWorld ⟨exHelloWorld, []⟩
     ⟨exHelloWorld, []⟩ (by decide),
   noDivergenceSilentlySwallowed.2.2 exHelloWorld ⟨exHelloWorld, []⟩
     ⟨exHelloWorld, []⟩ (by decide)⟩

end Recreate

namespace Recreate

mutual
theorem descendantsAux_bounds :
    ∀ (ns : List Node) (pos : Nat) (q : Node × Nat), q ∈ descendantsAux ns pos →
      pos ≤ q.2 ∧ q.2 + q.1.nodeSize ≤ pos + fragSize ns
  | [], pos, q, h => by simp [descendantsAux] at h
  | n :: ns, pos, q, h => by
    rw [descendantsAux] at h
    rw [List.cons_append, List.mem_cons, List.mem_append] at h
    rcases h with h | h | h
    · subst h
      rw [fragSize_cons]
      dsimp only
      omega
    · have h2 := descendantsIn_bounds n pos q h
      rw [fragSize_cons]
      omega
    · have h2 := descendantsAux_bounds ns (pos + n.nodeSize) q h
      rw [fragSize_cons]
      omega
theorem descendantsIn_bounds :
    ∀ (n : Node) (pos : Nat) (q : Node × Nat), q ∈ descendantsIn n pos →
      pos + 1 ≤ q.2 ∧ q.2 + q.1.nodeSize + 1 ≤ pos + n.nodeSize
  | .text _ _, pos, q, h => by simp [descendantsIn] at h
  | .elem t a m c, pos, q, h => by
    rw [descendantsIn] at h
    have h2 := descendantsAux_bounds c (pos + 1) q h
    rw [Node.nodeSize_elem]
    omega
end

/-- The overlap test of `nodesBetween` for an entry. -/
def ovlB (lo hi : Nat) (q : Node × Nat) : Bool :=
  decide (lo < q.2 + q.1.nodeSize) && decide (q.2 < hi)

mutual
theorem nodesBetweenAux_eq_filter :
    ∀ (ns : List Node) (pos lo hi : Nat),
      nodesBetweenAux ns pos lo hi = (descendantsAux ns pos).filter (ovlB lo hi)
  | [], pos, lo, hi => by simp [nodesBetweenAux, descendantsAux]
  | n :: ns, pos, lo, hi => by
    rw [nodesBetweenAux, descendantsAux]
    rw [List.cons_append, List.filter_cons, List.filter_append]
    by_cases hov : lo < pos + n.nodeSize ∧ pos < hi
    · rw [if_pos hov]
      have hb : ovlB lo hi (n, pos) = true := by
        simp [ovlB]
        exact hov
      rw [hb]
      rw [nodesBetweenIn_eq_filter n pos lo hi,
        nodesBetweenAux_eq_filter ns (pos + n.nodeSize) lo hi]
      simp
    · rw [if_neg hov]
      have hb : ovlB lo hi (n, pos) = false := by
        simp only [ovlB, Bool.and_eq_false_iff, decide_eq_false_iff_not]
        rcases Nat.lt_or_ge pos hi with hq | hq
        · left
          intro hlt
          exact hov ⟨hlt, hq⟩
        · right
          omega
      rw [hb]
      have hin : (descendantsIn n pos).filter (ovlB lo hi) = [] := by
        rw [List.filter_eq_nil_iff]
        intro q hq
        have hb2 := descendantsIn_bounds n pos q hq
        simp only [ovlB, Bool.and_eq_true, decide_eq_true_eq, not_and]
        intro hlt hq2
        exact hov ⟨by omega, by omega⟩
      rw [hin]
      rw [nodesBetweenAux_eq_filter ns (pos + n.nodeSize) lo hi]
      simp
theorem nodesBetweenIn_eq_filter :
    ∀ (n : Node) (pos lo hi : Nat),
      nodesBetweenIn n pos lo hi = (descendantsIn n pos).filter (ovlB lo hi)
  | .text _ _, pos, lo, hi => by simp [nodesBetweenIn, descendantsIn]
  | .elem t a m c, pos, lo, hi => by
    rw [nodesBetweenIn, descendantsIn]
    exact nodesBetweenAux_eq_filter c (pos + 1) lo hi
end

/-- Document-order disjointness of two inline entries. -/
def spanLe (e1 e2 : Node × Nat) : Prop := e1.2 + e1.1.nodeSize ≤ e2.2

theorem isTextB (q : Node × Nat) : (fun q : Node × Nat => q.1.isText) q = q.1.isText := rfl

mutual
theorem textEntries_pairwise :
    ∀ (ns : List Node) (pos : Nat),
      ((descendantsAux ns pos).filter (fun q => q.1.isText)).Pairwise spanLe
  | [], pos => by simp [descendantsAux]
  | n :: ns, pos => by
    rw [descendantsAux, List.cons_append]
    simp only [List.filter_cons, List.filter_append]
    have hcross : ∀ a ∈ (descendantsIn n pos).filter (fun q : Node × Nat => q.1.isText),
        ∀ b ∈ (descendantsAux ns (pos + n.nodeSize)).filter
          (fun q : Node × Nat => q.1.isText), spanLe a b := by
      intro a ha b hb
      rw [List.mem_filter] at ha hb
      have hbb := descendantsAux_bounds ns (pos + n.nodeSize) b hb.1
      have haa := descendantsIn_bounds n pos a ha.1
      unfold spanLe
      omega
    have hcrossHead : ∀ b ∈ (descendantsAux ns (pos + n.nodeSize)).filter
        (fun q : Node × Nat => q.1.isText), spanLe (n, pos) b := by
      intro b hb
      rw [List.mem_filter] at hb
      have hbb := descendantsAux_bounds ns (pos + n.nodeSize) b hb.1
      unfold spanLe
      dsimp only
      omega
    by_cases ht : n.isText = true
    · have hIn : descendantsIn n pos = [] := by
        cases n with
        | text s m => rw [descendantsIn]
        | elem t a m c => simp [Node.isText] at ht
      rw [hIn]
      simp only [List.filter_nil, List.nil_append]
      have htB : ((n, pos) : Node × Nat).1.isText = true := ht
      rw [if_pos htB]
      rw [List.pairwise_cons]
      exact ⟨hcrossHead, textEntries_pairwise ns (pos + n.nodeSize)⟩
    · have htB : ¬ ((n, pos) : Node × Nat).1.isText = true := ht
      rw [if_neg htB]
      rw [List.pairwise_append]
      exact ⟨textEntriesIn_pairwise n pos,
        textEntries_pairwise ns (pos + n.nodeSize), hcross⟩
theorem textEntriesIn_pairwise :
    ∀ (n : Node) (pos : Nat),
      ((descendantsIn n pos).filter (fun q => q.1.isText)).Pairwise spanLe
  | .text _ _, pos => by simp [descendantsIn]
  | .elem t a m c, pos => by
    rw [descendantsIn]
    exact textEntries_pairwise c (pos + 1)
end

end Recreate

namespace Recreate

theorem pairwise_mem_rel {α : Type} (R : α → α → Prop) :
    ∀ (L : List α) (x y : α), L.Pairwise R → x ∈ L → y ∈ L →
      x = y ∨ R x y ∨ R y x
  | [], x, y, _, hx, _ => by cases hx
  | z :: L, x, y, hpw, hx, hy => by
    rw [List.pairwise_cons] at hpw
    rw [List.mem_cons] at hx hy
    rcases hx with hx | hx
    · rcases hy with hy | hy
      · exact Or.inl (hx.trans hy.symm)
      · exact Or.inr (Or.inl (hx ▸ hpw.1 y hy))
    · rcases hy with hy | hy
      · exact Or.inr (Or.inr (hy ▸ hpw.1 x hx))
      · exact pairwise_mem_rel R L x y hpw.2 hx hy

theorem filter_eq_single_of_pairwise {α : Type} (R : α → α → Prop) (p : α → Bool) :
    ∀ (L : List α) (x : α), L.Pairwise R → x ∈ L → p x = true →
      (∀ y, R x y → p y = false) → (∀ y, R y x → p y = false) →
      L.filter p = [x]
  | [], x, _, hx, _, _, _ => by cases hx
  | z :: L, x, hpw, hx, hpx, hfwd, hbwd => by
    rw [List.pairwise_cons] at hpw
    rw [List.filter_cons]
    rw [List.mem_cons] at hx
    by_cases hz : p z = true
    · have hzx : z = x := by
        rcases hx with h | h
        · exact h.symm
        · have h2 := hbwd z (hpw.1 x h)
          rw [h2] at hz
          cases hz
      subst hzx
      rw [if_pos hz]
      have hnil : L.filter p = [] := by
        rw [List.filter_eq_nil_iff]
        intro y hy
        have h2 := hfwd y (hpw.1 y hy)
        simp [h2]
      rw [hnil]
    · rw [if_neg hz]
      rcases hx with h | h
      · rw [← h] at hz
        exact absurd hpx hz
      · exact filter_eq_single_of_pairwise R p L x hpw.2 h hpx hfwd hbwd

theorem inlineNodesBetween_eq_filter (d : Node) (lo hi : Nat) :
    inlineNodesBetween d lo hi =
      ((descendantsAux d.content 0).filter (fun q => q.1.isText)).filter
        (ovlB lo hi) := by
  unfold inlineNodesBetween
  rw [nodesBetweenAux_eq_filter d.content 0 lo hi]
  rw [List.filter_filter, List.filter_filter]
  apply List.filter_congr
  intro a _
  rw [Bool.and_comm]

theorem inlineNodesBetween_self_single (A tn : Node) (tp : Nat)
    (hmem : (tn, tp) ∈ inlineNodesIn A) (hpos : 0 < tn.nodeSize) :
    inlineNodesBetween A tp (tp + tn.nodeSize) = [(tn, tp)] := by
  rw [inlineNodesBetween_eq_filter]
  apply filter_eq_single_of_pairwise spanLe (ovlB tp (tp + tn.nodeSize)) _ (tn, tp)
    (textEntries_pairwise A.content 0) hmem
  · simp [ovlB]
    omega
  · intro y hy
    have hy2 : tp + tn.nodeSize ≤ y.2 := hy
    simp only [ovlB, Bool.and_eq_false_iff, decide_eq_false_iff_not]
    right
    omega
  · intro y hy
    have hy2 : y.2 + y.1.nodeSize ≤ tp := hy
    simp only [ovlB, Bool.and_eq_false_iff, decide_eq_false_iff_not]
    left
    omega

theorem inlineNodesBetween_self_zero (A tn : Node) (tp : Nat)
    (hmem : (tn, tp) ∈ inlineNodesIn A) (hz : tn.nodeSize = 0) :
    inlineNodesBetween A tp (tp + tn.nodeSize) = [] := by
  rw [inlineNodesBetween_eq_filter, List.filter_eq_nil_iff]
  intro y hy
  have hrel := pairwise_mem_rel spanLe _ (tn, tp) y
    (textEntries_pairwise A.content 0) hmem hy
  intro hcon
  simp only [ovlB, Bool.and_eq_true, decide_eq_true_eq] at hcon
  rcases hrel with h | h | h
  · rw [← h] at hcon
    dsimp only at hcon
    omega
  · have h2 : tp + tn.nodeSize ≤ y.2 := h
    omega
  · have h2 : y.2 + y.1.nodeSize ≤ tp := h
    omega

end Recreate

namespace Recreate

theorem isInSet_of_mem {m : Mark} {ms : List Mark} (h : m ∈ ms) :
    Mark.isInSet m ms = true := by
  unfold Mark.isInSet
  exact List.elem_eq_true_of_mem h

theorem foldlM_ok_const {α β : Type} (f : β → α → Except String β) (b : β) :
    ∀ (L : List α), (∀ a ∈ L, f b a = .ok b) → List.foldlM f b L = .ok b
  | [], _ => rfl
  | a :: L, h => by
    have hstep : List.foldlM f b (a :: L) =
        Except.bind (f b a) (fun s => List.foldlM f s L) := rfl
    rw [hstep, h a (List.mem_cons_self a L)]
    exact foldlM_ok_const f b L (fun x hx => h x (List.mem_cons_of_mem a hx))

theorem markFold_self (g : Transform → Nat → Nat → Mark → Except String Transform)
    (ms : List Mark) (lo hi : Nat) (tr : Transform) :
    List.foldlM (fun trx mk =>
      if Mark.isInSet mk ms then pure trx else g trx lo hi mk) tr ms = .ok tr := by
  apply foldlM_ok_const
  intro mk hmk
  rw [if_pos (isInSet_of_mem hmk)]
  rfl

theorem getReplaceStep_self (d : Node) : getReplaceStep d d = none := by
  unfold getReplaceStep
  rw [findDiffStart_refl]

theorem reconcileMarksOne_self (A tn : Node) (tp : Nat) (tr : Transform)
    (hdoc : tr.doc = A) (hmem : (tn, tp) ∈ inlineNodesIn A) :
    reconcileMarksOne tr tn tp = .ok tr := by
  unfold reconcileMarksOne
  rw [hdoc]
  by_cases hz : tn.nodeSize = 0
  · rw [inlineNodesBetween_self_zero A tn tp hmem hz]
    rfl
  · rw [inlineNodesBetween_self_single A tn tp hmem (Nat.pos_of_ne_zero hz)]
    apply foldlM_ok_const
    intro a ha
    rw [List.mem_singleton] at ha
    subst ha
    simp only [Bind.bind, Except.bind]
    rw [markFold_self Transform.removeMark tn.marks
      (max tp tp) (min (tp + tn.nodeSize) (tp + tn.nodeSize)) tr]
    exact markFold_self Transform.addMark tn.marks
      (max tp tp) (min (tp + tn.nodeSize) (tp + tn.nodeSize)) tr

theorem recreateChangeMarkSteps_self (A : Node) (tr : Transform) (hdoc : tr.doc = A) :
    recreateChangeMarkSteps tr A = .ok tr := by
  unfold recreateChangeMarkSteps
  apply foldlM_ok_const
  intro a ha
  exact reconcileMarksOne_self A a.1 a.2 tr hdoc (by rwa [Prod.mk.eta])

theorem structuralLoop_conv (wordDiffs : Bool) (d : Node) (fuel : Nat) (tr : Transform) :
    structuralLoop wordDiffs d (fuel + 1) d tr = .ok tr := by
  unfold structuralLoop
  rw [findDiffStart_refl]

theorem allStepsLoop_self (d : Node) (fuel : Nat) (tr : Transform) (hdoc : tr.doc = d) :
    allStepsLoop d (fuel + 1) tr = .ok tr := by
  unfold allStepsLoop
  rw [hdoc, getReplaceStep_self]

/-- C9: for every document A and every combination of the three options,
recreating A against itself yields a Transform whose step list is empty
(and whose document is still A): in detailed mode the structural loop
exits on its first convergence test and the mark reconciler emits no
step on identical documents; in simple mode the replace-step computation
returns nothing on identical documents. -/
theorem recreateSelfEmptySteps (A : Node) (o : Options) :
    recreateTransform A A o = .ok ⟨A, []⟩ := by
  unfold recreateTransform init
  have hM : MAX_ITERATIONS = 999 + 1 := rfl
  cases hcs : o.complexSteps
  · have h1 : recreateAllSteps A ⟨A, []⟩ = .ok ⟨A, []⟩ := by
      unfold recreateAllSteps
      rw [hM]
      exact allStepsLoop_self A 999 ⟨A, []⟩ rfl
    simp only [Bool.false_eq_true, if_false, Bind.bind, Except.bind, h1,
      simplifyTransform, ite_self]
    rfl
  · have h1 : recreateStructuralSteps o.wordDiffs A ⟨A, []⟩ = .ok ⟨A, []⟩ := by
      unfold recreateStructuralSteps
      rw [hM]
      exact structuralLoop_conv o.wordDiffs (removeMarks A) 999 ⟨A, []⟩
    have h2 : recreateChangeMarkSteps (⟨A, []⟩ : Transform) A = .ok ⟨A, []⟩ :=
      recreateChangeMarkSteps_self A ⟨A, []⟩ rfl
    simp only [if_true, Bind.bind, Except.bind, h1, h2, simplifyTransform, ite_self]
    rfl

end Recreate

namespace Recreate

/-- Replay a step list over a document: the round-trip fold. -/
def applySteps (d : Node) (ss : List Step) : Except String Node :=
  List.foldlM applyStep d ss

/-- A transform replays: folding its recorded steps over the start
document reproduces its current document. -/
def replaysTo (A : Node) (tr : Transform) : Prop :=
  applySteps A tr.steps = .ok tr.doc

/-- A mark-erased copy of one token. -/
def stripTok : Token → Token
  | .charT c _ => .charT c []
  | .openT t a _ => .openT t a []
  | .closeT => .closeT

mutual
theorem tokensList_mergeTexts : ∀ ns : List Node,
    tokensList (mergeTexts ns) = tokensList ns
  | [] => rfl
  | .text s m :: rest => by
      rw [show mergeTexts (.text s m :: rest) = mergeRun s m rest from rfl,
        tokensList_mergeRun s m rest, tokensList_cons]
  | .elem t a m c :: rest => by
      rw [show mergeTexts (.elem t a m c :: rest) =
        .elem t a m c :: mergeTexts rest from rfl,
        tokensList_cons, tokensList_cons, tokensList_mergeTexts rest]
theorem tokensList_mergeRun : ∀ (s : List Char) (m : List Mark) (ns : List Node),
    tokensList (mergeRun s m ns) = (Node.text s m).tokens ++ tokensList ns
  | s, m, [] => by
      rw [show mergeRun s m [] = [Node.text s m] from rfl, tokensList_cons]
  | s, m, .text s2 m2 :: rest => by
      rw [show mergeRun s m (.text s2 m2 :: rest) =
        if (Node.text s m).sameMarkup (.text s2 m2) then mergeRun (s ++ s2) m rest
        else Node.text s m :: mergeRun s2 m2 rest from rfl]
      by_cases h : (Node.text s m).sameMarkup (.text s2 m2) = true
      · rw [if_pos h, tokensList_mergeRun (s ++ s2) m rest]
        have hm : m = m2 := by
          have h2 := (Node.sameMarkup_text_iff s m s2 m2).mp h
          exact h2
        rw [tokensList_cons, Node.tokens_text, Node.tokens_text, Node.tokens_text,
          List.map_append, hm, List.append_assoc]
      · rw [if_neg h, tokensList_cons, tokensList_mergeRun s2 m2 rest]
        simp [tokensList_cons]
  | s, m, .elem t a mm c :: rest => by
      rw [show mergeRun s m (.elem t a mm c :: rest) =
        Node.text s m :: .elem t a mm c :: mergeTexts rest from rfl,
        tokensList_cons, tokensList_cons, tokensList_mergeTexts rest]
      simp [tokensList_cons]
end

end Recreate

namespace Recreate

mutual
theorem Node.tokens_stripMarks : ∀ n : Node,
    (Node.stripMarks n).tokens = n.tokens.map stripTok
  | .text s m => by
      rw [show Node.stripMarks (.text s m) = .text s [] from rfl,
        Node.tokens_text, Node.tokens_text, List.map_map]
      rfl
  | .elem t a m c => by
      rw [show Node.stripMarks (.elem t a m c) =
        .elem t a [] (mergeTexts (stripMarksList c)) from rfl,
        Node.tokens_elem, Node.tokens_elem, tokensList_mergeTexts,
        tokensList_stripMarks c]
      simp [stripTok]
theorem tokensList_stripMarks : ∀ ns : List Node,
    tokensList (stripMarksList ns) = (tokensList ns).map stripTok
  | [] => rfl
  | n :: ns => by
      rw [show stripMarksList (n :: ns) = Node.stripMarks n :: stripMarksList ns from rfl,
        tokensList_cons, tokensList_cons, Node.tokens_stripMarks n,
        tokensList_stripMarks ns, List.map_append]
end

end Recreate

namespace Recreate

theorem takeCharRun_spec (m : List Mark) : ∀ ts : List Token,
    (takeCharRun m ts).1.map (fun c => Token.charT c m) ++ (takeCharRun m ts).2 = ts
  | [] => rfl
  | Token.charT c m2 :: rest => by
      rw [show takeCharRun m (Token.charT c m2 :: rest) =
        if m2 = m then
          ((c :: (takeCharRun m rest).1, (takeCharRun m rest).2) :
            List Char × List Token)
        else ([], Token.charT c m2 :: rest) from rfl]
      by_cases h : m2 = m
      · rw [if_pos h]
        dsimp only
        rw [List.map_cons, List.cons_append, takeCharRun_spec m rest, h]
      · rw [if_neg h]
        rfl
  | Token.openT t a mm :: rest => rfl
  | Token.closeT :: rest => rfl

theorem parseSeq_tokens : ∀ (fuel : Nat) (ts : List Token) (ns : List Node)
    (r : List Token), parseSeq fuel ts = some (ns, r) → tokensList ns ++ r = ts
  | 0, ts, ns, r, h => by
      cases ts with
      | nil =>
        have h2 : (none : Option (List Node × List Token)) = some (ns, r) := h
        cases h2
      | cons t rest =>
        cases t
        all_goals
          (have h2 : (none : Option (List Node × List Token)) = some (ns, r) := h
           cases h2)
  | fuel + 1, [], ns, r, h => by
      have h2 : some (([] : List Node), ([] : List Token)) = some (ns, r) := h
      cases h2
      rfl
  | fuel + 1, Token.closeT :: rest, ns, r, h => by
      have h2 : some (([] : List Node), Token.closeT :: rest) = some (ns, r) := h
      cases h2
      rfl
  | fuel + 1, Token.charT c m :: rest, ns, r, h => by
      have h3 : (match parseSeq fuel (takeCharRun m rest).2 with
        | some (ns0, r2) => some (Node.text (c :: (takeCharRun m rest).1) m :: ns0, r2)
        | none => none) = some (ns, r) := h
      cases hp : parseSeq fuel (takeCharRun m rest).2 with
      | none =>
        rw [hp] at h3
        have h4 : (none : Option (List Node × List Token)) = some (ns, r) := h3
        cases h4
      | some p =>
        obtain ⟨ns0, r2⟩ := p
        rw [hp] at h3
        have ih := parseSeq_tokens fuel (takeCharRun m rest).2 ns0 r2 hp
        have h4 : some (Node.text (c :: (takeCharRun m rest).1) m :: ns0, r2) =
          some (ns, r) := h3
        cases h4
        rw [tokensList_cons, Node.tokens_text, List.map_cons]
        simp only [List.cons_append, List.append_assoc]
        rw [ih, takeCharRun_spec m rest]
  | fuel + 1, Token.openT t a m :: rest, ns, r, h => by
      have h3 : (match parseSeq fuel rest with
        | some (ns0, Token.closeT :: r2) =>
          match parseSeq fuel r2 with
          | some (ns2, r3) => some (Node.elem t a m ns0 :: ns2, r3)
          | none => none
        | _ => none) = some (ns, r) := h
      cases hp : parseSeq fuel rest with
      | none =>
        rw [hp] at h3
        have h4 : (none : Option (List Node × List Token)) = some (ns, r) := h3
        cases h4
      | some p =>
        obtain ⟨ns0, r1⟩ := p
        rw [hp] at h3
        cases r1 with
        | nil =>
          have h4 : (none : Option (List Node × List Token)) = some (ns, r) := h3
          cases h4
        | cons t1 r2 =>
          cases t1 with
          | charT c2 m2 =>
            have h4 : (none : Option (List Node × List Token)) = some (ns, r) := h3
            cases h4
          | openT t2 a2 m2 =>
            have h4 : (none : Option (List Node × List Token)) = some (ns, r) := h3
            cases h4
          | closeT =>
            have h5 : (match parseSeq fuel r2 with
              | some (ns2, r3) => some (Node.elem t a m ns0 :: ns2, r3)
              | none => none) = some (ns, r) := h3
            cases hp2 : parseSeq fuel r2 with
            | none =>
              rw [hp2] at h5
              have h4 : (none : Option (List Node × List Token)) = some (ns, r) := h5
              cases h4
            | some p2 =>
              obtain ⟨ns2, r3⟩ := p2
              rw [hp2] at h5
              have ih1 := parseSeq_tokens fuel rest ns0 (Token.closeT :: r2) hp
              have ih2 := parseSeq_tokens fuel r2 ns2 r3 hp2
              have h4 : some (Node.elem t a m ns0 :: ns2, r3) = some (ns, r) := h5
              cases h4
              rw [tokensList_cons, Node.tokens_elem]
              simp only [List.cons_append, List.nil_append, List.append_assoc]
              rw [ih2, ih1]

/-- Parsing a complete stream and re-linearizing returns the stream. -/
theorem parseTokens_tokens {ts : List Token} {ns : List Node}
    (h : parseTokens ts = some ns) : tokensList ns = ts := by
  unfold parseTokens at h
  cases hp : parseSeq (ts.length + 1) ts with
  | none => rw [hp] at h; cases h
  | some p =>
    obtain ⟨ns0, r⟩ := p
    rw [hp] at h
    cases r with
    | nil =>
      have h4 : some ns0 = some ns := h
      cases h4
      have h2 := parseSeq_tokens (ts.length + 1) ts ns [] hp
      rwa [List.append_nil] at h2
    | cons t r2 =>
      have h4 : (none : Option (List Node)) = some ns := h
      cases h4

end Recreate

namespace Recreate

/-- A fragment is in parse-normal form: parsing its own linearization
returns it unchanged. -/
def SelfParse (c : List Node) : Prop := parseTokens (tokensList c) = some c

theorem docWithContent_markup (d : Node) (ns : List Node) :
    (docWithContent d ns).typ = d.typ ∧ (docWithContent d ns).attrs = d.attrs ∧
    (docWithContent d ns).marks = d.marks ∧ (docWithContent d ns).isText = d.isText := by
  cases d <;> exact ⟨rfl, rfl, rfl, rfl⟩

theorem docWithContent_content {d : Node} (hd : d.isText = false) (ns : List Node) :
    (docWithContent d ns).content = ns := by
  cases d with
  | text s m => simp [Node.isText] at hd
  | elem t a m c => rfl

theorem bind_ok {α β : Type} {x : Except String α} {f : α → Except String β} {b : β}
    (h : x >>= f = .ok b) : ∃ a, x = .ok a ∧ f a = .ok b := by
  cases x with
  | ok a => exact ⟨a, rfl, h⟩
  | error e =>
    have h2 : (Except.error e : Except String β) = .ok b := h
    cases h2

theorem applyStep_replace_ok {d : Node} {lo hi : Nat} {sl : List Token} {d2 : Node}
    (h : applyStep d (.replace lo hi sl) = .ok d2) :
    ∃ ns, parseTokens ((tokensList d.content).take lo ++ sl ++
        (tokensList d.content).drop hi) = some ns ∧ d2 = docWithContent d ns ∧
      lo ≤ hi ∧ hi ≤ (tokensList d.content).length := by
  have h1 : (if lo ≤ hi ∧ hi ≤ (tokensList d.content).length then
      match parseTokens ((tokensList d.content).take lo ++ sl ++
          (tokensList d.content).drop hi) with
      | some ns => Except.ok (docWithContent d ns)
      | none => (Except.error "Invalid content" : Except String Node)
    else Except.error "Position out of range") = .ok d2 := h
  by_cases hc : lo ≤ hi ∧ hi ≤ (tokensList d.content).length
  · have h3 : (match parseTokens ((tokensList d.content).take lo ++ sl ++
        (tokensList d.content).drop hi) with
      | some ns => Except.ok (docWithContent d ns)
      | none => Except.error "Invalid content") = .ok d2 := by
      rwa [if_pos hc] at h1
    cases hp : parseTokens ((tokensList d.content).take lo ++ sl ++
        (tokensList d.content).drop hi) with
    | none =>
      rw [hp] at h3
      have h4 : (Except.error "Invalid content" : Except String Node) = .ok d2 := h3
      cases h4
    | some ns =>
      rw [hp] at h3
      have h4 : Except.ok (docWithContent d ns) = .ok d2 := h3
      cases h4
      exact ⟨ns, rfl, rfl, hc.1, hc.2⟩
  · have h3 : (Except.error "Position out of range" : Except String Node) = .ok d2 := by
      rwa [if_neg hc] at h1
    cases h3

theorem markMapDoc_ok {d : Node} {f : Token → Token} {lo hi : Nat} {d2 : Node}
    (h : markMapDoc d f lo hi = .ok d2) :
    ∃ ns, parseTokens (mapRange f lo hi (tokensList d.content)) = some ns ∧
      d2 = docWithContent d ns := by
  unfold markMapDoc at h
  cases hp : parseTokens (mapRange f lo hi (tokensList d.content)) with
  | none =>
    rw [hp] at h
    have h4 : (Except.error "Invalid content" : Except String Node) = .ok d2 := h
    cases h4
  | some ns =>
    rw [hp] at h
    have h4 : Except.ok (docWithContent d ns) = .ok d2 := h
    cases h4
    exact ⟨ns, rfl, rfl⟩

theorem applyStep_setNodeMarkup_ok {d : Node} {pos : Nat} {typ : Option String}
    {attrs : List (String × String)} {marks : List Mark} {d2 : Node}
    (h : applyStep d (.setNodeMarkup pos typ attrs marks) = .ok d2) :
    ∃ t0 a0 m0 ns, (tokensList d.content).get? pos = some (.openT t0 a0 m0) ∧
      parseTokens ((tokensList d.content).take pos ++
        [Token.openT (typ.getD t0) attrs marks] ++
        (tokensList d.content).drop (pos + 1)) = some ns ∧
      d2 = docWithContent d ns := by
  have h1 : (match (tokensList d.content).get? pos with
    | some (Token.openT t0 a0 m0) =>
      match parseTokens ((tokensList d.content).take pos ++
          [Token.openT (typ.getD t0) attrs marks] ++
          (tokensList d.content).drop (pos + 1)) with
      | some ns => Except.ok (docWithContent d ns)
      | none => (Except.error "Invalid content" : Except String Node)
    | _ => Except.error "No node at given position") = .ok d2 := h
  cases hg : (tokensList d.content).get? pos with
  | none =>
    rw [hg] at h1
    have h4 : (Except.error "No node at given position" : Except String Node) = .ok d2 := h1
    cases h4
  | some t =>
    cases t with
    | charT c ms =>
      rw [hg] at h1
      have h4 : (Except.error "No node at given position" : Except String Node) = .ok d2 := h1
      cases h4
    | closeT =>
      rw [hg] at h1
      have h4 : (Except.error "No node at given position" : Except String Node) = .ok d2 := h1
      cases h4
    | openT t0 a0 m0 =>
      rw [hg] at h1
      have h3 : (match parseTokens ((tokensList d.content).take pos ++
          [Token.openT (typ.getD t0) attrs marks] ++
          (tokensList d.content).drop (pos + 1)) with
        | some ns => Except.ok (docWithContent d ns)
        | none => Except.error "Invalid content") = .ok d2 := h1
      cases hp : parseTokens ((tokensList d.content).take pos ++
          [Token.openT (typ.getD t0) attrs marks] ++
          (tokensList d.content).drop (pos + 1)) with
      | none =>
        rw [hp] at h3
        have h4 : (Except.error "Invalid content" : Except String Node) = .ok d2 := h3
        cases h4
      | some ns =>
        rw [hp] at h3
        have h4 : Except.ok (docWithContent d ns) = .ok d2 := h3
        cases h4
        exact ⟨t0, a0, m0, ns, rfl, hp, rfl⟩

theorem applyStep_root {d : Node} {s : Step} {d2 : Node}
    (h : applyStep d s = .ok d2) :
    d2.typ = d.typ ∧ d2.attrs = d.attrs ∧ d2.marks = d.marks ∧
      d2.isText = d.isText := by
  cases s with
  | replace lo hi sl =>
    obtain ⟨ns, _, hd2, _⟩ := applyStep_replace_ok h
    rw [hd2]
    exact docWithContent_markup d ns
  | setNodeMarkup pos typ attrs marks =>
    obtain ⟨t0, a0, m0, ns, _, _, hd2⟩ := applyStep_setNodeMarkup_ok h
    rw [hd2]
    exact docWithContent_markup d ns
  | addMark lo hi m =>
    obtain ⟨ns, _, hd2⟩ := markMapDoc_ok h
    rw [hd2]
    exact docWithContent_markup d ns
  | removeMark lo hi m =>
    obtain ⟨ns, _, hd2⟩ := markMapDoc_ok h
    rw [hd2]
    exact docWithContent_markup d ns

theorem applyStep_selfParse {d : Node} {s : Step} {d2 : Node}
    (h : applyStep d s = .ok d2) (hd : d.isText = false) :
    SelfParse d2.content := by
  cases s with
  | replace lo hi sl =>
    obtain ⟨ns, hp, hd2, _⟩ := applyStep_replace_ok h
    rw [hd2, docWithContent_content hd]
    unfold SelfParse
    rw [parseTokens_tokens hp]
    exact hp
  | setNodeMarkup pos typ attrs marks =>
    obtain ⟨t0, a0, m0, ns, _, hp, hd2⟩ := applyStep_setNodeMarkup_ok h
    rw [hd2, docWithContent_content hd]
    unfold SelfParse
    rw [parseTokens_tokens hp]
    exact hp
  | addMark lo hi m =>
    obtain ⟨ns, hp, hd2⟩ := markMapDoc_ok h
    rw [hd2, docWithContent_content hd]
    unfold SelfParse
    rw [parseTokens_tokens hp]
    exact hp
  | removeMark lo hi m =>
    obtain ⟨ns, hp, hd2⟩ := markMapDoc_ok h
    rw [hd2, docWithContent_content hd]
    unfold SelfParse
    rw [parseTokens_tokens hp]
    exact hp

theorem applyStep_tokens_replace {d : Node} {lo hi : Nat} {sl : List Token} {d2 : Node}
    (hd : d.isText = false) (h : applyStep d (.replace lo hi sl) = .ok d2) :
    tokensList d2.content = (tokensList d.content).take lo ++ sl ++
      (tokensList d.content).drop hi := by
  obtain ⟨ns, hp, hd2, _⟩ := applyStep_replace_ok h
  rw [hd2, docWithContent_content hd, parseTokens_tokens hp]

theorem applyStep_tokens_addMark {d : Node} {lo hi : Nat} {m : Mark} {d2 : Node}
    (hd : d.isText = false) (h : applyStep d (.addMark lo hi m) = .ok d2) :
    tokensList d2.content = mapRange (tokenAddMark m) lo hi (tokensList d.content) := by
  obtain ⟨ns, hp, hd2⟩ := markMapDoc_ok h
  rw [hd2, docWithContent_content hd, parseTokens_tokens hp]

theorem applyStep_tokens_removeMark {d : Node} {lo hi : Nat} {m : Mark} {d2 : Node}
    (hd : d.isText = false) (h : applyStep d (.removeMark lo hi m) = .ok d2) :
    tokensList d2.content = mapRange (tokenRemoveMark m) lo hi (tokensList d.content) := by
  obtain ⟨ns, hp, hd2⟩ := markMapDoc_ok h
  rw [hd2, docWithContent_content hd, parseTokens_tokens hp]

theorem applyStep_tokens_setNodeMarkup {d : Node} {pos : Nat} {typ : Option String}
    {attrs : List (String × String)} {marks : List Mark} {d2 : Node}
    (hd : d.isText = false) (h : applyStep d (.setNodeMarkup pos typ attrs marks) = .ok d2) :
    ∃ t0 a0 m0, (tokensList d.content).get? pos = some (.openT t0 a0 m0) ∧
      tokensList d2.content = (tokensList d.content).take pos ++
        [Token.openT (typ.getD t0) attrs marks] ++
        (tokensList d.content).drop (pos + 1) := by
  obtain ⟨t0, a0, m0, ns, hg, hp, hd2⟩ := applyStep_setNodeMarkup_ok h
  exact ⟨t0, a0, m0, hg, by rw [hd2, docWithContent_content hd, parseTokens_tokens hp]⟩

end Recreate

namespace Recreate

theorem charLtB_trans {a b c : Char} (h1 : charLtB a b = true) (h2 : charLtB b c = true) :
    charLtB a c = true := by
  unfold charLtB at *
  simp only [decide_eq_true_eq] at *
  exact lt_trans h1 h2

theorem charLtB_conn {a b : Char} (h1 : charLtB a b = false) (h2 : charLtB b a = false) :
    a = b := by
  unfold charLtB at *
  simp only [decide_eq_false_iff_not, not_lt] at *
  exact le_antisymm h2 h1

theorem listLtB_trans {α : Type} [BEq α] [LawfulBEq α] (ltB : α → α → Bool)
    (htr : ∀ {x y z : α}, ltB x y = true → ltB y z = true → ltB x z = true) :
    ∀ {as bs cs : List α},
      listLtB ltB (fun x y => x == y) as bs = true →
      listLtB ltB (fun x y => x == y) bs cs = true →
      listLtB ltB (fun x y => x == y) as cs = true
  | [], [], _, h1, _ => by cases h1
  | [], _ :: _, [], _, h2 => by cases h2
  | [], _ :: _, _ :: _, _, _ => rfl
  | _ :: _, [], _, h1, _ => by cases h1
  | _ :: _, _ :: _, [], _, h2 => by cases h2
  | a :: as, b :: bs, c :: cs, h1, h2 => by
    rw [show listLtB ltB (fun x y => x == y) (a :: as) (b :: bs) =
      (ltB a b || ((a == b) && listLtB ltB (fun x y => x == y) as bs)) from rfl] at h1
    rw [show listLtB ltB (fun x y => x == y) (b :: bs) (c :: cs) =
      (ltB b c || ((b == c) && listLtB ltB (fun x y => x == y) bs cs)) from rfl] at h2
    rw [show listLtB ltB (fun x y => x == y) (a :: as) (c :: cs) =
      (ltB a c || ((a == c) && listLtB ltB (fun x y => x == y) as cs)) from rfl]
    simp only [Bool.or_eq_true, Bool.and_eq_true, beq_iff_eq] at h1 h2 ⊢
    rcases h1 with h1 | ⟨hab, h1⟩
    · rcases h2 with h2 | ⟨hbc, h2⟩
      · exact Or.inl (htr h1 h2)
      · exact Or.inl (hbc ▸ h1)
    · rcases h2 with h2 | ⟨hbc, h2⟩
      · exact Or.inl (hab ▸ h2)
      · exact Or.inr ⟨hab.trans hbc, listLtB_trans ltB htr h1 h2⟩

theorem listLtB_conn {α : Type} [BEq α] [LawfulBEq α] (ltB : α → α → Bool)
    (hcn : ∀ {x y : α}, ltB x y = false → ltB y x = false → x = y) :
    ∀ {as bs : List α},
      listLtB ltB (fun x y => x == y) as bs = false →
      listLtB ltB (fun x y => x == y) bs as = false →
      as = bs
  | [], [], _, _ => rfl
  | [], _ :: _, h1, _ => by cases h1
  | _ :: _, [], _, h2 => by cases h2
  | a :: as, b :: bs, h1, h2 => by
    rw [show listLtB ltB (fun x y => x == y) (a :: as) (b :: bs) =
      (ltB a b || ((a == b) && listLtB ltB (fun x y => x == y) as bs)) from rfl] at h1
    rw [show listLtB ltB (fun x y => x == y) (b :: bs) (a :: as) =
      (ltB b a || ((b == a) && listLtB ltB (fun x y => x == y) bs as)) from rfl] at h2
    simp only [Bool.or_eq_false_iff, Bool.and_eq_false_iff] at h1 h2
    have hab : a = b := hcn h1.1 h2.1
    rcases h1.2 with h1c | h1c
    · rw [hab] at h1c
      simp at h1c
    · rcases h2.2 with h2c | h2c
      · rw [hab] at h2c
        simp at h2c
      · rw [hab, listLtB_conn ltB hcn h1c h2c]

theorem strLtB_trans {a b c : String} (h1 : strLtB a b = true) (h2 : strLtB b c = true) :
    strLtB a c = true :=
  listLtB_trans charLtB (fun hx hy => charLtB_trans hx hy) h1 h2

theorem strLtB_conn {a b : String} (h1 : strLtB a b = false) (h2 : strLtB b a = false) :
    a = b := by
  have h3 : a.data = b.data :=
    listLtB_conn charLtB (fun hx hy => charLtB_conn hx hy) h1 h2
  cases a
  cases b
  exact congrArg String.mk h3

theorem flatten_pairs_inj :
    ∀ (as bs : List (String × String)),
      (as.map (fun p => [p.1, p.2])).flatten = (bs.map (fun p => [p.1, p.2])).flatten →
      as = bs
  | [], [], _ => rfl
  | [], b :: bs, h => by simp at h
  | a :: as, [], h => by simp at h
  | a :: as, b :: bs, h => by
    simp only [List.map_cons, List.flatten_cons, List.cons_append, List.nil_append,
      List.cons.injEq] at h
    obtain ⟨h1, h2, h3⟩ := h
    rw [flatten_pairs_inj as bs h3, Prod.ext h1 h2]

theorem markKey_inj {a b : Mark} (h : markKey a = markKey b) : a = b := by
  unfold markKey at h
  rw [List.cons.injEq] at h
  obtain ⟨h1, h2⟩ := h
  obtain ⟨ta, aa⟩ := a
  obtain ⟨tb, ab⟩ := b
  simp only at h1
  have h3 := flatten_pairs_inj aa ab h2
  rw [h1, h3]

theorem markLt_trans {a b c : Mark} (h1 : markLt a b = true) (h2 : markLt b c = true) :
    markLt a c = true :=
  listLtB_trans strLtB (fun hx hy => strLtB_trans hx hy) h1 h2

theorem markLt_conn {a b : Mark} (h1 : markLt a b = false) (h2 : markLt b a = false) :
    a = b :=
  markKey_inj (listLtB_conn strLtB (fun hx hy => strLtB_conn hx hy) h1 h2)

theorem charLtB_irrefl (a : Char) : charLtB a a = false := by
  simp [charLtB]

theorem listLtB_irrefl {α : Type} [BEq α] [LawfulBEq α] (ltB : α → α → Bool)
    (hirr : ∀ x : α, ltB x x = false) :
    ∀ as : List α, listLtB ltB (fun x y => x == y) as as = false
  | [] => rfl
  | a :: as => by
    rw [show listLtB ltB (fun x y => x == y) (a :: as) (a :: as) =
      (ltB a a || ((a == a) && listLtB ltB (fun x y => x == y) as as)) from rfl,
      hirr a, listLtB_irrefl ltB hirr as]
    simp

theorem strLtB_irrefl (a : String) : strLtB a a = false :=
  listLtB_irrefl charLtB charLtB_irrefl a.data

theorem markLt_irrefl (a : Mark) : markLt a a = false :=
  listLtB_irrefl strLtB strLtB_irrefl (markKey a)

theorem markLt_asymm {a b : Mark} (h : markLt a b = true) : markLt b a = false := by
  by_cases h2 : markLt b a = true
  · have := markLt_trans h h2
    rw [markLt_irrefl a] at this
    cases this
  · simpa using h2

end Recreate

namespace Recreate

/-- A mark list in canonical strictly increasing rank order. -/
def sortedMarks : List Mark → Bool
  | [] => true
  | [_] => true
  | a :: b :: t => markLt a b && sortedMarks (b :: t)

theorem sortedMarks_iff : ∀ ms : List Mark,
    sortedMarks ms = true ↔ List.Pairwise (fun a b => markLt a b = true) ms
  | [] => by simp [sortedMarks]
  | [a] => by simp [sortedMarks]
  | a :: b :: t => by
      rw [show sortedMarks (a :: b :: t) = (markLt a b && sortedMarks (b :: t)) from rfl,
        Bool.and_eq_true, sortedMarks_iff (b :: t)]
      constructor
      · rintro ⟨h1, h2⟩
        rw [List.pairwise_cons]
        refine ⟨?_, h2⟩
        intro y hy
        rw [List.mem_cons] at hy
        rcases hy with hy | hy
        · rw [hy]
          exact h1
        · rw [List.pairwise_cons] at h2
          exact markLt_trans h1 (h2.1 y hy)
      · intro h
        rw [List.pairwise_cons] at h
        exact ⟨h.1 b (List.mem_cons_self b t), h.2⟩

theorem removeFromSet_sorted {m : Mark} {ms : List Mark} (h : sortedMarks ms = true) :
    sortedMarks (Mark.removeFromSet m ms) = true := by
  rw [sortedMarks_iff] at h ⊢
  exact List.Pairwise.filter _ h

theorem removeFromSet_mem {m x : Mark} {ms : List Mark} :
    x ∈ Mark.removeFromSet m ms ↔ x ∈ ms ∧ x ≠ m := by
  unfold Mark.removeFromSet
  rw [List.mem_filter]
  simp [bne_iff_ne]

theorem insertMarkSorted_mem {m : Mark} : ∀ {ms : List Mark} {x : Mark},
    x ∈ insertMarkSorted m ms ↔ x = m ∨ x ∈ ms
  | [], x => by simp [insertMarkSorted]
  | y :: ys, x => by
      rw [show insertMarkSorted m (y :: ys) =
        if markLt m y then m :: y :: ys else y :: insertMarkSorted m ys from rfl]
      by_cases h : markLt m y = true
      · rw [if_pos h]
        simp
      · rw [if_neg h]
        rw [List.mem_cons, List.mem_cons, insertMarkSorted_mem]
        tauto

theorem insertMarkSorted_pairwise {m : Mark} : ∀ {ms : List Mark},
    List.Pairwise (fun a b => markLt a b = true) ms → m ∉ ms →
    List.Pairwise (fun a b => markLt a b = true) (insertMarkSorted m ms)
  | [], _, _ => by simp [insertMarkSorted]
  | y :: ys, hp, hm => by
      rw [List.pairwise_cons] at hp
      rw [show insertMarkSorted m (y :: ys) =
        if markLt m y then m :: y :: ys else y :: insertMarkSorted m ys from rfl]
      by_cases h : markLt m y = true
      · rw [if_pos h]
        rw [List.pairwise_cons]
        constructor
        · intro y2 hy2
          rw [List.mem_cons] at hy2
          rcases hy2 with hy2 | hy2
          · rw [hy2]
            exact h
          · exact markLt_trans h (hp.1 y2 hy2)
        · rw [List.pairwise_cons]
          exact hp
      · rw [if_neg h]
        have hym : markLt y m = true := by
          by_cases h2 : markLt y m = true
          · exact h2
          · exfalso
            apply hm
            have he : m = y := markLt_conn (by simpa using h) (by simpa using h2)
            rw [he]
            exact List.mem_cons_self y ys
        rw [List.pairwise_cons]
        constructor
        · intro y2 hy2
          rw [insertMarkSorted_mem] at hy2
          rcases hy2 with hy2 | hy2
          · rw [hy2]
            exact hym
          · exact hp.1 y2 hy2
        · exact insertMarkSorted_pairwise hp.2 (fun hc => hm (List.mem_cons_of_mem y hc))

theorem addToSet_sorted {m : Mark} {ms : List Mark} (h : sortedMarks ms = true) :
    sortedMarks (Mark.addToSet m ms) = true := by
  unfold Mark.addToSet
  by_cases hm : m ∈ ms
  · rw [if_pos hm]
    exact h
  · rw [if_neg hm]
    rw [sortedMarks_iff] at h ⊢
    exact insertMarkSorted_pairwise h hm

theorem addToSet_mem {m x : Mark} {ms : List Mark} :
    x ∈ Mark.addToSet m ms ↔ x = m ∨ x ∈ ms := by
  unfold Mark.addToSet
  by_cases hm : m ∈ ms
  · rw [if_pos hm]
    constructor
    · exact Or.inr
    · rintro (h | h)
      · rw [h]
        exact hm
      · exact h
  · rw [if_neg hm]
    exact insertMarkSorted_mem

theorem sortedMarks_ext : ∀ {L M : List Mark}, sortedMarks L = true →
    sortedMarks M = true → (∀ x, x ∈ L ↔ x ∈ M) → L = M
  | [], [], _, _, _ => rfl
  | [], b :: M, _, _, hiff => by
      have := (hiff b).mpr (List.mem_cons_self b M)
      cases this
  | a :: L, [], _, _, hiff => by
      have := (hiff a).mp (List.mem_cons_self a L)
      cases this
  | a :: L, b :: M, hL, hM, hiff => by
      rw [sortedMarks_iff, List.pairwise_cons] at hL hM
      have hab : a = b := by
        have ha : a ∈ b :: M := (hiff a).mp (List.mem_cons_self a L)
        have hb : b ∈ a :: L := (hiff b).mpr (List.mem_cons_self b M)
        rw [List.mem_cons] at ha hb
        rcases ha with ha | ha
        · exact ha
        · rcases hb with hb | hb
          · exact hb.symm
          · have h1 := hM.1 a ha
            have h2 := hL.1 b hb
            have := markLt_asymm h1
            rw [this] at h2
            cases h2
      subst hab
      have hLM : ∀ x, x ∈ L ↔ x ∈ M := by
        intro x
        constructor
        · intro hx
          have hx2 : x ∈ a :: M := (hiff x).mp (List.mem_cons_of_mem a hx)
          rw [List.mem_cons] at hx2
          rcases hx2 with hx2 | hx2
          · exfalso
            have := hL.1 x hx
            rw [hx2, markLt_irrefl] at this
            cases this
          · exact hx2
        · intro hx
          have hx2 : x ∈ a :: L := (hiff x).mpr (List.mem_cons_of_mem a hx)
          rw [List.mem_cons] at hx2
          rcases hx2 with hx2 | hx2
          · exfalso
            have := hM.1 x hx
            rw [hx2, markLt_irrefl] at this
            cases this
          · exact hx2
      rw [sortedMarks_ext ((sortedMarks_iff L).mpr hL.2) ((sortedMarks_iff M).mpr hM.2) hLM]

end Recreate

namespace Recreate

theorem isInSet_iff {m : Mark} {ms : List Mark} : Mark.isInSet m ms = true ↔ m ∈ ms := by
  unfold Mark.isInSet
  exact List.elem_iff

/-- Pointwise effect on one mark list of the reconciler's removal pass. -/
def remFold (M L ms : List Mark) : List Mark :=
  L.foldl (fun acc mk => if Mark.isInSet mk M then acc else Mark.removeFromSet mk acc) ms

/-- Pointwise effect on one mark list of the reconciler's addition pass. -/
def addFold (L M ms : List Mark) : List Mark :=
  M.foldl (fun acc mk => if Mark.isInSet mk L then acc else Mark.addToSet mk acc) ms

theorem remFold_mem (M : List Mark) : ∀ (L ms : List Mark) (x : Mark),
    x ∈ remFold M L ms ↔ x ∈ ms ∧ (x ∉ L ∨ x ∈ M)
  | [], ms, x => by simp [remFold]
  | mk :: L, ms, x => by
      rw [show remFold M (mk :: L) ms =
        remFold M L (if Mark.isInSet mk M then ms else Mark.removeFromSet mk ms) from rfl,
        remFold_mem M L _ x]
      by_cases hmk : Mark.isInSet mk M = true
      · rw [if_pos hmk]
        have hmkM : mk ∈ M := isInSet_iff.mp hmk
        by_cases hx : x = mk
        · subst hx
          simp [hmkM]
        · simp only [List.mem_cons]
          tauto
      · rw [if_neg hmk]
        have hmkM : mk ∉ M := by
          intro hc
          exact hmk (isInSet_iff.mpr hc)
        rw [removeFromSet_mem]
        by_cases hx : x = mk
        · subst hx
          simp [hmkM]
        · simp only [List.mem_cons]
          tauto

theorem addFold_mem (L : List Mark) : ∀ (M ms : List Mark) (x : Mark),
    x ∈ addFold L M ms ↔ x ∈ ms ∨ (x ∈ M ∧ x ∉ L)
  | [], ms, x => by simp [addFold]
  | mk :: M, ms, x => by
      rw [show addFold L (mk :: M) ms =
        addFold L M (if Mark.isInSet mk L then ms else Mark.addToSet mk ms) from rfl,
        addFold_mem L M _ x]
      by_cases hmk : Mark.isInSet mk L = true
      · rw [if_pos hmk]
        have hmkL : mk ∈ L := isInSet_iff.mp hmk
        by_cases hx : x = mk
        · subst hx
          simp [hmkL]
        · simp only [List.mem_cons]
          tauto
      · rw [if_neg hmk]
        have hmkL : mk ∉ L := by
          intro hc
          exact hmk (isInSet_iff.mpr hc)
        rw [addToSet_mem]
        by_cases hx : x = mk
        · subst hx
          simp [hmkL]
        · simp only [List.mem_cons]
          tauto

theorem remFold_sorted (M : List Mark) : ∀ (L ms : List Mark),
    sortedMarks ms = true → sortedMarks (remFold M L ms) = true
  | [], ms, h => h
  | mk :: L, ms, h => by
      rw [show remFold M (mk :: L) ms =
        remFold M L (if Mark.isInSet mk M then ms else Mark.removeFromSet mk ms) from rfl]
      apply remFold_sorted M L
      by_cases hmk : Mark.isInSet mk M = true
      · rwa [if_pos hmk]
      · rw [if_neg hmk]
        exact removeFromSet_sorted h

theorem addFold_sorted (L : List Mark) : ∀ (M ms : List Mark),
    sortedMarks ms = true → sortedMarks (addFold L M ms) = true
  | [], ms, h => h
  | mk :: M, ms, h => by
      rw [show addFold L (mk :: M) ms =
        addFold L M (if Mark.isInSet mk L then ms else Mark.addToSet mk ms) from rfl]
      apply addFold_sorted L M
      by_cases hmk : Mark.isInSet mk L = true
      · rwa [if_pos hmk]
      · rw [if_neg hmk]
        exact addToSet_sorted h

/-- The reconciler's two passes rewrite a run's mark list to exactly the
target list, for canonically sorted lists. -/
theorem reconFold_eq {L M : List Mark} (hL : sortedMarks L = true)
    (hM : sortedMarks M = true) : addFold L M (remFold M L L) = M := by
  apply sortedMarks_ext (addFold_sorted L M _ (remFold_sorted M L L hL)) hM
  intro x
  rw [addFold_mem, remFold_mem]
  by_cases hxL : x ∈ L <;> by_cases hxM : x ∈ M <;> tauto

end Recreate

namespace Recreate

theorem applySteps_snoc (d : Node) (ss : List Step) (s : Step) :
    applySteps d (ss ++ [s]) = applySteps d ss >>= fun d2 => applyStep d2 s := by
  unfold applySteps
  rw [List.foldlM_append]
  apply congrArg
  funext d2
  show List.foldlM applyStep d2 [s] = applyStep d2 s
  show applyStep d2 s >>= (fun d3 => pure d3) = applyStep d2 s
  cases applyStep d2 s <;> rfl

theorem step_replays {A : Node} {tr : Transform} {s : Step} {tr2 : Transform}
    (hr : replaysTo A tr) (h : tr.step s = .ok tr2) : replaysTo A tr2 := by
  obtain ⟨hsteps, hdoc⟩ := Transform.step_steps h
  unfold replaysTo at hr ⊢
  rw [hsteps, applySteps_snoc, hr]
  exact hdoc

theorem mapRange_getElem (f : Token → Token) (lo hi : Nat) (ts : List Token) (i : Nat) :
    (mapRange f lo hi ts)[i]? =
      ts[i]?.map (fun t => if lo ≤ i ∧ i < hi then f t else t) := by
  unfold mapRange
  rw [List.getElem?_mapIdx]

theorem markStepsFold_sem (A : Node) (cond : Mark → Bool) (mkStep : Mark → Step)
    (tokF : Mark → Token → Token) (lo hi : Nat)
    (hsem : ∀ (d : Node) (mk : Mark) (d2 : Node), d.isText = false →
      applyStep d (mkStep mk) = .ok d2 →
      tokensList d2.content = mapRange (tokF mk) lo hi (tokensList d.content)) :
    ∀ (mks : List Mark) (tr tr2 : Transform),
      tr.doc.isText = false →
      List.foldlM (fun trx mk => if cond mk then pure trx else trx.step (mkStep mk)) tr mks
        = .ok tr2 →
      tr2.doc.isText = false ∧
      (replaysTo A tr → replaysTo A tr2) ∧
      tr2.doc.typ = tr.doc.typ ∧ tr2.doc.attrs = tr.doc.attrs ∧
      tr2.doc.marks = tr.doc.marks ∧
      (SelfParse tr.doc.content → SelfParse tr2.doc.content) ∧
      ∀ i, (tokensList tr2.doc.content)[i]? = (tokensList tr.doc.content)[i]?.map
        (fun t => if lo ≤ i ∧ i < hi then
          mks.foldl (fun t2 mk => if cond mk then t2 else tokF mk t2) t else t)
  | [], tr, tr2, htext, h => by
      have h2 : Except.ok tr = .ok tr2 := h
      cases h2
      refine ⟨htext, fun hr => hr, rfl, rfl, rfl, fun hs => hs, ?_⟩
      intro i
      cases (tokensList tr.doc.content)[i]? <;> simp
  | mk :: mks, tr, tr2, htext, h => by
      have h2 : ((if cond mk then pure tr else tr.step (mkStep mk)) >>=
        fun tr1 => List.foldlM
          (fun trx mk => if cond mk then pure trx else trx.step (mkStep mk)) tr1 mks)
        = .ok tr2 := h
      obtain ⟨tr1, h3, h4⟩ := bind_ok h2
      by_cases hc : cond mk = true
      · rw [if_pos hc] at h3
        have h5 : tr = tr1 := by
          have h6 : Except.ok tr = .ok tr1 := h3
          cases h6
          rfl
        subst h5
        have ih := markStepsFold_sem A cond mkStep tokF lo hi hsem mks tr tr2
          htext h4
        refine ⟨ih.1, ih.2.1, ih.2.2.1, ih.2.2.2.1, ih.2.2.2.2.1, ih.2.2.2.2.2.1, ?_⟩
        intro i
        rw [ih.2.2.2.2.2.2 i]
        cases hti : (tokensList tr.doc.content)[i]? with
        | none => rfl
        | some t =>
          simp only [Option.map_some']
          by_cases hrange : lo ≤ i ∧ i < hi
          · rw [if_pos hrange, if_pos hrange, List.foldl_cons, if_pos hc]
          · rw [if_neg hrange, if_neg hrange]
      · rw [if_neg hc] at h3
        obtain ⟨hsteps, hdoc⟩ := Transform.step_steps h3
        have htext1 : tr1.doc.isText = false := by
          rw [(applyStep_root hdoc).2.2.2, htext]
        have htok1 : tokensList tr1.doc.content =
            mapRange (tokF mk) lo hi (tokensList tr.doc.content) :=
          hsem tr.doc mk tr1.doc htext hdoc
        have ih := markStepsFold_sem A cond mkStep tokF lo hi hsem mks tr1 tr2
          htext1 h4
        obtain ⟨hroot1, hroot2, hroot3, hroot4⟩ := applyStep_root hdoc
        refine ⟨ih.1, ?_, ih.2.2.1.trans hroot1, ih.2.2.2.1.trans hroot2,
          ih.2.2.2.2.1.trans hroot3, ?_, ?_⟩
        · intro hr
          exact ih.2.1 (step_replays hr h3)
        · intro _
          exact ih.2.2.2.2.2.1 (applyStep_selfParse hdoc htext)
        · intro i
          rw [ih.2.2.2.2.2.2 i, htok1, mapRange_getElem]
          cases hti : (tokensList tr.doc.content)[i]? with
          | none => rfl
          | some t =>
            simp only [Option.map_some']
            by_cases hrange : lo ≤ i ∧ i < hi
            · rw [if_pos hrange, if_pos hrange, if_pos hrange, List.foldl_cons,
                if_neg hc]
            · rw [if_neg hrange, if_neg hrange, if_neg hrange]

end Recreate

namespace Recreate

mutual
theorem descendantsAux_seg : ∀ (c : List Node) (pos : Nat) (q : Node × Nat),
    q ∈ descendantsAux c pos →
    ∃ pre post, tokensList c = pre ++ q.1.tokens ++ post ∧ pre.length + pos = q.2
  | [], pos, q, h => by simp [descendantsAux] at h
  | n :: ns, pos, q, h => by
    rw [descendantsAux, List.cons_append, List.mem_cons, List.mem_append] at h
    rcases h with h | h | h
    · subst h
      exact ⟨[], tokensList ns, by rw [tokensList_cons, List.nil_append], by simp⟩
    · obtain ⟨pre, post, hseg, hlen⟩ := descendantsIn_seg n pos q h
      refine ⟨pre, post ++ tokensList ns, ?_, hlen⟩
      rw [tokensList_cons, hseg]
      simp [List.append_assoc]
    · obtain ⟨pre, post, hseg, hlen⟩ := descendantsAux_seg ns (pos + n.nodeSize) q h
      refine ⟨n.tokens ++ pre, post, ?_, ?_⟩
      · rw [tokensList_cons, hseg]
        simp [List.append_assoc]
      · rw [List.length_append]
        unfold Node.nodeSize at hlen
        omega
theorem descendantsIn_seg : ∀ (n : Node) (pos : Nat) (q : Node × Nat),
    q ∈ descendantsIn n pos →
    ∃ pre post, n.tokens = pre ++ q.1.tokens ++ post ∧ pre.length + pos = q.2
  | .text _ _, pos, q, h => by simp [descendantsIn] at h
  | .elem t a m c, pos, q, h => by
    rw [descendantsIn] at h
    obtain ⟨pre, post, hseg, hlen⟩ := descendantsAux_seg c (pos + 1) q h
    refine ⟨Token.openT t a m :: pre, post ++ [Token.closeT], ?_, ?_⟩
    · rw [Node.tokens_elem, hseg]
      simp [List.append_assoc]
    · rw [List.length_cons]
      omega
end

theorem seg_getElem {c : List Node} {q : Node × Nat} (pos : Nat)
    (h : ∃ pre post, tokensList c = pre ++ q.1.tokens ++ post ∧ pre.length + pos = q.2)
    {j : Nat} (hj : j < q.1.nodeSize) :
    (tokensList c)[q.2 - pos + j]? = q.1.tokens[j]? := by
  obtain ⟨pre, post, hseg, hlen⟩ := h
  rw [hseg]
  have hidx : q.2 - pos + j = pre.length + j := by omega
  have hj2 : j < q.1.tokens.length := hj
  rw [hidx, List.append_assoc, List.getElem?_append_right (by omega),
    Nat.add_sub_cancel_left, List.getElem?_append, if_pos hj2]

mutual
theorem descendantsAux_cover : ∀ (c : List Node) (pos i : Nat) (ch : Char)
    (ms : List Mark), (tokensList c)[i]? = some (.charT ch ms) →
    ∃ q, q ∈ descendantsAux c pos ∧ (∃ s : List Char, q.1 = .text s ms) ∧
      q.2 ≤ pos + i ∧ pos + i < q.2 + q.1.nodeSize
  | [], pos, i, ch, ms, h => by simp [tokensList] at h
  | n :: ns, pos, i, ch, ms, h => by
    rw [tokensList_cons] at h
    by_cases hi : i < n.tokens.length
    · rw [List.getElem?_append, if_pos hi] at h
      obtain ⟨q, hq, hs, h1, h2⟩ := descendantsIn_cover n pos i ch ms h
      refine ⟨q, ?_, hs, h1, h2⟩
      rw [descendantsAux, List.cons_append, List.mem_cons, List.mem_append]
      rw [List.mem_cons] at hq
      rcases hq with hq | hq
      · exact Or.inl hq
      · exact Or.inr (Or.inl hq)
    · rw [List.getElem?_append, if_neg hi] at h
      obtain ⟨q, hq, hs, h1, h2⟩ :=
        descendantsAux_cover ns (pos + n.nodeSize) (i - n.tokens.length) ch ms h
      have hsz : n.nodeSize = n.tokens.length := rfl
      exact ⟨q, by
        rw [descendantsAux, List.cons_append, List.mem_cons, List.mem_append]
        exact Or.inr (Or.inr hq), hs, by omega, by omega⟩
theorem descendantsIn_cover : ∀ (n : Node) (pos i : Nat) (ch : Char) (ms : List Mark),
    n.tokens[i]? = some (.charT ch ms) →
    ∃ q, q ∈ (n, pos) :: descendantsIn n pos ∧ (∃ s : List Char, q.1 = .text s ms) ∧
      q.2 ≤ pos + i ∧ pos + i < q.2 + q.1.nodeSize
  | .text s m, pos, i, ch, ms, h => by
    rw [Node.tokens_text] at h
    have hi : i < s.length := by
      by_cases hlt : i < s.length
      · exact hlt
      · rw [List.getElem?_eq_none (by rw [List.length_map]; omega)] at h
        cases h
    rw [List.getElem?_eq_getElem (by rw [List.length_map]; exact hi)] at h
    rw [List.getElem_map] at h
    have hms : ms = m := by
      have h2 := (Option.some.injEq _ _).mp h
      exact ((Token.charT.injEq _ _ _ _).mp h2).2.symm
    refine ⟨(.text s m, pos), List.mem_cons_self _ _, ⟨s, by rw [hms]⟩, by omega, ?_⟩
    rw [Node.nodeSize_text]
    dsimp only
    omega
  | .elem t a m c, pos, i, ch, ms, h => by
    rw [Node.tokens_elem] at h
    cases i with
    | zero => simp at h
    | succ i0 =>
      rw [List.getElem?_cons_succ] at h
      by_cases hi : i0 < (tokensList c).length
      · rw [List.getElem?_append, if_pos hi] at h
        obtain ⟨q, hq, hs, h1, h2⟩ := descendantsAux_cover c (pos + 1) i0 ch ms h
        refine ⟨q, ?_, hs, by omega, by omega⟩
        rw [descendantsIn]
        exact List.mem_cons_of_mem _ hq
      · rw [List.getElem?_append, if_neg hi] at h
        cases hv : i0 - (tokensList c).length with
        | zero =>
          rw [hv] at h
          simp at h
        | succ k =>
          rw [hv] at h
          simp at h
end

end Recreate

namespace Recreate

theorem tokFold_char (cond : Mark → Bool) (g : Mark → List Mark → List Mark)
    (tokG : Mark → Token → Token)
    (hg : ∀ mk c msx, tokG mk (Token.charT c msx) = Token.charT c (g mk msx)) :
    ∀ (mks : List Mark) (c : Char) (ms : List Mark),
      mks.foldl (fun t2 mk => if cond mk then t2 else tokG mk t2) (Token.charT c ms) =
      Token.charT c (mks.foldl (fun acc mk => if cond mk then acc else g mk acc) ms)
  | [], c, ms => rfl
  | mk :: mks, c, ms => by
      rw [List.foldl_cons, List.foldl_cons]
      by_cases hc : cond mk = true
      · rw [if_pos hc, if_pos hc]
        exact tokFold_char cond g tokG hg mks c ms
      · rw [if_neg hc, if_neg hc, hg]
        exact tokFold_char cond g tokG hg mks c (g mk ms)

theorem tokFold_id (cond : Mark → Bool) (tokG : Mark → Token → Token) (t : Token)
    (hid : ∀ mk, tokG mk t = t) :
    ∀ mks : List Mark,
      mks.foldl (fun t2 mk => if cond mk then t2 else tokG mk t2) t = t
  | [] => rfl
  | mk :: mks => by
      rw [List.foldl_cons]
      by_cases hc : cond mk = true
      · rw [if_pos hc]
        exact tokFold_id cond tokG t hid mks
      · rw [if_neg hc, hid]
        exact tokFold_id cond tokG t hid mks

theorem reconEnts_sem (A : Node) (tp k : Nat) (M : List Mark)
    (hM : 0 < k → sortedMarks M = true) :
    ∀ (ents : List (Node × Nat)) (tr tr2 : Transform),
      tr.doc.isText = false →
      List.Pairwise spanLe ents →
      (∀ e ∈ ents, ∀ j, j < e.1.nodeSize → ∃ c,
        (tokensList tr.doc.content)[e.2 + j]? = some (.charT c e.1.marks)) →
      (∀ e ∈ ents, 0 < e.1.nodeSize → sortedMarks e.1.marks = true) →
      List.foldlM
        (fun (trA : Transform) (fp : Node × Nat) => do
          let tr3 ← fp.1.marks.foldlM
            (fun (trx : Transform) (mk : Mark) => if Mark.isInSet mk M then pure trx
              else trx.step (.removeMark (max tp fp.2)
                (min (tp + k) (fp.2 + fp.1.nodeSize)) mk))
            trA
          M.foldlM
            (fun (trx : Transform) (mk : Mark) => if Mark.isInSet mk fp.1.marks then pure trx
              else trx.step (.addMark (max tp fp.2)
                (min (tp + k) (fp.2 + fp.1.nodeSize)) mk))
            tr3)
        tr ents = .ok tr2 →
      tr2.doc.isText = false ∧ (replaysTo A tr → replaysTo A tr2) ∧
      tr2.doc.typ = tr.doc.typ ∧ tr2.doc.attrs = tr.doc.attrs ∧
      tr2.doc.marks = tr.doc.marks ∧
      (SelfParse tr.doc.content → SelfParse tr2.doc.content) ∧
      (∀ i, (∀ e ∈ ents, i < max tp e.2 ∨ min (tp + k) (e.2 + e.1.nodeSize) ≤ i) →
        (tokensList tr2.doc.content)[i]? = (tokensList tr.doc.content)[i]?) ∧
      (∀ e ∈ ents, ∀ i, max tp e.2 ≤ i → i < min (tp + k) (e.2 + e.1.nodeSize) →
        ∀ c ms, (tokensList tr.doc.content)[i]? = some (.charT c ms) →
          (tokensList tr2.doc.content)[i]? = some (.charT c M))
  | [], tr, tr2, htext, _, _, _, h => by
      have h2 : Except.ok tr = .ok tr2 := h
      cases h2
      exact ⟨htext, fun hr => hr, rfl, rfl, rfl, fun hs => hs,
        fun i _ => rfl, fun e he => absurd he (List.not_mem_nil e)⟩
  | e :: ents, tr, tr2, htext, hpw, hspan, hsorted, h => by
      rw [List.pairwise_cons] at hpw
      have h2 : ((do
          let tr3 ← e.1.marks.foldlM
            (fun (trx : Transform) (mk : Mark) => if Mark.isInSet mk M then pure trx
              else trx.step (.removeMark (max tp e.2)
                (min (tp + k) (e.2 + e.1.nodeSize)) mk))
            tr
          M.foldlM
            (fun (trx : Transform) (mk : Mark) => if Mark.isInSet mk e.1.marks then pure trx
              else trx.step (.addMark (max tp e.2)
                (min (tp + k) (e.2 + e.1.nodeSize)) mk))
            tr3 : Except String Transform) >>= fun tr1 =>
          List.foldlM
            (fun (trA : Transform) (fp : Node × Nat) => do
              let tr3 ← fp.1.marks.foldlM
                (fun (trx : Transform) (mk : Mark) => if Mark.isInSet mk M then pure trx
                  else trx.step (.removeMark (max tp fp.2)
                    (min (tp + k) (fp.2 + fp.1.nodeSize)) mk))
                trA
              M.foldlM
                (fun (trx : Transform) (mk : Mark) => if Mark.isInSet mk fp.1.marks then pure trx
                  else trx.step (.addMark (max tp fp.2)
                    (min (tp + k) (fp.2 + fp.1.nodeSize)) mk))
                tr3)
            tr1 ents) = .ok tr2 := h
      obtain ⟨tr1, hbody, hrest⟩ := bind_ok h2
      obtain ⟨tr3, hf1, hf2⟩ := bind_ok hbody
      -- semantics of the two mark-step folds of the head entry
      have s1 := markStepsFold_sem A (fun mk => Mark.isInSet mk M)
        (fun mk => Step.removeMark (max tp e.2) (min (tp + k) (e.2 + e.1.nodeSize)) mk)
        (fun mk => tokenRemoveMark mk)
        (max tp e.2) (min (tp + k) (e.2 + e.1.nodeSize))
        (fun d mk d2 hd hstep => applyStep_tokens_removeMark hd hstep)
        e.1.marks tr tr3 htext hf1
      have s2 := markStepsFold_sem A (fun mk => Mark.isInSet mk e.1.marks)
        (fun mk => Step.addMark (max tp e.2) (min (tp + k) (e.2 + e.1.nodeSize)) mk)
        (fun mk => tokenAddMark mk)
        (max tp e.2) (min (tp + k) (e.2 + e.1.nodeSize))
        (fun d mk d2 hd hstep => applyStep_tokens_addMark hd hstep)
        M tr3 tr1 s1.1 hf2
      -- per-index effect of the head entry's body
      have hbodyIdx : ∀ i, (tokensList tr1.doc.content)[i]? =
          (tokensList tr.doc.content)[i]?.map (fun t =>
            if max tp e.2 ≤ i ∧ i < min (tp + k) (e.2 + e.1.nodeSize) then
              M.foldl (fun t2 mk => if Mark.isInSet mk e.1.marks then t2
                else tokenAddMark mk t2)
                (e.1.marks.foldl (fun t2 mk => if Mark.isInSet mk M then t2
                  else tokenRemoveMark mk t2) t)
            else t) := by
        intro i
        rw [s2.2.2.2.2.2.2 i, s1.2.2.2.2.2.2 i]
        cases hti : (tokensList tr.doc.content)[i]? with
        | none => rfl
        | some t =>
          simp only [Option.map_some']
          by_cases hrange : max tp e.2 ≤ i ∧ i < min (tp + k) (e.2 + e.1.nodeSize)
          · rw [if_pos hrange, if_pos hrange, if_pos hrange]
          · rw [if_neg hrange, if_neg hrange, if_neg hrange]
      -- the head entry's span was unchanged for the remaining entries
      have hspan1 : ∀ e2 ∈ ents, ∀ j, j < e2.1.nodeSize → ∃ c,
          (tokensList tr1.doc.content)[e2.2 + j]? = some (.charT c e2.1.marks) := by
        intro e2 he2 j hj
        obtain ⟨c, hc⟩ := hspan e2 (List.mem_cons_of_mem e he2) j hj
        refine ⟨c, ?_⟩
        rw [hbodyIdx (e2.2 + j), hc]
        have hle := hpw.1 e2 he2
        have hle2 : e.2 + e.1.nodeSize ≤ e2.2 := hle
        simp only [Option.map_some']
        rw [if_neg (by omega)]
      have ih := reconEnts_sem A tp k M hM ents tr1 tr2 s2.1 hpw.2 hspan1
        (fun e2 he2 hpos => hsorted e2 (List.mem_cons_of_mem e he2) hpos) hrest
      refine ⟨ih.1, ?_, ?_, ?_, ?_, ?_, ?_, ?_⟩
      · intro hr
        exact ih.2.1 (s2.2.1 (s1.2.1 hr))
      · exact ih.2.2.1.trans (s2.2.2.1.trans s1.2.2.1)
      · exact ih.2.2.2.1.trans (s2.2.2.2.1.trans s1.2.2.2.1)
      · exact ih.2.2.2.2.1.trans (s2.2.2.2.2.1.trans s1.2.2.2.2.1)
      · intro hs
        exact ih.2.2.2.2.2.1 (s2.2.2.2.2.2.1 (s1.2.2.2.2.2.1 hs))
      · -- positions outside every overlap are unchanged
        intro i hout
        have hout1 := hout e (List.mem_cons_self e ents)
        rw [ih.2.2.2.2.2.2.1 i (fun e2 he2 => hout e2 (List.mem_cons_of_mem e he2)),
          hbodyIdx i]
        cases hti : (tokensList tr.doc.content)[i]? with
        | none => rfl
        | some t =>
          simp only [Option.map_some']
          rw [if_neg (by omega)]
      · -- positions inside an overlap are rewritten to the target marks
        intro e2 he2 i hi1 hi2 c ms hchar
        rw [List.mem_cons] at he2
        rcases he2 with he2 | he2
        · -- the head entry: its overlap is rewritten by the body and
          -- untouched by the remaining entries
          subst he2
          have hj : i - e2.2 < e2.1.nodeSize := by omega
          obtain ⟨c2, hc2⟩ := hspan e2 (List.mem_cons_self e2 ents) (i - e2.2) hj
          have hidx : e2.2 + (i - e2.2) = i := by omega
          rw [hidx] at hc2
          rw [hchar] at hc2
          have hcm : c2 = c ∧ ms = e2.1.marks := by
            have h3 : Token.charT c ms = Token.charT c2 e2.1.marks :=
              (Option.some.injEq _ _).mp hc2
            have h4 := (Token.charT.injEq _ _ _ _).mp h3
            exact ⟨h4.1.symm, h4.2⟩
          obtain ⟨hc2c, hmsL⟩ := hcm
          have hfix1 : (tokensList tr1.doc.content)[i]? = some (.charT c M) := by
            rw [hbodyIdx i, hchar]
            simp only [Option.map_some']
            rw [if_pos ⟨hi1, hi2⟩]
            rw [tokFold_char (fun mk => Mark.isInSet mk M) Mark.removeFromSet
              (fun mk => tokenRemoveMark mk) (fun mk c3 ms3 => rfl) e2.1.marks c ms]
            rw [tokFold_char (fun mk => Mark.isInSet mk e2.1.marks) Mark.addToSet
              (fun mk => tokenAddMark mk) (fun mk c3 ms3 => rfl) M c _]
            rw [hmsL]
            rw [show e2.1.marks.foldl (fun acc mk => if Mark.isInSet mk M then acc
              else Mark.removeFromSet mk acc) e2.1.marks =
              remFold M e2.1.marks e2.1.marks from rfl]
            rw [show M.foldl (fun acc mk => if Mark.isInSet mk e2.1.marks then acc
              else Mark.addToSet mk acc) (remFold M e2.1.marks e2.1.marks) =
              addFold e2.1.marks M (remFold M e2.1.marks e2.1.marks) from rfl]
            rw [reconFold_eq (hsorted e2 (List.mem_cons_self e2 ents) (by omega))
              (hM (by omega))]
          rw [ih.2.2.2.2.2.2.1 i ?_, hfix1]
          intro e3 he3
          have hle : e2.2 + e2.1.nodeSize ≤ e3.2 := hpw.1 e3 he3
          left
          omega
        · -- a later entry: the body leaves its overlap unchanged
          have hle : e.2 + e.1.nodeSize ≤ e2.2 := hpw.1 e2 he2
          have hunch : (tokensList tr1.doc.content)[i]? =
              some (.charT c ms) := by
            rw [hbodyIdx i, hchar]
            simp only [Option.map_some']
            rw [if_neg (by omega)]
          exact ih.2.2.2.2.2.2.2 e2 he2 i hi1 hi2 c ms hunch

end Recreate

namespace Recreate

theorem inlineNodesBetween_pairwise (d : Node) (lo hi : Nat) :
    (inlineNodesBetween d lo hi).Pairwise spanLe := by
  rw [inlineNodesBetween_eq_filter]
  exact List.Pairwise.filter _ (textEntries_pairwise d.content 0)

theorem inlineNodesBetween_mem_desc {d : Node} {lo hi : Nat} {e : Node × Nat}
    (h : e ∈ inlineNodesBetween d lo hi) :
    e ∈ descendantsAux d.content 0 ∧ e.1.isText = true ∧
      lo < e.2 + e.1.nodeSize ∧ e.2 < hi := by
  rw [inlineNodesBetween_eq_filter, List.mem_filter, List.mem_filter] at h
  obtain ⟨⟨h1, h2⟩, h3⟩ := h
  simp only [ovlB, Bool.and_eq_true, decide_eq_true_eq] at h3
  exact ⟨h1, h2, h3.1, h3.2⟩

theorem inlineNodesBetween_mem_of {d : Node} {lo hi : Nat} {e : Node × Nat}
    (h1 : e ∈ descendantsAux d.content 0) (h2 : e.1.isText = true)
    (h3 : lo < e.2 + e.1.nodeSize) (h4 : e.2 < hi) :
    e ∈ inlineNodesBetween d lo hi := by
  rw [inlineNodesBetween_eq_filter, List.mem_filter, List.mem_filter]
  refine ⟨⟨h1, h2⟩, ?_⟩
  simp only [ovlB, Bool.and_eq_true, decide_eq_true_eq]
  exact ⟨h3, h4⟩

/-- Character tokens inside a descendant text entry's span. -/
theorem textEntry_char {d : Node} {e : Node × Nat}
    (hdesc : e ∈ descendantsAux d.content 0) (htext : e.1.isText = true)
    {j : Nat} (hj : j < e.1.nodeSize) :
    ∃ c, (tokensList d.content)[e.2 + j]? = some (.charT c e.1.marks) := by
  obtain ⟨pre, post, hseg, hlen⟩ := descendantsAux_seg d.content 0 e hdesc
  have hge := seg_getElem 0 ⟨pre, post, hseg, by omega⟩ hj
  rw [Nat.sub_zero] at hge
  cases hn : e.1 with
  | elem t a m c =>
    rw [hn] at htext
    simp [Node.isText] at htext
  | text s m =>
    rw [hn] at hge hj
    rw [Node.tokens_text] at hge
    rw [Node.nodeSize_text] at hj
    have hr : (List.map (fun c => Token.charT c m) s)[j]? =
        some (Token.charT s[j] m) := by
      rw [List.getElem?_map, List.getElem?_eq_getElem hj]
      rfl
    rw [hr] at hge
    refine ⟨s[j], ?_⟩
    rw [hge]
    rfl

theorem reconcileMarksOne_sem (A : Node) {tr tr2 : Transform} {tn : Node} {tp : Nat}
    (htext : tr.doc.isText = false)
    (hdocSorted : ∀ (i : Nat) (c : Char) (ms : List Mark),
      (tokensList tr.doc.content)[i]? = some (Token.charT c ms) →
      sortedMarks ms = true)
    (hM : 0 < tn.nodeSize → sortedMarks tn.marks = true)
    (h : reconcileMarksOne tr tn tp = .ok tr2) :
    tr2.doc.isText = false ∧ (replaysTo A tr → replaysTo A tr2) ∧
    tr2.doc.typ = tr.doc.typ ∧ tr2.doc.attrs = tr.doc.attrs ∧
    tr2.doc.marks = tr.doc.marks ∧
    (SelfParse tr.doc.content → SelfParse tr2.doc.content) ∧
    (∀ i, i < tp ∨ tp + tn.nodeSize ≤ i →
      (tokensList tr2.doc.content)[i]? = (tokensList tr.doc.content)[i]?) ∧
    (∀ i, tp ≤ i → i < tp + tn.nodeSize →
      ∀ c ms, (tokensList tr.doc.content)[i]? = some (.charT c ms) →
        (tokensList tr2.doc.content)[i]? = some (.charT c tn.marks)) := by
  have h2 : List.foldlM
      (fun (trA : Transform) (fp : Node × Nat) => do
        let tr3 ← fp.1.marks.foldlM
          (fun (trx : Transform) (mk : Mark) => if Mark.isInSet mk tn.marks then pure trx
            else trx.step (.removeMark (max tp fp.2)
              (min (tp + tn.nodeSize) (fp.2 + fp.1.nodeSize)) mk))
          trA
        tn.marks.foldlM
          (fun (trx : Transform) (mk : Mark) => if Mark.isInSet mk fp.1.marks then pure trx
            else trx.step (.addMark (max tp fp.2)
              (min (tp + tn.nodeSize) (fp.2 + fp.1.nodeSize)) mk))
          tr3)
      tr (inlineNodesBetween tr.doc tp (tp + tn.nodeSize)) = .ok tr2 := h
  have hspan : ∀ e ∈ inlineNodesBetween tr.doc tp (tp + tn.nodeSize),
      ∀ j, j < e.1.nodeSize → ∃ c,
        (tokensList tr.doc.content)[e.2 + j]? = some (.charT c e.1.marks) := by
    intro e he j hj
    obtain ⟨hdesc, htxt, _, _⟩ := inlineNodesBetween_mem_desc he
    exact textEntry_char hdesc htxt hj
  have hsorted : ∀ e ∈ inlineNodesBetween tr.doc tp (tp + tn.nodeSize),
      0 < e.1.nodeSize → sortedMarks e.1.marks = true := by
    intro e he hpos
    obtain ⟨c, hc⟩ := hspan e he 0 hpos
    rw [Nat.add_zero] at hc
    exact hdocSorted e.2 c e.1.marks hc
  have hres := reconEnts_sem A tp tn.nodeSize tn.marks hM
    (inlineNodesBetween tr.doc tp (tp + tn.nodeSize)) tr tr2 htext
    (inlineNodesBetween_pairwise tr.doc tp (tp + tn.nodeSize)) hspan hsorted h2
  refine ⟨hres.1, hres.2.1, hres.2.2.1, hres.2.2.2.1, hres.2.2.2.2.1,
    hres.2.2.2.2.2.1, ?_, ?_⟩
  · intro i hi
    apply hres.2.2.2.2.2.2.1 i
    intro e he
    obtain ⟨_, _, ho1, ho2⟩ := inlineNodesBetween_mem_desc he
    rcases hi with hi | hi
    · left
      omega
    · right
      omega
  · intro i hi1 hi2 c ms hchar
    obtain ⟨q, hqdesc, ⟨s, hqs⟩, hq1, hq2⟩ :=
      descendantsAux_cover tr.doc.content 0 i c ms hchar
    rw [Nat.zero_add] at hq1 hq2
    have hqtext : q.1.isText = true := by
      rw [hqs]
      rfl
    have hqmem : q ∈ inlineNodesBetween tr.doc tp (tp + tn.nodeSize) :=
      inlineNodesBetween_mem_of hqdesc hqtext (by omega) (by omega)
    exact hres.2.2.2.2.2.2.2 q hqmem i (by omega) (by omega) c ms hchar

end Recreate

namespace Recreate

theorem stripTok_char {t : Token} {c : Char} (h : stripTok t = Token.charT c []) :
    ∃ ms, t = Token.charT c ms := by
  cases t with
  | charT c2 ms =>
    rw [show stripTok (Token.charT c2 ms) = Token.charT c2 [] from rfl] at h
    have h2 := (Token.charT.injEq _ _ _ _).mp h
    exact ⟨ms, by rw [h2.1]⟩
  | openT t2 a2 m2 => cases h
  | closeT => cases h

theorem reconOuter_sem (A : Node) (tsB : List Token) :
    ∀ (ents : List (Node × Nat)) (tr tr2 : Transform),
      tr.doc.isText = false →
      (∀ (i : Nat) (c : Char) (ms : List Mark),
        (tokensList tr.doc.content)[i]? = some (Token.charT c ms) →
          sortedMarks ms = true) →
      List.Pairwise spanLe ents →
      (∀ q ∈ ents, ∀ j : Nat, j < q.1.nodeSize → ∃ c,
        tsB[q.2 + j]? = some (Token.charT c q.1.marks)) →
      (∀ q ∈ ents, 0 < q.1.nodeSize → sortedMarks q.1.marks = true) →
      (∀ i : Nat, (tokensList tr.doc.content)[i]?.map stripTok = tsB[i]?.map stripTok) →
      List.foldlM (fun (trA : Transform) (q : Node × Nat) =>
        reconcileMarksOne trA q.1 q.2) tr ents = .ok tr2 →
      tr2.doc.isText = false ∧ (replaysTo A tr → replaysTo A tr2) ∧
      tr2.doc.typ = tr.doc.typ ∧ tr2.doc.attrs = tr.doc.attrs ∧
      tr2.doc.marks = tr.doc.marks ∧
      (SelfParse tr.doc.content → SelfParse tr2.doc.content) ∧
      (∀ i : Nat, (tokensList tr2.doc.content)[i]?.map stripTok = tsB[i]?.map stripTok) ∧
      (∀ (i : Nat) (c : Char) (ms : List Mark),
        (tokensList tr2.doc.content)[i]? = some (Token.charT c ms) →
          sortedMarks ms = true) ∧
      (∀ i : Nat, (∀ q ∈ ents, i < q.2 ∨ q.2 + q.1.nodeSize ≤ i) →
        (tokensList tr2.doc.content)[i]? = (tokensList tr.doc.content)[i]?) ∧
      (∀ q ∈ ents, ∀ j : Nat, j < q.1.nodeSize →
        (tokensList tr2.doc.content)[q.2 + j]? = tsB[q.2 + j]?)
  | [], tr, tr2, htext, hsorted, _, _, _, halign, h => by
      have h2 : Except.ok tr = .ok tr2 := h
      cases h2
      exact ⟨htext, fun hr => hr, rfl, rfl, rfl, fun hs => hs, halign, hsorted,
        fun i _ => rfl, fun q hq => absurd hq (List.not_mem_nil q)⟩
  | q :: ents, tr, tr2, htext, hsorted, hpw, hseg, hmsort, halign, h => by
      rw [List.pairwise_cons] at hpw
      have h2 : (reconcileMarksOne tr q.1 q.2 >>= fun tr1 =>
          List.foldlM (fun (trA : Transform) (q2 : Node × Nat) =>
            reconcileMarksOne trA q2.1 q2.2) tr1 ents) = .ok tr2 := h
      obtain ⟨tr1, hone, hrest⟩ := bind_ok h2
      have hres := reconcileMarksOne_sem A htext hsorted
        (hmsort q (List.mem_cons_self q ents)) hone
      -- the window of q is rewritten to B's tokens
      have hwin : ∀ j : Nat, j < q.1.nodeSize →
          (tokensList tr1.doc.content)[q.2 + j]? = tsB[q.2 + j]? := by
        intro j hj
        obtain ⟨c, hc⟩ := hseg q (List.mem_cons_self q ents) j hj
        have halignI := halign (q.2 + j)
        rw [hc] at halignI
        simp only [Option.map_some'] at halignI
        have hstrip : stripTok (Token.charT c q.1.marks) = Token.charT c [] := rfl
        rw [hstrip] at halignI
        cases hti : (tokensList tr.doc.content)[q.2 + j]? with
        | none =>
          rw [hti] at halignI
          cases halignI
        | some t =>
          rw [hti] at halignI
          simp only [Option.map_some'] at halignI
          obtain ⟨ms, hms⟩ := stripTok_char ((Option.some.injEq _ _).mp halignI)
          rw [hms] at hti
          rw [hres.2.2.2.2.2.2.2 (q.2 + j) (by omega) (by omega) c ms hti, hc]
      -- positions outside the window are unchanged by the head step
      have hout : ∀ i : Nat, i < q.2 ∨ q.2 + q.1.nodeSize ≤ i →
          (tokensList tr1.doc.content)[i]? = (tokensList tr.doc.content)[i]? :=
        fun i hi => hres.2.2.2.2.2.2.1 i hi
      -- invariants for the recursive call
      have halign1 : ∀ i : Nat, (tokensList tr1.doc.content)[i]?.map stripTok =
          tsB[i]?.map stripTok := by
        intro i
        by_cases hiw : q.2 ≤ i ∧ i < q.2 + q.1.nodeSize
        · have hj : i - q.2 < q.1.nodeSize := by omega
          have := hwin (i - q.2) hj
          rw [show q.2 + (i - q.2) = i from by omega] at this
          rw [this]
        · rw [hout i (by omega)]
          exact halign i
      have hsorted1 : ∀ (i : Nat) (c : Char) (ms : List Mark),
          (tokensList tr1.doc.content)[i]? = some (Token.charT c ms) →
          sortedMarks ms = true := by
        intro i c ms hti
        by_cases hiw : q.2 ≤ i ∧ i < q.2 + q.1.nodeSize
        · have hj : i - q.2 < q.1.nodeSize := by omega
          have hw := hwin (i - q.2) hj
          rw [show q.2 + (i - q.2) = i from by omega] at hw
          rw [hw] at hti
          obtain ⟨c2, hc2⟩ := hseg q (List.mem_cons_self q ents) (i - q.2) hj
          rw [show q.2 + (i - q.2) = i from by omega] at hc2
          rw [hc2] at hti
          have h3 := (Token.charT.injEq _ _ _ _).mp ((Option.some.injEq _ _).mp hti)
          rw [← h3.2]
          exact hmsort q (List.mem_cons_self q ents) (by omega)
        · rw [hout i (by omega)] at hti
          exact hsorted i c ms hti
      have ih := reconOuter_sem A tsB ents tr1 tr2 hres.1 hsorted1 hpw.2
        (fun q2 hq2 => hseg q2 (List.mem_cons_of_mem q hq2))
        (fun q2 hq2 => hmsort q2 (List.mem_cons_of_mem q hq2)) halign1 hrest
      refine ⟨ih.1, ?_, ih.2.2.1.trans hres.2.2.1, ih.2.2.2.1.trans hres.2.2.2.1,
        ih.2.2.2.2.1.trans hres.2.2.2.2.1, ?_, ih.2.2.2.2.2.2.1, ih.2.2.2.2.2.2.2.1,
        ?_, ?_⟩
      · intro hr
        exact ih.2.1 (hres.2.1 hr)
      · intro hs
        exact ih.2.2.2.2.2.1 (hres.2.2.2.2.2.1 hs)
      · intro i hi
        rw [ih.2.2.2.2.2.2.2.2.1 i
          (fun q2 hq2 => hi q2 (List.mem_cons_of_mem q hq2))]
        exact hout i (hi q (List.mem_cons_self q ents))
      · intro q2 hq2 j hj
        rw [List.mem_cons] at hq2
        rcases hq2 with hq2 | hq2
        · subst hq2
          rw [ih.2.2.2.2.2.2.2.2.1 (q2.2 + j) ?_]
          · exact hwin j hj
          · intro q3 hq3
            have hle : q2.2 + q2.1.nodeSize ≤ q3.2 := hpw.1 q3 hq3
            left
            omega
        · exact ih.2.2.2.2.2.2.2.2.2 q2 hq2 j hj

end Recreate

namespace Recreate

theorem recreateChangeMarkSteps_sem (A : Node) {B : Node} {tr tr2 : Transform}
    (htext : tr.doc.isText = false)
    (hsorted : ∀ (i : Nat) (c : Char) (ms : List Mark),
      (tokensList tr.doc.content)[i]? = some (Token.charT c ms) →
      sortedMarks ms = true)
    (hBsorted : ∀ (i : Nat) (c : Char) (ms : List Mark),
      (tokensList B.content)[i]? = some (Token.charT c ms) → sortedMarks ms = true)
    (halign : ∀ i : Nat, (tokensList tr.doc.content)[i]?.map stripTok =
      (tokensList B.content)[i]?.map stripTok)
    (h : recreateChangeMarkSteps tr B = .ok tr2) :
    tr2.doc.isText = false ∧ (replaysTo A tr → replaysTo A tr2) ∧
    tr2.doc.typ = tr.doc.typ ∧ tr2.doc.attrs = tr.doc.attrs ∧
    tr2.doc.marks = tr.doc.marks ∧
    (SelfParse tr.doc.content → SelfParse tr2.doc.content) ∧
    (∀ i : Nat, (tokensList tr2.doc.content)[i]?.map stripTok =
      (tokensList B.content)[i]?.map stripTok) ∧
    (∀ (i : Nat) (c : Char) (ms : List Mark),
      (tokensList B.content)[i]? = some (Token.charT c ms) →
      (tokensList tr2.doc.content)[i]? = (tokensList B.content)[i]?) := by
  have h2 : List.foldlM (fun (trA : Transform) (q : Node × Nat) =>
      reconcileMarksOne trA q.1 q.2) tr (inlineNodesIn B) = .ok tr2 := h
  have hmemdesc : ∀ q ∈ inlineNodesIn B,
      q ∈ descendantsAux B.content 0 ∧ q.1.isText = true := by
    intro q hq
    rw [inlineNodesIn, List.mem_filter] at hq
    exact hq
  have hseg : ∀ q ∈ inlineNodesIn B, ∀ j : Nat, j < q.1.nodeSize → ∃ c,
      (tokensList B.content)[q.2 + j]? = some (Token.charT c q.1.marks) := by
    intro q hq j hj
    obtain ⟨hdesc, htxt⟩ := hmemdesc q hq
    exact textEntry_char hdesc htxt hj
  have hmsort : ∀ q ∈ inlineNodesIn B, 0 < q.1.nodeSize →
      sortedMarks q.1.marks = true := by
    intro q hq hpos
    obtain ⟨c, hc⟩ := hseg q hq 0 hpos
    rw [Nat.add_zero] at hc
    exact hBsorted q.2 c q.1.marks hc
  have hpw : (inlineNodesIn B).Pairwise spanLe := by
    rw [inlineNodesIn]
    exact textEntries_pairwise B.content 0
  have hres := reconOuter_sem A (tokensList B.content) (inlineNodesIn B)
    tr tr2 htext hsorted hpw hseg hmsort halign h2
  refine ⟨hres.1, hres.2.1, hres.2.2.1, hres.2.2.2.1, hres.2.2.2.2.1,
    hres.2.2.2.2.2.1, hres.2.2.2.2.2.2.1, ?_⟩
  intro i c ms hchar
  obtain ⟨q, hqdesc, ⟨s, hqs⟩, hq1, hq2⟩ :=
    descendantsAux_cover B.content 0 i c ms hchar
  rw [Nat.zero_add] at hq1 hq2
  have hqtext : q.1.isText = true := by
    rw [hqs]
    rfl
  have hqmem : q ∈ inlineNodesIn B := by
    rw [inlineNodesIn, List.mem_filter]
    exact ⟨hqdesc, hqtext⟩
  have hfix := hres.2.2.2.2.2.2.2.2.2 q hqmem (i - q.2) (by omega)
  rw [show q.2 + (i - q.2) = i from by omega] at hfix
  exact hfix

end Recreate

namespace Recreate

/-- A canonical token: character marks sorted, no marks on open tokens. -/
def tokOk : Token → Prop
  | .charT _ ms => sortedMarks ms = true
  | .openT _ _ ms => ms = []
  | .closeT => True

/-- All tokens of a stream canonical. -/
def toksOk (ts : List Token) : Prop := ∀ t ∈ ts, tokOk t

theorem toksOk_append {ts us : List Token} (h1 : toksOk ts) (h2 : toksOk us) :
    toksOk (ts ++ us) := by
  intro t ht
  rw [List.mem_append] at ht
  rcases ht with ht | ht
  · exact h1 t ht
  · exact h2 t ht

theorem toksOk_take {ts : List Token} (h : toksOk ts) (n : Nat) :
    toksOk (ts.take n) :=
  fun t ht => h t (List.take_subset n ts ht)

theorem toksOk_drop {ts : List Token} (h : toksOk ts) (n : Nat) :
    toksOk (ts.drop n) :=
  fun t ht => h t (List.drop_subset n ts ht)

theorem stripTok_tokOk (t : Token) : tokOk (stripTok t) := by
  cases t with
  | charT c ms => exact rfl
  | openT t2 a2 m2 => exact rfl
  | closeT => exact trivial

theorem toksOk_map_strip (ts : List Token) : toksOk (ts.map stripTok) := by
  intro t ht
  rw [List.mem_map] at ht
  obtain ⟨u, _, hu⟩ := ht
  rw [← hu]
  exact stripTok_tokOk u

theorem tokenAddMark_tokOk {t : Token} (h : tokOk t) (m : Mark) :
    tokOk (tokenAddMark m t) := by
  cases t with
  | charT c ms => exact addToSet_sorted h
  | openT t2 a2 m2 => exact h
  | closeT => exact h

theorem tokenRemoveMark_tokOk {t : Token} (h : tokOk t) (m : Mark) :
    tokOk (tokenRemoveMark m t) := by
  cases t with
  | charT c ms => exact removeFromSet_sorted h
  | openT t2 a2 m2 => exact h
  | closeT => exact h

theorem mapRange_mem {f : Token → Token} {lo hi : Nat} {ts : List Token} {t : Token}
    (h : t ∈ mapRange f lo hi ts) : ∃ u ∈ ts, t = u ∨ t = f u := by
  unfold mapRange at h
  rw [List.mem_iff_getElem?] at h
  obtain ⟨i, hgi⟩ := h
  rw [List.getElem?_mapIdx] at hgi
  cases hu : ts[i]? with
  | none =>
    rw [hu] at hgi
    cases hgi
  | some u =>
    rw [hu] at hgi
    simp only [Option.map_some'] at hgi
    refine ⟨u, List.mem_iff_getElem?.mpr ⟨i, hu⟩, ?_⟩
    by_cases hr : lo ≤ i ∧ i < hi
    · right
      rw [if_pos hr] at hgi
      exact ((Option.some.injEq _ _).mp hgi).symm
    · left
      rw [if_neg hr] at hgi
      exact ((Option.some.injEq _ _).mp hgi).symm

/-- A step is canonical when any tokens it inserts are canonical. -/
def stepOk : Step → Prop
  | .replace _ _ sl => toksOk sl
  | .setNodeMarkup _ _ _ marks => marks = []
  | .addMark _ _ _ => True
  | .removeMark _ _ _ => True

theorem applyStep_toksOk {d : Node} {s : Step} {d2 : Node}
    (hd : d.isText = false) (hok : toksOk (tokensList d.content)) (hs : stepOk s)
    (h : applyStep d s = .ok d2) : toksOk (tokensList d2.content) := by
  cases s with
  | replace lo hi sl =>
    rw [applyStep_tokens_replace hd h]
    exact toksOk_append (toksOk_append (toksOk_take hok lo) hs) (toksOk_drop hok hi)
  | setNodeMarkup pos typ attrs marks =>
    obtain ⟨t0, a0, m0, _, htoks⟩ := applyStep_tokens_setNodeMarkup hd h
    rw [htoks]
    refine toksOk_append (toksOk_append (toksOk_take hok pos) ?_)
      (toksOk_drop hok (pos + 1))
    intro t ht
    rw [List.mem_singleton] at ht
    rw [ht]
    exact hs
  | addMark lo hi m =>
    rw [applyStep_tokens_addMark hd h]
    intro t ht
    obtain ⟨u, hu, hcase⟩ := mapRange_mem ht
    rcases hcase with hcase | hcase
    · rw [hcase]
      exact hok u hu
    · rw [hcase]
      exact tokenAddMark_tokOk (hok u hu) m
  | removeMark lo hi m =>
    rw [applyStep_tokens_removeMark hd h]
    intro t ht
    obtain ⟨u, hu, hcase⟩ := mapRange_mem ht
    rcases hcase with hcase | hcase
    · rw [hcase]
      exact hok u hu
    · rw [hcase]
      exact tokenRemoveMark_tokOk (hok u hu) m

/-- The combined document invariant carried through the reconstruction:
the transform replays its steps from `A`, its document keeps `A`'s root
markup, is in parse-normal form, and has canonical marks. -/
def DocInv (A : Node) (tr : Transform) : Prop :=
  replaysTo A tr ∧ tr.doc.isText = false ∧ SelfParse tr.doc.content ∧
  tr.doc.typ = A.typ ∧ tr.doc.attrs = A.attrs ∧ tr.doc.marks = A.marks ∧
  toksOk (tokensList tr.doc.content)

theorem step_docInv {A : Node} {tr : Transform} {s : Step} {tr2 : Transform}
    (hinv : DocInv A tr) (h : tr.step s = .ok tr2) (hs : stepOk s) :
    DocInv A tr2 := by
  obtain ⟨hr, htext, hsp, ht, ha, hm, hok⟩ := hinv
  obtain ⟨_, hdoc⟩ := Transform.step_steps h
  obtain ⟨h1, h2, h3, h4⟩ := applyStep_root hdoc
  exact ⟨step_replays hr h, h4.trans htext, applyStep_selfParse hdoc htext,
    h1.trans ht, h2.trans ha, h3.trans hm, applyStep_toksOk htext hok hs hdoc⟩

end Recreate

namespace Recreate

mutual
/-- Every mark list in the tree is empty (annotation-stripped form). -/
def noMarksN : Node → Bool
  | .text _ m => m.isEmpty
  | .elem _ _ m c => m.isEmpty && noMarksL c
def noMarksL : List Node → Bool
  | [] => true
  | n :: ns => noMarksN n && noMarksL ns
end

mutual
theorem mergeTexts_noMarks : ∀ ns, noMarksL ns = true → noMarksL (mergeTexts ns) = true
  | [], _ => rfl
  | .text s m :: rest, h => by
      rw [show noMarksL (.text s m :: rest) =
        (noMarksN (.text s m) && noMarksL rest) from rfl, Bool.and_eq_true] at h
      rw [show mergeTexts (.text s m :: rest) = mergeRun s m rest from rfl]
      exact mergeRun_noMarks s m rest h.1 h.2
  | .elem t a m c :: rest, h => by
      rw [show noMarksL (.elem t a m c :: rest) =
        (noMarksN (.elem t a m c) && noMarksL rest) from rfl, Bool.and_eq_true] at h
      rw [show mergeTexts (.elem t a m c :: rest) =
        .elem t a m c :: mergeTexts rest from rfl,
        show noMarksL (.elem t a m c :: mergeTexts rest) =
        (noMarksN (.elem t a m c) && noMarksL (mergeTexts rest)) from rfl,
        Bool.and_eq_true]
      exact ⟨h.1, mergeTexts_noMarks rest h.2⟩
theorem mergeRun_noMarks : ∀ (s : List Char) (m : List Mark) (ns : List Node),
    noMarksN (.text s m) = true → noMarksL ns = true →
    noMarksL (mergeRun s m ns) = true
  | s, m, [], hm, _ => by
      rw [show mergeRun s m [] = [Node.text s m] from rfl,
        show noMarksL [Node.text s m] = (noMarksN (.text s m) && noMarksL []) from rfl,
        Bool.and_eq_true]
      exact ⟨hm, rfl⟩
  | s, m, .text s2 m2 :: rest, hm, h => by
      rw [show noMarksL (.text s2 m2 :: rest) =
        (noMarksN (.text s2 m2) && noMarksL rest) from rfl, Bool.and_eq_true] at h
      rw [show mergeRun s m (.text s2 m2 :: rest) =
        if (Node.text s m).sameMarkup (.text s2 m2) then mergeRun (s ++ s2) m rest
        else Node.text s m :: mergeRun s2 m2 rest from rfl]
      by_cases hc : (Node.text s m).sameMarkup (.text s2 m2) = true
      · rw [if_pos hc]
        exact mergeRun_noMarks (s ++ s2) m rest hm h.2
      · rw [if_neg hc,
          show noMarksL (Node.text s m :: mergeRun s2 m2 rest) =
          (noMarksN (.text s m) && noMarksL (mergeRun s2 m2 rest)) from rfl,
          Bool.and_eq_true]
        exact ⟨hm, mergeRun_noMarks s2 m2 rest h.1 h.2⟩
  | s, m, .elem t a mm c :: rest, hm, h => by
      rw [show noMarksL (.elem t a mm c :: rest) =
        (noMarksN (.elem t a mm c) && noMarksL rest) from rfl, Bool.and_eq_true] at h
      rw [show mergeRun s m (.elem t a mm c :: rest) =
        Node.text s m :: .elem t a mm c :: mergeTexts rest from rfl,
        show noMarksL (Node.text s m :: .elem t a mm c :: mergeTexts rest) =
        (noMarksN (.text s m) &&
          (noMarksN (.elem t a mm c) && noMarksL (mergeTexts rest))) from rfl,
        Bool.and_eq_true, Bool.and_eq_true]
      exact ⟨hm, h.1, mergeTexts_noMarks rest h.2⟩
end

mutual
theorem stripMarks_noMarks : ∀ n : Node, noMarksN (Node.stripMarks n) = true
  | .text s m => rfl
  | .elem t a m c => by
      rw [show Node.stripMarks (.elem t a m c) =
        .elem t a [] (mergeTexts (stripMarksList c)) from rfl,
        show noMarksN (Node.elem t a [] (mergeTexts (stripMarksList c))) =
        (List.isEmpty ([] : List Mark) &&
          noMarksL (mergeTexts (stripMarksList c))) from rfl, Bool.and_eq_true]
      exact ⟨rfl, mergeTexts_noMarks _ (stripMarksList_noMarks c)⟩
theorem stripMarksList_noMarks : ∀ ns : List Node, noMarksL (stripMarksList ns) = true
  | [] => rfl
  | n :: ns => by
      rw [show stripMarksList (n :: ns) =
        Node.stripMarks n :: stripMarksList ns from rfl,
        show noMarksL (Node.stripMarks n :: stripMarksList ns) =
        (noMarksN (Node.stripMarks n) && noMarksL (stripMarksList ns)) from rfl,
        Bool.and_eq_true]
      exact ⟨stripMarks_noMarks n, stripMarksList_noMarks ns⟩
end

mutual
theorem nodeAtSeq_noMarks : ∀ (ns : List Node) (pos : Nat) (n : Node),
    noMarksL ns = true → nodeAtSeq ns pos = some n → noMarksN n = true
  | [], pos, n, _, h => by cases h
  | c :: rest, pos, n, hok, h => by
      rw [show noMarksL (c :: rest) = (noMarksN c && noMarksL rest) from rfl,
        Bool.and_eq_true] at hok
      rw [show nodeAtSeq (c :: rest) pos =
        if pos = 0 then some c
        else if pos < c.nodeSize then nodeAtIn c pos
        else nodeAtSeq rest (pos - c.nodeSize) from rfl] at h
      by_cases h0 : pos = 0
      · rw [if_pos h0] at h
        have h2 : some c = some n := h
        cases h2
        exact hok.1
      · rw [if_neg h0] at h
        by_cases h1 : pos < c.nodeSize
        · rw [if_pos h1] at h
          exact nodeAtIn_noMarks c pos n hok.1 h
        · rw [if_neg h1] at h
          exact nodeAtSeq_noMarks rest (pos - c.nodeSize) n hok.2 h
theorem nodeAtIn_noMarks : ∀ (c : Node) (pos : Nat) (n : Node),
    noMarksN c = true → nodeAtIn c pos = some n → noMarksN n = true
  | .text s m, pos, n, hok, h => by
      have h2 : some (Node.text s m) = some n := h
      cases h2
      exact hok
  | .elem t a m cc, pos, n, hok, h => by
      rw [show noMarksN (.elem t a m cc) = (m.isEmpty && noMarksL cc) from rfl,
        Bool.and_eq_true] at hok
      exact nodeAtSeq_noMarks cc (pos - 1) n hok.2 h
end

theorem noMarksN_marks {n : Node} (h : noMarksN n = true) : n.marks = [] := by
  cases n with
  | text s m =>
    rw [show noMarksN (.text s m) = m.isEmpty from rfl] at h
    rw [show (Node.text s m).marks = m from rfl]
    exact List.isEmpty_iff.mp h
  | elem t a m c =>
    rw [show noMarksN (.elem t a m c) = (m.isEmpty && noMarksL c) from rfl,
      Bool.and_eq_true] at h
    rw [show (Node.elem t a m c).marks = m from rfl]
    exact List.isEmpty_iff.mp h.1

end Recreate

namespace Recreate

mutual
/-- Node-level canonical marks: sorted on text leaves, absent on elements. -/
def nodeOkN : Node → Bool
  | .text _ m => sortedMarks m
  | .elem _ _ m c => m.isEmpty && nodeOkL c
def nodeOkL : List Node → Bool
  | [] => true
  | n :: ns => nodeOkN n && nodeOkL ns
end

theorem toksOk_tail {t : Token} {ts : List Token} (h : toksOk (t :: ts)) : toksOk ts :=
  fun u hu => h u (List.mem_cons_of_mem t hu)

theorem toksOk_head {t : Token} {ts : List Token} (h : toksOk (t :: ts)) : tokOk t :=
  h t (List.mem_cons_self t ts)

theorem toksOk_of_append_left {ts us : List Token} (h : toksOk (ts ++ us)) :
    toksOk ts :=
  fun u hu => h u (List.mem_append_left us hu)

theorem toksOk_of_append_right {ts us : List Token} (h : toksOk (ts ++ us)) :
    toksOk us :=
  fun u hu => h u (List.mem_append_right ts hu)

theorem parse_nodeOk : ∀ (fuel : Nat) (ts : List Token) (ns : List Node)
    (r : List Token), toksOk ts → parseSeq fuel ts = some (ns, r) →
    nodeOkL ns = true
  | 0, ts, ns, r, _, h => by
      cases ts with
      | nil =>
        have h2 : (none : Option (List Node × List Token)) = some (ns, r) := h
        cases h2
      | cons t rest =>
        cases t
        all_goals
          (have h2 : (none : Option (List Node × List Token)) = some (ns, r) := h
           cases h2)
  | fuel + 1, [], ns, r, _, h => by
      have h2 : some (([] : List Node), ([] : List Token)) = some (ns, r) := h
      cases h2
      rfl
  | fuel + 1, Token.closeT :: rest, ns, r, _, h => by
      have h2 : some (([] : List Node), Token.closeT :: rest) = some (ns, r) := h
      cases h2
      rfl
  | fuel + 1, Token.charT c m :: rest, ns, r, hok, h => by
      have h3 : (match parseSeq fuel (takeCharRun m rest).2 with
        | some (ns0, r2) => some (Node.text (c :: (takeCharRun m rest).1) m :: ns0, r2)
        | none => none) = some (ns, r) := h
      cases hp : parseSeq fuel (takeCharRun m rest).2 with
      | none =>
        rw [hp] at h3
        have h4 : (none : Option (List Node × List Token)) = some (ns, r) := h3
        cases h4
      | some p =>
        obtain ⟨ns0, r2⟩ := p
        rw [hp] at h3
        have hrest : toksOk (takeCharRun m rest).2 := by
          have hr := toksOk_tail hok
          have hspec := takeCharRun_spec m rest
          rw [← hspec] at hr
          exact toksOk_of_append_right hr
        have ih := parse_nodeOk fuel (takeCharRun m rest).2 ns0 r2 hrest hp
        have h4 : some (Node.text (c :: (takeCharRun m rest).1) m :: ns0, r2) =
          some (ns, r) := h3
        cases h4
        rw [show nodeOkL (Node.text (c :: (takeCharRun m rest).1) m :: ns0) =
          (nodeOkN (Node.text (c :: (takeCharRun m rest).1) m) && nodeOkL ns0)
          from rfl, Bool.and_eq_true]
        exact ⟨toksOk_head hok, ih⟩
  | fuel + 1, Token.openT t a m :: rest, ns, r, hok, h => by
      have h3 : (match parseSeq fuel rest with
        | some (ns0, Token.closeT :: r2) =>
          match parseSeq fuel r2 with
          | some (ns2, r3) => some (Node.elem t a m ns0 :: ns2, r3)
          | none => none
        | _ => none) = some (ns, r) := h
      cases hp : parseSeq fuel rest with
      | none =>
        rw [hp] at h3
        have h4 : (none : Option (List Node × List Token)) = some (ns, r) := h3
        cases h4
      | some p =>
        obtain ⟨ns0, r1⟩ := p
        rw [hp] at h3
        cases r1 with
        | nil =>
          have h4 : (none : Option (List Node × List Token)) = some (ns, r) := h3
          cases h4
        | cons t1 r2 =>
          cases t1 with
          | charT c2 m2 =>
            have h4 : (none : Option (List Node × List Token)) = some (ns, r) := h3
            cases h4
          | openT t2 a2 m2 =>
            have h4 : (none : Option (List Node × List Token)) = some (ns, r) := h3
            cases h4
          | closeT =>
            have h5 : (match parseSeq fuel r2 with
              | some (ns2, r3) => some (Node.elem t a m ns0 :: ns2, r3)
              | none => none) = some (ns, r) := h3
            cases hp2 : parseSeq fuel r2 with
            | none =>
              rw [hp2] at h5
              have h4 : (none : Option (List Node × List Token)) = some (ns, r) := h5
              cases h4
            | some p2 =>
              obtain ⟨ns2, r3⟩ := p2
              rw [hp2] at h5
              have hrest : toksOk rest := toksOk_tail hok
              have ih1 := parse_nodeOk fuel rest ns0 (Token.closeT :: r2) hrest hp
              have hr2 : toksOk r2 := by
                have hseq := parseSeq_tokens fuel rest ns0 (Token.closeT :: r2) hp
                rw [← hseq] at hrest
                exact toksOk_tail (toksOk_of_append_right hrest)
              have ih2 := parse_nodeOk fuel r2 ns2 r3 hr2 hp2
              have h4 : some (Node.elem t a m ns0 :: ns2, r3) = some (ns, r) := h5
              cases h4
              rw [show nodeOkL (Node.elem t a m ns0 :: ns2) =
                (nodeOkN (Node.elem t a m ns0) && nodeOkL ns2) from rfl,
                Bool.and_eq_true,
                show nodeOkN (Node.elem t a m ns0) = (m.isEmpty && nodeOkL ns0)
                from rfl, Bool.and_eq_true]
              have hm : m = [] := toksOk_head hok
              refine ⟨⟨?_, ih1⟩, ih2⟩
              rw [hm]
              rfl

theorem selfParse_nodeOk {c : List Node} (hsp : SelfParse c)
    (hok : toksOk (tokensList c)) : nodeOkL c = true := by
  unfold SelfParse parseTokens at hsp
  cases hp : parseSeq ((tokensList c).length + 1) (tokensList c) with
  | none =>
    rw [hp] at hsp
    have h4 : (none : Option (List Node)) = some c := hsp
    cases h4
  | some p =>
    obtain ⟨ns0, r⟩ := p
    rw [hp] at hsp
    cases r with
    | nil =>
      have h4 : some ns0 = some c := hsp
      cases h4
      exact parse_nodeOk _ _ _ _ hok hp
    | cons t r2 =>
      have h4 : (none : Option (List Node)) = some c := hsp
      cases h4

end Recreate

namespace Recreate

theorem nodeOkN_marks_sorted {n : Node} (h : nodeOkN n = true) :
    sortedMarks n.marks = true := by
  cases n with
  | text s m => exact h
  | elem t a m c =>
    rw [show nodeOkN (.elem t a m c) = (m.isEmpty && nodeOkL c) from rfl,
      Bool.and_eq_true] at h
    rw [show (Node.elem t a m c).marks = m from rfl, List.isEmpty_iff.mp h.1]
    rfl

theorem nodeOkL_cons {n : Node} {ns : List Node} (h : nodeOkL (n :: ns) = true) :
    nodeOkN n = true ∧ nodeOkL ns = true := by
  rw [show nodeOkL (n :: ns) = (nodeOkN n && nodeOkL ns) from rfl,
    Bool.and_eq_true] at h
  exact h

theorem resolveSeq_marks : ∀ (children : List Node) (pos depth : Nat) (parent : Node)
    (prev : Option Node) (r : RInfo),
    nodeOkL children = true →
    sortedMarks parent.marks = true →
    (∀ p, prev = some p → sortedMarks p.marks = true) →
    resolveSeq children pos depth parent prev = some r →
    sortedMarks r.parent.marks = true ∧
    (∀ p, r.nodeBefore = some p → sortedMarks p.marks = true) ∧
    (∀ p, r.nodeAfter = some p → sortedMarks p.marks = true)
  | [], pos, depth, parent, prev, r, _, hpar, hprev, h => by
      rw [resolveSeq.eq_def] at h
      have h9 : (if pos = 0 then some (⟨depth, parent, 0, prev, none⟩ : RInfo)
          else none) = some r := h
      by_cases h0 : pos = 0
      · rw [if_pos h0] at h9
        have h2 : some (⟨depth, parent, 0, prev, none⟩ : RInfo) = some r := h9
        cases h2
        refine ⟨hpar, hprev, ?_⟩
        intro p hp
        have hp2 : (none : Option Node) = some p := hp
        cases hp2
      · rw [if_neg h0] at h9
        cases h9
  | .text s m :: rest, pos, depth, parent, prev, r, hok, hpar, hprev, h => by
      obtain ⟨hc, hrest⟩ := nodeOkL_cons hok
      rw [resolveSeq.eq_def] at h
      have h9 : (if pos = 0 then
            some (⟨depth, parent, 0, prev, some (.text s m)⟩ : RInfo)
          else if pos < (Node.text s m).nodeSize then
            some (⟨depth, parent, pos, some (.text (s.take pos) m),
              some (.text (s.drop pos) m)⟩ : RInfo)
          else resolveSeq rest (pos - (Node.text s m).nodeSize) depth parent
            (some (.text s m))) = some r := h
      by_cases h0 : pos = 0
      · rw [if_pos h0] at h9
        have h2 : some (⟨depth, parent, 0, prev, some (.text s m)⟩ : RInfo) =
          some r := h9
        cases h2
        refine ⟨hpar, hprev, ?_⟩
        intro p hp
        have h3 : some (Node.text s m) = some p := hp
        cases h3
        exact nodeOkN_marks_sorted hc
      · rw [if_neg h0] at h9
        by_cases h1 : pos < (Node.text s m).nodeSize
        · rw [if_pos h1] at h9
          have h2 : some (⟨depth, parent, pos, some (.text (s.take pos) m),
            some (.text (s.drop pos) m)⟩ : RInfo) = some r := h9
          cases h2
          refine ⟨hpar, ?_, ?_⟩
          · intro p hp
            have h3 : some (Node.text (s.take pos) m) = some p := hp
            cases h3
            exact hc
          · intro p hp
            have h3 : some (Node.text (s.drop pos) m) = some p := hp
            cases h3
            exact hc
        · rw [if_neg h1] at h9
          exact resolveSeq_marks rest (pos - (Node.text s m).nodeSize) depth parent
            (some (.text s m)) r hrest hpar
            (fun p hp => by
              have h3 : some (Node.text s m) = some p := hp
              cases h3
              exact nodeOkN_marks_sorted hc) h9
  | .elem t a m cc :: rest, pos, depth, parent, prev, r, hok, hpar, hprev, h => by
      obtain ⟨hc, hrest⟩ := nodeOkL_cons hok
      rw [resolveSeq.eq_def] at h
      have h9 : (if pos = 0 then
            some (⟨depth, parent, 0, prev, some (.elem t a m cc)⟩ : RInfo)
          else if pos < (Node.elem t a m cc).nodeSize then
            resolveSeq cc (pos - 1) (depth + 1) (.elem t a m cc) none
          else resolveSeq rest (pos - (Node.elem t a m cc).nodeSize) depth parent
            (some (.elem t a m cc))) = some r := h
      by_cases h0 : pos = 0
      · rw [if_pos h0] at h9
        have h2 : some (⟨depth, parent, 0, prev, some (.elem t a m cc)⟩ : RInfo) =
          some r := h9
        cases h2
        refine ⟨hpar, hprev, ?_⟩
        intro p hp
        have h3 : some (Node.elem t a m cc) = some p := hp
        cases h3
        exact nodeOkN_marks_sorted hc
      · rw [if_neg h0] at h9
        by_cases h1 : pos < (Node.elem t a m cc).nodeSize
        · rw [if_pos h1] at h9
          rw [show nodeOkN (.elem t a m cc) = (m.isEmpty && nodeOkL cc) from rfl,
            Bool.and_eq_true] at hc
          exact resolveSeq_marks cc (pos - 1) (depth + 1) (.elem t a m cc) none r
            hc.2
            (by
              rw [show (Node.elem t a m cc).marks = m from rfl,
                List.isEmpty_iff.mp hc.1]
              rfl)
            (fun p hp => by
              have hp2 : (none : Option Node) = some p := hp
              cases hp2) h9
        · rw [if_neg h1] at h9
          exact resolveSeq_marks rest (pos - (Node.elem t a m cc).nodeSize) depth
            parent (some (.elem t a m cc)) r hrest hpar
            (fun p hp => by
              have h3 : some (Node.elem t a m cc) = some p := hp
              cases h3
              exact nodeOkN_marks_sorted hc) h9

theorem marksAt_sorted {doc : Node} (hok : nodeOkL doc.content = true)
    (hroot : sortedMarks doc.marks = true) (pos : Nat) :
    sortedMarks (Node.marksAt doc pos) = true := by
  have hm : sortedMarks (doc.resolveIn pos).parent.marks = true ∧
      (∀ p, (doc.resolveIn pos).nodeBefore = some p → sortedMarks p.marks = true) ∧
      (∀ p, (doc.resolveIn pos).nodeAfter = some p → sortedMarks p.marks = true) := by
    unfold Node.resolveIn
    cases hr : resolveSeq doc.content pos 0 doc none with
    | none =>
      refine ⟨hroot, ?_, ?_⟩
      · intro p hp
        have hp2 : (none : Option Node) = some p := hp
        cases hp2
      · intro p hp
        have hp2 : (none : Option Node) = some p := hp
        cases hp2
    | some r =>
      exact resolveSeq_marks doc.content pos 0 doc none r hok hroot
        (fun p hp => by
          have hp2 : (none : Option Node) = some p := hp
          cases hp2) hr
  have hgoal : Node.marksAt doc pos =
      (if fragSize (doc.resolveIn pos).parent.content = 0 then []
       else if (doc.resolveIn pos).textOffset ≠ 0 then
         ((doc.resolveIn pos).nodeAfter.getD (doc.resolveIn pos).parent).marks
       else match (doc.resolveIn pos).nodeBefore, (doc.resolveIn pos).nodeAfter with
         | some m, _ => m.marks
         | none, some o => o.marks
         | none, none => []) := rfl
  rw [hgoal]
  by_cases h0 : fragSize (doc.resolveIn pos).parent.content = 0
  · rw [if_pos h0]
    rfl
  · rw [if_neg h0]
    by_cases h1 : (doc.resolveIn pos).textOffset ≠ 0
    · rw [if_pos h1]
      cases ha : (doc.resolveIn pos).nodeAfter with
      | none =>
        simp only [Option.getD]
        exact hm.1
      | some p =>
        simp only [Option.getD]
        exact hm.2.2 p ha
    · rw [if_neg h1]
      cases hb : (doc.resolveIn pos).nodeBefore with
      | some p => exact hm.2.1 p hb
      | none =>
        cases ha : (doc.resolveIn pos).nodeAfter with
        | some p => exact hm.2.2 p ha
        | none => rfl

end Recreate

namespace Recreate

theorem textTokens_ok {v : List Char} {M : List Mark} (hM : sortedMarks M = true) :
    toksOk (Node.text v M).tokens := by
  rw [Node.tokens_text]
  intro t ht
  rw [List.mem_map] at ht
  obtain ⟨c, _, hc⟩ := ht
  rw [← hc]
  exact hM

mutual
theorem noMarksN_toksOk : ∀ n : Node, noMarksN n = true → toksOk n.tokens
  | .text s m, h => by
      rw [show noMarksN (.text s m) = m.isEmpty from rfl] at h
      rw [List.isEmpty_iff.mp h]
      exact textTokens_ok rfl
  | .elem t a m c, h => by
      rw [show noMarksN (.elem t a m c) = (m.isEmpty && noMarksL c) from rfl,
        Bool.and_eq_true] at h
      rw [Node.tokens_elem]
      intro u hu
      rw [List.mem_cons] at hu
      rcases hu with hu | hu
      · rw [hu, List.isEmpty_iff.mp h.1]
        exact rfl
      · rw [List.mem_append] at hu
        rcases hu with hu | hu
        · exact noMarksL_toksOk c h.2 u hu
        · rw [List.mem_singleton] at hu
          rw [hu]
          exact trivial
theorem noMarksL_toksOk : ∀ ns : List Node, noMarksL ns = true →
    toksOk (tokensList ns)
  | [], _ => fun t ht => by cases ht
  | n :: ns, h => by
      rw [show noMarksL (n :: ns) = (noMarksN n && noMarksL ns) from rfl,
        Bool.and_eq_true] at h
      rw [tokensList_cons]
      exact toksOk_append (noMarksN_toksOk n h.1) (noMarksL_toksOk ns h.2)
end

theorem getReplaceStep_shape {fromDoc toDoc : Node} {s : Step}
    (h : getReplaceStep fromDoc toDoc = some s) :
    ∃ a b lo hi, s = .replace a b (sliceTokens toDoc lo hi) := by
  unfold getReplaceStep at h
  cases h1 : findDiffStart toDoc.content fromDoc.content 0 with
  | none =>
    rw [h1] at h
    cases h
  | some start0 =>
    rw [h1] at h
    cases h2 : findDiffEnd toDoc.content fromDoc.content with
    | none =>
      rw [h2] at h
      cases h
    | some p =>
      obtain ⟨endA0, endB0⟩ := p
      rw [h2] at h
      dsimp only at h
      split at h
      · split at h
        · have h3 := (Option.some.injEq _ _).mp h
          exact ⟨_, _, _, _, h3.symm⟩
        · have h3 := (Option.some.injEq _ _).mp h
          exact ⟨_, _, _, _, h3.symm⟩
      · have h3 := (Option.some.injEq _ _).mp h
        exact ⟨_, _, _, _, h3.symm⟩

theorem sliceTokens_toksOk {d : Node} (hd : toksOk (tokensList d.content))
    (lo hi : Nat) : toksOk (sliceTokens d lo hi) := by
  unfold sliceTokens
  exact toksOk_drop (toksOk_take hd hi) lo

theorem classifyDiff_toNode (fromDoc toDoc : Node) (start endFrom endTo : Nat) :
    (classifyDiff fromDoc toDoc start endFrom endTo).toNode = toDoc.nodeAt start := by
  unfold classifyDiff
  split
  · rfl
  · split
    · rfl
    · rfl

theorem applyTextSegsGo_docInv {A : Node} (M : List Mark) (hM : sortedMarks M = true) :
    ∀ (seg : DSeg) (rest : List DSeg) (offset : Nat) (tr tr2 : Transform),
      DocInv A tr → applyTextSegsGo M seg rest offset tr = .ok tr2 → DocInv A tr2
  | seg, [], offset, tr, tr2, hinv, h => by
      have h9 : (if seg.added then tr.insert offset (Node.text seg.value M)
          else if seg.removed then tr.delete offset (offset + seg.value.length)
          else .ok tr) = .ok tr2 := h
      by_cases ha : seg.added = true
      · rw [if_pos ha] at h9
        exact step_docInv hinv h9 (textTokens_ok hM)
      · rw [if_neg ha] at h9
        by_cases hr : seg.removed = true
        · rw [if_pos hr] at h9
          exact step_docInv hinv h9 (fun t ht => absurd ht (List.not_mem_nil t))
        · rw [if_neg hr] at h9
          have h2 : Except.ok tr = .ok tr2 := h9
          cases h2
          exact hinv
  | seg, next :: rest, offset, tr, tr2, hinv, h => by
      cases rest with
      | nil =>
        have h9 : (if seg.added then
              if next.removed then
                (tr.replaceWith offset (offset + next.value.length)
                  (Node.text seg.value M)) >>= fun tr3 => pure tr3
              else
                (tr.insert offset (Node.text seg.value M)) >>= fun tr3 =>
                  applyTextSegsGo M next [] (offset + seg.value.length) tr3
            else if seg.removed then
              if next.added then
                (tr.replaceWith offset (offset + seg.value.length)
                  (Node.text next.value M)) >>= fun tr3 => pure tr3
              else
                (tr.delete offset (offset + seg.value.length)) >>= fun tr3 =>
                  applyTextSegsGo M next [] offset tr3
            else applyTextSegsGo M next [] (offset + seg.value.length) tr) =
            .ok tr2 := h
        by_cases ha : seg.added = true
        · rw [if_pos ha] at h9
          by_cases hnr : next.removed = true
          · rw [if_pos hnr] at h9
            obtain ⟨tr3, h1, h2⟩ := bind_ok h9
            have h3 : Except.ok tr3 = .ok tr2 := h2
            cases h3
            exact step_docInv hinv h1 (textTokens_ok hM)
          · rw [if_neg hnr] at h9
            obtain ⟨tr3, h1, h2⟩ := bind_ok h9
            exact applyTextSegsGo_docInv M hM next [] (offset + seg.value.length)
              tr3 tr2 (step_docInv hinv h1 (textTokens_ok hM)) h2
        · rw [if_neg ha] at h9
          by_cases hr : seg.removed = true
          · rw [if_pos hr] at h9
            by_cases hna : next.added = true
            · rw [if_pos hna] at h9
              obtain ⟨tr3, h1, h2⟩ := bind_ok h9
              have h3 : Except.ok tr3 = .ok tr2 := h2
              cases h3
              exact step_docInv hinv h1 (textTokens_ok hM)
            · rw [if_neg hna] at h9
              obtain ⟨tr3, h1, h2⟩ := bind_ok h9
              exact applyTextSegsGo_docInv M hM next [] offset tr3 tr2
                (step_docInv hinv h1 (fun t ht => absurd ht (List.not_mem_nil t))) h2
          · rw [if_neg hr] at h9
            exact applyTextSegsGo_docInv M hM next [] (offset + seg.value.length)
              tr tr2 hinv h9
      | cons r rs =>
        have h9 : (if seg.added then
              if next.removed then
                (tr.replaceWith offset (offset + next.value.length)
                  (Node.text seg.value M)) >>= fun tr3 =>
                  applyTextSegsGo M r rs (offset + seg.value.length) tr3
              else
                (tr.insert offset (Node.text seg.value M)) >>= fun tr3 =>
                  applyTextSegsGo M next (r :: rs) (offset + seg.value.length) tr3
            else if seg.removed then
              if next.added then
                (tr.replaceWith offset (offset + seg.value.length)
                  (Node.text next.value M)) >>= fun tr3 =>
                  applyTextSegsGo M r rs (offset + next.value.length) tr3
              else
                (tr.delete offset (offset + seg.value.length)) >>= fun tr3 =>
                  applyTextSegsGo M next (r :: rs) offset tr3
            else applyTextSegsGo M next (r :: rs) (offset + seg.value.length) tr) =
            .ok tr2 := h
        by_cases ha : seg.added = true
        · rw [if_pos ha] at h9
          by_cases hnr : next.removed = true
          · rw [if_pos hnr] at h9
            obtain ⟨tr3, h1, h2⟩ := bind_ok h9
            exact applyTextSegsGo_docInv M hM r rs (offset + seg.value.length)
              tr3 tr2 (step_docInv hinv h1 (textTokens_ok hM)) h2
          · rw [if_neg hnr] at h9
            obtain ⟨tr3, h1, h2⟩ := bind_ok h9
            exact applyTextSegsGo_docInv M hM next (r :: rs)
              (offset + seg.value.length) tr3 tr2
              (step_docInv hinv h1 (textTokens_ok hM)) h2
        · rw [if_neg ha] at h9
          by_cases hr : seg.removed = true
          · rw [if_pos hr] at h9
            by_cases hna : next.added = true
            · rw [if_pos hna] at h9
              obtain ⟨tr3, h1, h2⟩ := bind_ok h9
              exact applyTextSegsGo_docInv M hM r rs (offset + next.value.length)
                tr3 tr2 (step_docInv hinv h1 (textTokens_ok hM)) h2
            · rw [if_neg hna] at h9
              obtain ⟨tr3, h1, h2⟩ := bind_ok h9
              exact applyTextSegsGo_docInv M hM next (r :: rs) offset tr3 tr2
                (step_docInv hinv h1 (fun t ht => absurd ht (List.not_mem_nil t))) h2
          · rw [if_neg hr] at h9
            exact applyTextSegsGo_docInv M hM next (r :: rs)
              (offset + seg.value.length) tr tr2 hinv h9

end Recreate

namespace Recreate

theorem applyTextDiff_docInv {A : Node} {w : Bool} {tr : Transform}
    {diff : DiffResult} {tr2 : Transform} (hinv : DocInv A tr)
    (hroot : sortedMarks A.marks = true)
    (h : applyTextDiff w tr diff = .ok tr2) : DocInv A tr2 := by
  have hM : sortedMarks (tr.doc.marksAt (diff.textNodeStart + 1)) = true := by
    apply marksAt_sorted
    · exact selfParse_nodeOk hinv.2.2.1 hinv.2.2.2.2.2.2
    · rw [hinv.2.2.2.2.2.1]
      exact hroot
  unfold applyTextDiff applyTextSegs at h
  cases hsegs : (if w then
      diffWordsWithSpace ((diff.fromNode.map Node.textStr).getD [])
        ((diff.toNode.map Node.textStr).getD [])
    else diffChars ((diff.fromNode.map Node.textStr).getD [])
        ((diff.toNode.map Node.textStr).getD [])) with
  | nil =>
    rw [hsegs] at h
    have h2 : Except.ok tr = .ok tr2 := h
    cases h2
    exact hinv
  | cons seg rest =>
    rw [hsegs] at h
    exact applyTextSegsGo_docInv _ hM seg rest diff.textNodeStart tr tr2 hinv h

theorem applyMarkupDiff_docInv {A : Node} {tr : Transform} {diff : DiffResult}
    {tr2 : Transform} (hinv : DocInv A tr)
    (hmarks : ∀ tn, diff.toNode = some tn → tn.marks = [])
    (h : applyMarkupDiff tr diff = .ok tr2) : DocInv A tr2 := by
  unfold applyMarkupDiff at h
  cases hf : diff.fromNode with
  | none =>
    rw [hf] at h
    cases hg : diff.toNode with
    | none =>
      rw [hg] at h
      cases h
    | some tn =>
      rw [hg] at h
      cases h
  | some fn =>
    rw [hf] at h
    cases hg : diff.toNode with
    | none =>
      rw [hg] at h
      cases h
    | some tn =>
      rw [hg] at h
      exact step_docInv hinv h (hmarks tn hg)

theorem applyStructuralDiff_docInv {A : Node} {tr : Transform} {fromDoc toDocX : Node}
    {tr2 : Transform} (hinv : DocInv A tr)
    (hslice : toksOk (tokensList toDocX.content))
    (h : applyStructuralDiff tr fromDoc toDocX = .ok tr2) : DocInv A tr2 := by
  unfold applyStructuralDiff at h
  cases hg : getReplaceStep fromDoc toDocX with
  | none =>
    rw [hg] at h
    have h2 : Except.ok tr = .ok tr2 := h
    cases h2
    exact hinv
  | some s =>
    rw [hg] at h
    have h9 : (match tr.step s with
      | .ok tr3 => Except.ok tr3
      | .error e =>
        (Except.error ("ReplaceStep failed: " ++ e) : Except String Transform)) =
      .ok tr2 := h
    cases hs : tr.step s with
    | error e =>
      rw [hs] at h9
      have h2 : (Except.error ("ReplaceStep failed: " ++ e) :
        Except String Transform) = .ok tr2 := h9
      cases h2
    | ok tr3 =>
      rw [hs] at h9
      have h2 : Except.ok tr3 = .ok tr2 := h9
      cases h2
      obtain ⟨a, b, lo, hi, hshape⟩ := getReplaceStep_shape hg
      apply step_docInv hinv hs
      rw [hshape]
      exact sliceTokens_toksOk hslice lo hi

theorem applyDiff_docInv {A : Node} {w : Bool} {tr : Transform} {diff : DiffResult}
    {fromDoc toDocX : Node} {tr2 : Transform} (hinv : DocInv A tr)
    (hroot : sortedMarks A.marks = true)
    (hslice : toksOk (tokensList toDocX.content))
    (hmarks : ∀ tn, diff.toNode = some tn → tn.marks = [])
    (h : applyDiff w tr diff fromDoc toDocX = .ok tr2) : DocInv A tr2 := by
  unfold applyDiff at h
  cases ht : diff.type with
  | text =>
    rw [ht] at h
    exact applyTextDiff_docInv hinv hroot h
  | markup =>
    rw [ht] at h
    exact applyMarkupDiff_docInv hinv hmarks h
  | structural =>
    rw [ht] at h
    exact applyStructuralDiff_docInv hinv hslice h

theorem structuralLoop_docInv {A : Node} (w : Bool) (tnm : Node)
    (hnm : noMarksL tnm.content = true) (hroot : sortedMarks A.marks = true) :
    ∀ (fuel : Nat) (cur : Node) (tr tr2 : Transform), DocInv A tr →
      structuralLoop w tnm fuel cur tr = .ok tr2 → DocInv A tr2 := by
  intro fuel
  induction fuel with
  | zero =>
    intro cur tr tr2 _ h
    cases h
  | succ n ih =>
    intro cur tr tr2 hinv h
    unfold structuralLoop at h
    cases hs : findDiffStart tnm.content cur.content 0 with
    | none =>
      rw [hs] at h
      cases h
      exact hinv
    | some start =>
      rw [hs] at h
      cases he : findDiffEnd tnm.content cur.content with
      | none =>
        rw [he] at h
        cases h
        exact hinv
      | some q =>
        rw [he] at h
        obtain ⟨eT, eF⟩ := q
        dsimp only at h
        cases ha : applyDiff w tr (classifyDiff cur tnm start eF eT) cur tnm with
        | error e =>
          rw [ha] at h
          cases h
        | ok tr3 =>
          rw [ha] at h
          have hinv3 : DocInv A tr3 := by
            apply applyDiff_docInv hinv hroot (noMarksL_toksOk tnm.content hnm) _ ha
            intro tn htn
            rw [classifyDiff_toNode] at htn
            exact noMarksN_marks (nodeAtSeq_noMarks tnm.content start tn hnm htn)
          exact ih (removeMarks tr3.doc) tr3 tr2 hinv3 h

theorem recreateStructuralSteps_docInv {A : Node} {w : Bool} {toDoc : Node}
    {tr tr2 : Transform} (hinv : DocInv A tr) (hroot : sortedMarks A.marks = true)
    (h : recreateStructuralSteps w toDoc tr = .ok tr2) : DocInv A tr2 := by
  unfold recreateStructuralSteps at h
  have hnm : noMarksL (removeMarks toDoc).content = true := by
    unfold removeMarks
    cases toDoc with
    | text s m => exact rfl
    | elem t a m c =>
      rw [show (Node.elem t a m c).stripMarks =
        .elem t a [] (mergeTexts (stripMarksList c)) from rfl,
        show (Node.elem t a [] (mergeTexts (stripMarksList c))).content =
        mergeTexts (stripMarksList c) from rfl]
      exact mergeTexts_noMarks _ (stripMarksList_noMarks c)
  exact structuralLoop_docInv w (removeMarks toDoc) hnm hroot MAX_ITERATIONS
    (removeMarks tr.doc) tr tr2 hinv h

theorem allStepsLoop_docInv {A B : Node} (hB : toksOk (tokensList B.content)) :
    ∀ (fuel : Nat) (tr tr2 : Transform), DocInv A tr →
      allStepsLoop B fuel tr = .ok tr2 → DocInv A tr2 := by
  intro fuel
  induction fuel with
  | zero =>
    intro tr tr2 _ h
    cases h
  | succ n ih =>
    intro tr tr2 hinv h
    unfold allStepsLoop at h
    cases hg : getReplaceStep tr.doc B with
    | none =>
      simp only [hg] at h
      cases h
      exact hinv
    | some s =>
      simp only [hg] at h
      cases hs : tr.step s with
      | error e =>
        simp only [hs] at h
        cases h
      | ok tr3 =>
        simp only [hs] at h
        obtain ⟨a, b, lo, hi, hshape⟩ := getReplaceStep_shape hg
        have hinv3 : DocInv A tr3 := by
          apply step_docInv hinv hs
          rw [hshape]
          exact sliceTokens_toksOk hB lo hi
        exact ih tr3 tr2 hinv3 h

end Recreate

namespace Recreate

theorem foldlM_inv {α β : Type} (P : β → Prop) (f : β → α → Except String β)
    (hf : ∀ b a b2, P b → f b a = .ok b2 → P b2) :
    ∀ (L : List α) (b b2 : β), P b → List.foldlM f b L = .ok b2 → P b2
  | [], b, b2, hP, h => by
      have h2 : Except.ok b = .ok b2 := h
      cases h2
      exact hP
  | a :: L, b, b2, hP, h => by
      have h2 : (f b a >>= fun b3 => List.foldlM f b3 L) = .ok b2 := h
      obtain ⟨b1, h3, h4⟩ := bind_ok h2
      exact foldlM_inv P f hf L b1 b2 (hf b a b1 hP h3) h4

theorem reconcileMarksOne_docInv {A : Node} {tr : Transform} {tn : Node} {tp : Nat}
    {tr2 : Transform} (hinv : DocInv A tr)
    (h : reconcileMarksOne tr tn tp = .ok tr2) : DocInv A tr2 := by
  unfold reconcileMarksOne at h
  refine foldlM_inv (DocInv A) _ ?_ _ tr tr2 hinv h
  intro trA fp trB hP hbody
  obtain ⟨tr3, hf1, hf2⟩ := bind_ok hbody
  have hP3 : DocInv A tr3 := by
    refine foldlM_inv (DocInv A) _ ?_ _ trA tr3 hP hf1
    intro trx mk trY hPx hstep
    by_cases hc : Mark.isInSet mk tn.marks = true
    · rw [if_pos hc] at hstep
      have h2 : Except.ok trx = .ok trY := hstep
      cases h2
      exact hPx
    · rw [if_neg hc] at hstep
      exact step_docInv hPx hstep trivial
  refine foldlM_inv (DocInv A) _ ?_ _ tr3 trB hP3 hf2
  intro trx mk trY hPx hstep
  by_cases hc : Mark.isInSet mk fp.1.marks = true
  · rw [if_pos hc] at hstep
    have h2 : Except.ok trx = .ok trY := hstep
    cases h2
    exact hPx
  · rw [if_neg hc] at hstep
    exact step_docInv hPx hstep trivial

theorem recreateChangeMarkSteps_docInv {A B : Node} {tr tr2 : Transform}
    (hinv : DocInv A tr) (h : recreateChangeMarkSteps tr B = .ok tr2) :
    DocInv A tr2 := by
  unfold recreateChangeMarkSteps at h
  refine foldlM_inv (DocInv A) _ ?_ _ tr tr2 hinv h
  intro trA q trB hP hone
  exact reconcileMarksOne_docInv hP hone

theorem strip_tokens_content {d : Node} (hd : d.isText = false) :
    tokensList (removeMarks d).content = (tokensList d.content).map stripTok := by
  cases d with
  | text s m => simp [Node.isText] at hd
  | elem t a m c =>
    unfold removeMarks
    rw [show (Node.elem t a m c).stripMarks =
      .elem t a [] (mergeTexts (stripMarksList c)) from rfl,
      show (Node.elem t a [] (mergeTexts (stripMarksList c))).content =
      mergeTexts (stripMarksList c) from rfl,
      tokensList_mergeTexts, tokensList_stripMarks,
      show (Node.elem t a m c).content = c from rfl]

theorem toksOk_getElem {ts : List Token} {i : Nat} {t : Token}
    (h : toksOk ts) (hi : ts[i]? = some t) : tokOk t :=
  h t (List.mem_iff_getElem?.mpr ⟨i, hi⟩)

theorem node_ext {a b : Node} (ha : a.isText = false) (hb : b.isText = false)
    (h1 : a.typ = b.typ) (h2 : a.attrs = b.attrs) (h3 : a.marks = b.marks)
    (h4 : a.content = b.content) : a = b := by
  cases a with
  | text s m => simp [Node.isText] at ha
  | elem t1 a1 m1 c1 =>
    cases b with
    | text s m => simp [Node.isText] at hb
    | elem t2 a2 m2 c2 =>
      have e1 : t1 = t2 := h1
      have e2 : a1 = a2 := h2
      have e3 : m1 = m2 := h3
      have e4 : c1 = c2 := h4
      rw [e1, e2, e3, e4]

end Recreate

namespace Recreate

/-- Decidable form of token canonicity. -/
def tokOkB : Token → Bool
  | .charT _ ms => sortedMarks ms
  | .openT _ _ ms => ms.isEmpty
  | .closeT => true

theorem toksOk_of_all {ts : List Token} (h : ts.all tokOkB = true) : toksOk ts := by
  intro t ht
  have h2 := List.all_eq_true.mp h t ht
  cases t with
  | charT c ms => exact h2
  | openT ty a ms => exact List.isEmpty_iff.mp h2
  | closeT => exact trivial

theorem contentEqOfTokens {c1 c2 : List Node} (h1 : SelfParse c1) (h2 : SelfParse c2)
    (h : tokensList c1 = tokensList c2) : c1 = c2 := by
  unfold SelfParse at h1 h2
  rw [h] at h1
  rw [h1] at h2
  exact (Option.some.injEq _ _).mp h2

theorem docEqB {A B : Node} {tr2 : Transform} (hinv : DocInv A tr2)
    (hB1 : B.isText = false) (hB2 : SelfParse B.content)
    (hroot : A.typ = B.typ ∧ A.attrs = B.attrs ∧ A.marks = B.marks)
    (htoks : tokensList tr2.doc.content = tokensList B.content) :
    tr2.doc = B := by
  refine node_ext hinv.2.1 hB1 (hinv.2.2.2.1.trans hroot.1)
    (hinv.2.2.2.2.1.trans hroot.2.1) (hinv.2.2.2.2.2.1.trans hroot.2.2) ?_
  exact contentEqOfTokens hinv.2.2.1 hB2 htoks

theorem tokensEqFromPhase2 {B : Node} {tr2 : Transform}
    (hB3 : toksOk (tokensList B.content))
    (hok2 : toksOk (tokensList tr2.doc.content))
    (halign : ∀ i : Nat, (tokensList tr2.doc.content)[i]?.map stripTok =
      (tokensList B.content)[i]?.map stripTok)
    (hchar : ∀ (i : Nat) (c : Char) (ms : List Mark),
      (tokensList B.content)[i]? = some (Token.charT c ms) →
      (tokensList tr2.doc.content)[i]? = (tokensList B.content)[i]?) :
    tokensList tr2.doc.content = tokensList B.content := by
  apply List.ext_getElem?
  intro i
  cases hb : (tokensList B.content)[i]? with
  | none =>
    have ha := halign i
    rw [hb] at ha
    cases ht : (tokensList tr2.doc.content)[i]? with
    | none => rfl
    | some u =>
      rw [ht] at ha
      simp only [Option.map_some'] at ha
      cases ha
  | some t =>
    cases t with
    | charT c ms =>
      rw [hchar i c ms hb, hb]
    | openT ty a ms =>
      have hms : ms = [] := toksOk_getElem hB3 hb
      have ha := halign i
      rw [hb] at ha
      simp only [Option.map_some'] at ha
      cases ht : (tokensList tr2.doc.content)[i]? with
      | none =>
        rw [ht] at ha
        cases ha
      | some u =>
        rw [ht] at ha
        simp only [Option.map_some'] at ha
        have hu := (Option.some.injEq _ _).mp ha
        cases u with
        | charT c2 ms2 => cases hu
        | closeT => cases hu
        | openT ty2 a2 ms2 =>
          have h3 := (Token.openT.injEq _ _ _ _ _ _).mp hu
          have hms2 : ms2 = [] := toksOk_getElem hok2 ht
          rw [h3.1, h3.2.1, hms2, hms]
    | closeT =>
      have ha := halign i
      rw [hb] at ha
      simp only [Option.map_some'] at ha
      cases ht : (tokensList tr2.doc.content)[i]? with
      | none =>
        rw [ht] at ha
        cases ha
      | some u =>
        rw [ht] at ha
        simp only [Option.map_some'] at ha
        have hu := (Option.some.injEq _ _).mp ha
        cases u with
        | charT c2 ms2 => cases hu
        | openT ty2 a2 ms2 => cases hu
        | closeT => rfl

end Recreate

namespace Recreate

theorem complexModeDoc {A B : Node} {w : Bool} {tr2 : Transform}
    (hA1 : A.isText = false) (hB1 : B.isText = false)
    (hA2 : SelfParse A.content) (hB2 : SelfParse B.content)
    (hA3 : toksOk (tokensList A.content)) (hB3 : toksOk (tokensList B.content))
    (hroot : A.typ = B.typ ∧ A.attrs = B.attrs ∧ A.marks = B.marks)
    (hrm : sortedMarks A.marks = true)
    (h : (recreateStructuralSteps w B ⟨A, []⟩ >>= fun tr1 =>
      recreateChangeMarkSteps tr1 B) = .ok tr2) :
    DocInv A tr2 ∧ tr2.doc = B := by
  obtain ⟨tr1, h1, h2⟩ := bind_ok h
  have hinv0 : DocInv A ⟨A, []⟩ := ⟨rfl, hA1, hA2, rfl, rfl, rfl, hA3⟩
  have hinv1 : DocInv A tr1 := recreateStructuralSteps_docInv hinv0 hrm h1
  have hstrip : tokensList (removeMarks tr1.doc).content =
      tokensList (removeMarks B).content := by
    unfold recreateStructuralSteps at h1
    exact structuralLoop_ok_no_divergence w (removeMarks B) MAX_ITERATIONS
      (removeMarks (⟨A, []⟩ : Transform).doc) ⟨A, []⟩ tr1 rfl h1
  rw [strip_tokens_content hinv1.2.1, strip_tokens_content hB1] at hstrip
  have halign : ∀ i : Nat, (tokensList tr1.doc.content)[i]?.map stripTok =
      (tokensList B.content)[i]?.map stripTok := by
    intro i
    have h3 := congrArg (fun l : List Token => l[i]?) hstrip
    simpa only [List.getElem?_map] using h3
  have hsorted1 : ∀ (i : Nat) (c : Char) (ms : List Mark),
      (tokensList tr1.doc.content)[i]? = some (Token.charT c ms) →
      sortedMarks ms = true := fun i c ms hi =>
    toksOk_getElem hinv1.2.2.2.2.2.2 hi
  have hBsorted : ∀ (i : Nat) (c : Char) (ms : List Mark),
      (tokensList B.content)[i]? = some (Token.charT c ms) →
      sortedMarks ms = true := fun i c ms hi => toksOk_getElem hB3 hi
  have hsem := recreateChangeMarkSteps_sem A hinv1.2.1 hsorted1 hBsorted
    halign h2
  have hinv2 : DocInv A tr2 := recreateChangeMarkSteps_docInv hinv1 h2
  have htoks := tokensEqFromPhase2 hB3 hinv2.2.2.2.2.2.2 hsem.2.2.2.2.2.2.1
    hsem.2.2.2.2.2.2.2
  exact ⟨hinv2, docEqB hinv2 hB1 hB2 hroot htoks⟩

theorem simpleModeDoc {A B : Node} {tr2 : Transform}
    (hA1 : A.isText = false) (hB1 : B.isText = false)
    (hA2 : SelfParse A.content) (hB2 : SelfParse B.content)
    (hA3 : toksOk (tokensList A.content)) (hB3 : toksOk (tokensList B.content))
    (hroot : A.typ = B.typ ∧ A.attrs = B.attrs ∧ A.marks = B.marks)
    (h : recreateAllSteps B ⟨A, []⟩ = .ok tr2) :
    DocInv A tr2 ∧ tr2.doc = B := by
  have hinv0 : DocInv A ⟨A, []⟩ := ⟨rfl, hA1, hA2, rfl, rfl, rfl, hA3⟩
  unfold recreateAllSteps at h
  have hinv2 := allStepsLoop_docInv hB3 MAX_ITERATIONS ⟨A, []⟩ tr2 hinv0 h
  have htoks := allStepsLoop_ok_tokens B MAX_ITERATIONS ⟨A, []⟩ tr2 h
  exact ⟨hinv2, docEqB hinv2 hB1 hB2 hroot htoks⟩

end Recreate

namespace Recreate

set_option maxHeartbeats 4000000 in
/-- C1 counterexample: the round-trip property fails on documents that
differ only in their root attributes.  The divergence locator compares
only the root's content fragments, so for `exRootA` (root attribute
version=1) and `exRootB` (version=2) the reconstruction returns an empty
step list whose replay leaves the start document unchanged, which is not
equal to the target. -/
theorem roundTripFullDocs_cex :
    recreateTransform exRootA exRootB {} = .ok ⟨exRootA, []⟩ ∧
    applySteps exRootA (⟨exRootA, []⟩ : Transform).steps = .ok exRootA ∧
    exRootA ≠ exRootB := by
  refine ⟨by decide, rfl, by decide⟩

/-- C1 amended: for canonical documents — element roots, parse-normal
content (adjacent equal-marked text joined, no empty text leaves),
character marks in canonical sorted order, no marks on open tokens, a
sorted root mark list — with the same root type, attributes and marks,
whenever `recreateTransform` returns a transform (in any of the option
combinations), replaying its steps in order over the start document
reproduces the transform's document, and that document equals the target
document exactly.  (Root markup must agree because the divergence locator
compares only content fragments and never edits the root's own markup, as
the counterexample shows.) -/
theorem roundTripCanonicalDocs (A B : Node) (o : Options) (tr : Transform)
    (hA1 : A.isText = false) (hB1 : B.isText = false)
    (hA2 : parseTokens (tokensList A.content) = some A.content)
    (hB2 : parseTokens (tokensList B.content) = some B.content)
    (hA3 : (tokensList A.content).all tokOkB = true)
    (hB3 : (tokensList B.content).all tokOkB = true)
    (hroot : A.typ = B.typ ∧ A.attrs = B.attrs ∧ A.marks = B.marks)
    (hrm : sortedMarks A.marks = true)
    (hok : recreateTransform A B o = .ok tr) :
    applySteps A tr.steps = .ok tr.doc ∧ tr.doc = B := by
  have hA3' := toksOk_of_all hA3
  have hB3' := toksOk_of_all hB3
  unfold recreateTransform init at hok
  cases hcs : o.complexSteps with
  | false =>
    rw [hcs] at hok
    have hok3 : (recreateAllSteps B ⟨A, []⟩ >>= fun y =>
        pure (if o.simplifyDiff = true then simplifyTransform y else y)) =
        .ok tr := hok
    obtain ⟨trF, hbranch, hpure⟩ := bind_ok hok3
    have htr : trF = tr := by
      have h3 : Except.ok (if o.simplifyDiff = true then simplifyTransform trF
        else trF) = .ok tr := hpure
      cases h3
      rw [show simplifyTransform trF = trF from rfl, ite_self]
    subst htr
    obtain ⟨hinv2, hdoc⟩ := simpleModeDoc hA1 hB1 hA2 hB2 hA3' hB3' hroot hbranch
    exact ⟨hinv2.1, hdoc⟩
  | true =>
    rw [hcs] at hok
    have hok3 : (recreateStructuralSteps o.wordDiffs B ⟨A, []⟩ >>= fun tr1 =>
        recreateChangeMarkSteps tr1 B >>= fun y =>
        pure (if o.simplifyDiff = true then simplifyTransform y else y)) =
        .ok tr := hok
    obtain ⟨tr1, h1, hrest⟩ := bind_ok hok3
    obtain ⟨trF, h2, hpure⟩ := bind_ok hrest
    have htr : trF = tr := by
      have h3 : Except.ok (if o.simplifyDiff = true then simplifyTransform trF
        else trF) = .ok tr := hpure
      cases h3
      rw [show simplifyTransform trF = trF from rfl, ite_self]
    subst htr
    have hcomb : (recreateStructuralSteps o.wordDiffs B ⟨A, []⟩ >>= fun t1 =>
        recreateChangeMarkSteps t1 B) = .ok trF := by
      rw [h1]
      exact h2
    obtain ⟨hinv2, hdoc⟩ := complexModeDoc hA1 hB1 hA2 hB2 hA3' hB3' hroot hrm hcomb
    exact ⟨hinv2.1, hdoc⟩

/-- Canonical example documents for the round-trip witness: the same text
with different character marks. -/
def exC1A : Node := exDoc [exPara [Node.text "ab".data [exBold]]]

def exC1B : Node := exDoc [exPara [Node.text "ab".data [exItalic]]]

def exC1Tr : Transform :=
  ⟨exC1B, [Step.removeMark 1 3 exBold, Step.addMark 1 3 exItalic]⟩

set_option maxHeartbeats 4000000 in
theorem roundTripCanonicalDocs_witness :
    applySteps exC1A exC1Tr.steps = .ok exC1Tr.doc ∧ exC1Tr.doc = exC1B :=
  roundTripCanonicalDocs exC1A exC1B {} exC1Tr rfl rfl (by decide) (by decide)
    (by decide) (by decide) ⟨rfl, rfl, rfl⟩ rfl (by decide)

end Recreate
